import Mathlib

/-! # Ice thread pool (`cpp/src/Ice/ThreadPool.cpp`): framer, reactor loop and sizing

A shallow embedding of `IceInternal::ThreadPool` and the properties of its
specification.  Definitions follow the C++ source function by function; the
line numbers in the doc comments refer to `ThreadPool.cpp`.
-/

namespace IceInternal

/-! ## Streams, exceptions and handlers -/

/-- A value of `Ice::Byte` (an `unsigned char`): a number in `0..255`. -/
abbrev Byte := Nat

/-- The two public members of `BasicStream` the pool touches: the buffer `b`
and the cursor `i`, kept as the offset `i - b.begin()`. -/
structure BasicStream where
  b : List Byte
  i : Nat
deriving DecidableEq, Repr

/-- The `Ice::LocalException`s that `ThreadPool::read` and `ThreadPool::run`
tell apart.  `Other` stands for every other local exception a handler's
`read` may raise (connection lost, socket error, ...). -/
inductive LocalException where
  | BadMagicException (badMagic : List Byte)
  | UnsupportedProtocolException (badMajor badMinor major minor : Nat)
  | UnsupportedEncodingException (badMajor badMinor major minor : Nat)
  | IllegalMessageSizeException
  | MemoryLimitException
  | DatagramLimitException
  | UnmarshalOutOfBoundsException
  | TimeoutException
  | Other (code : Nat)
deriving DecidableEq, Repr

/-- How a call ends: it returns, it throws, or a C++ `assert` fails. -/
inductive Outcome where
  | ok
  | raised (e : LocalException)
  | assertFailed
deriving DecidableEq, Repr

/-- The constants of `Ice/Protocol.h` (`magic`, `protocolMajor`, ...,
`headerSize`) and the decoding of an `Ice::Int` by `BasicStream::read(Int&)`.
Neither file is part of the sources at hand, so they are parameters.  The
wire layout fixes `headerSize`: magic, four version bytes, message type,
compression flag and a four byte size. -/
structure Protocol where
  magic : List Byte
  protocolMajor : Byte
  protocolMinor : Byte
  encodingMajor : Byte
  encodingMinor : Byte
  headerSize : Nat
  decodeInt : Byte → Byte → Byte → Byte → Int
  layout : headerSize = magic.length + 10

/-- What a call of the virtual `EventHandler::read(BasicStream&)` leaves
behind: the transport, the stream, and the exception it threw, if any. -/
structure ReadCall (τ : Type) where
  transport : τ
  stream : BasicStream
  raised : Option LocalException

/-- An `EventHandler` object: the answers of `readable()` and `datagram()`,
the member `_stream`, the state of the underlying transport and the virtual
`read`. -/
structure EventHandler (τ : Type) where
  readable : Bool
  datagram : Bool
  stream : BasicStream
  transport : τ
  read : τ → BasicStream → ReadCall τ

/-- The result of `ThreadPool::read`: the handler as it is left, how the call
ended, how many times `handler->read` was called and how many warnings were
written to the logger. -/
structure ReadResult (τ : Type) where
  handler : EventHandler τ
  outcome : Outcome
  reads : Nat
  warnings : Nat

/-- The call `std::vector<Byte>::resize(n)`: keeps the first `n` bytes and
pads with zero bytes. -/
def resize (b : List Byte) (n : Nat) : List Byte :=
  b.take n ++ List.replicate (n - b.length) 0

/-- The call `BasicStream::readBlob(v, sz)`: the next `sz` bytes, cursor advanced;
`none` stands for `UnmarshalOutOfBoundsException`. -/
def BasicStream.readBlob (s : BasicStream) (sz : Nat) : Option (List Byte × BasicStream) :=
  if s.b.length - s.i < sz then none
  else some ((s.b.drop s.i).take sz, { s with i := s.i + sz })

/-- The call `BasicStream::read(Byte&)`. -/
def BasicStream.readByte (s : BasicStream) : Option (Byte × BasicStream) :=
  if s.i < s.b.length then some (s.b.getD s.i 0, { s with i := s.i + 1 }) else none

/-- The call `BasicStream::read(Int&)`: four bytes, decoded by the protocol. -/
def BasicStream.readInt (P : Protocol) (s : BasicStream) : Option (Int × BasicStream) :=
  if s.i + 4 ≤ s.b.length then
    some (P.decodeInt (s.b.getD s.i 0) (s.b.getD (s.i + 1) 0) (s.b.getD (s.i + 2) 0)
      (s.b.getD (s.i + 3) 0), { s with i := s.i + 4 })
  else none

/-! ## The framer `ThreadPool::read` -/

/-- Lines 703-716 of `ThreadPool::read`: an empty stream is resized to
`headerSize`; if the cursor is not at the end `handler->read` is called, after
which `stream.i == stream.b.end()` and `pos >= headerSize` are asserted. -/
def ThreadPool.fillHeader {τ : Type} (P : Protocol) (h : EventHandler τ) : ReadResult τ :=
  let s0 : BasicStream :=
    if h.stream.b.length = 0 then ⟨resize h.stream.b P.headerSize, 0⟩ else h.stream
  if s0.i ≠ s0.b.length then
    let r := h.read h.transport s0
    let h1 := { h with stream := r.stream, transport := r.transport }
    match r.raised with
    | some e => ⟨h1, Outcome.raised e, 1, 0⟩
    | none =>
      if r.stream.i ≠ r.stream.b.length then ⟨h1, Outcome.assertFailed, 1, 0⟩
      else if r.stream.i < P.headerSize then ⟨h1, Outcome.assertFailed, 1, 0⟩
      else ⟨h1, Outcome.ok, 1, 0⟩
  else if s0.i < P.headerSize then ⟨{ h with stream := s0 }, Outcome.assertFailed, 0, 0⟩
  else ⟨{ h with stream := s0 }, Outcome.ok, 0, 0⟩

/-- Lines 717-767 of `ThreadPool::read`: the header is read field by field
from the start of the buffer and checked.  The result is the stream as the
reads left it and either the size field or the exception thrown.
`messageSizeMax` is the value of `static_cast<Int>(_instance->messageSizeMax())`. -/
def ThreadPool.checkHeader (P : Protocol) (messageSizeMax : Int) (s : BasicStream) :
    BasicStream × Except LocalException Int :=
  match s.readBlob P.magic.length with
  | none => (s, Except.error LocalException.UnmarshalOutOfBoundsException)
  | some (m, s1) =>
  if m ≠ P.magic then (s1, Except.error (LocalException.BadMagicException m)) else
  match s1.readByte with
  | none => (s1, Except.error LocalException.UnmarshalOutOfBoundsException)
  | some (pMajor, s2) =>
  match s2.readByte with
  | none => (s2, Except.error LocalException.UnmarshalOutOfBoundsException)
  | some (pMinor, s3) =>
  if pMajor ≠ P.protocolMajor ∨ pMinor % 256 > P.protocolMinor % 256 then
    (s3, Except.error (LocalException.UnsupportedProtocolException (pMajor % 256) (pMinor % 256)
      (P.protocolMajor % 256) (P.protocolMinor % 256)))
  else
  match s3.readByte with
  | none => (s3, Except.error LocalException.UnmarshalOutOfBoundsException)
  | some (eMajor, s4) =>
  match s4.readByte with
  | none => (s4, Except.error LocalException.UnmarshalOutOfBoundsException)
  | some (eMinor, s5) =>
  if eMajor ≠ P.encodingMajor ∨ eMinor % 256 > P.encodingMinor % 256 then
    (s5, Except.error (LocalException.UnsupportedEncodingException (eMajor % 256) (eMinor % 256)
      (P.encodingMajor % 256) (P.encodingMinor % 256)))
  else
  match s5.readByte with
  | none => (s5, Except.error LocalException.UnmarshalOutOfBoundsException)
  | some (_messageType, s6) =>
  match s6.readByte with
  | none => (s6, Except.error LocalException.UnmarshalOutOfBoundsException)
  | some (_compress, s7) =>
  match s7.readInt P with
  | none => (s7, Except.error LocalException.UnmarshalOutOfBoundsException)
  | some (size, s8) =>
  if size < (P.headerSize : Int) then (s8, Except.error LocalException.IllegalMessageSizeException)
  else if size > messageSizeMax then (s8, Except.error LocalException.MemoryLimitException)
  else (s8, Except.ok size)

/-- Lines 768-792 of `ThreadPool::read`, entered with the size field `size`
and the number `pos` of bytes received so far: the buffer grows to `size`,
the cursor goes back to `pos`; if it is not at the end, a datagram handler
gets `DatagramLimitException` (with `_warnUdp` set the stream is emptied inside
the warning block first) and any other handler reads the rest.  Buffer
lengths are far below `2^31`, so `static_cast<Int>(stream.b.size())` is the
length itself. -/
def ThreadPool.readBody {τ : Type} (warnUdp : Bool) (h : EventHandler τ) (size : Int) (pos : Nat)
    (reads : Nat) : ReadResult τ :=
  let b1 := if size > (h.stream.b.length : Int) then resize h.stream.b size.toNat else h.stream.b
  let s1 : BasicStream := ⟨b1, pos⟩
  if s1.i ≠ s1.b.length then
    if h.datagram then
      if warnUdp then ⟨{ h with stream := ⟨resize s1.b 0, 0⟩ },
        Outcome.raised LocalException.DatagramLimitException, reads, 1⟩
      else ⟨{ h with stream := s1 }, Outcome.raised LocalException.DatagramLimitException, reads, 0⟩
    else
      let r := h.read h.transport s1
      let h1 := { h with stream := r.stream, transport := r.transport }
      match r.raised with
      | some e => ⟨h1, Outcome.raised e, reads + 1, 0⟩
      | none =>
        if r.stream.i ≠ r.stream.b.length then ⟨h1, Outcome.assertFailed, reads + 1, 0⟩
        else ⟨h1, Outcome.ok, reads + 1, 0⟩
  else ⟨{ h with stream := s1 }, Outcome.ok, reads, 0⟩

/-- The framer `ThreadPool::read(handler)` (lines 698-793). -/
def ThreadPool.read {τ : Type} (P : Protocol) (messageSizeMax : Int) (warnUdp : Bool)
    (h : EventHandler τ) : ReadResult τ :=
  let r1 := ThreadPool.fillHeader P h
  match r1.outcome with
  | Outcome.ok =>
    let pos := r1.handler.stream.i
    match ThreadPool.checkHeader P messageSizeMax { r1.handler.stream with i := 0 } with
    | (s, Except.error e) => ⟨{ r1.handler with stream := s }, Outcome.raised e, r1.reads, 0⟩
    | (s, Except.ok size) => ThreadPool.readBody warnUdp { r1.handler with stream := s } size pos r1.reads
  | _ => r1

/-! ## The header checks as the specification lists them -/

/-- The magic bytes of a received header. -/
def hdrMagic (P : Protocol) (b : List Byte) : List Byte := b.take P.magic.length

/-- The byte at offset `k` after the magic bytes. -/
def hdrByte (P : Protocol) (b : List Byte) (k : Nat) : Byte := b.getD (P.magic.length + k) 0

/-- The size field of a received header. -/
def hdrSize (P : Protocol) (b : List Byte) : Int :=
  P.decodeInt (hdrByte P b 6) (hdrByte P b 7) (hdrByte P b 8) (hdrByte P b 9)

/-- Check 2: the major differs or the minor, as an unsigned byte, is too large. -/
def badProtocol (P : Protocol) (b : List Byte) : Prop :=
  hdrByte P b 0 ≠ P.protocolMajor ∨ hdrByte P b 1 % 256 > P.protocolMinor % 256

/-- Check 3: the same rule on the encoding bytes. -/
def badEncoding (P : Protocol) (b : List Byte) : Prop :=
  hdrByte P b 2 ≠ P.encodingMajor ∨ hdrByte P b 3 % 256 > P.encodingMinor % 256

instance (P : Protocol) (b : List Byte) : Decidable (badProtocol P b) := by
  unfold badProtocol; infer_instance

instance (P : Protocol) (b : List Byte) : Decidable (badEncoding P b) := by
  unfold badEncoding; infer_instance

/-- All five header checks pass. -/
def headerValid (P : Protocol) (messageSizeMax : Int) (b : List Byte) : Prop :=
  hdrMagic P b = P.magic ∧ ¬ badProtocol P b ∧ ¬ badEncoding P b ∧
    (P.headerSize : Int) ≤ hdrSize P b ∧ hdrSize P b ≤ messageSizeMax

instance (P : Protocol) (m : Int) (b : List Byte) : Decidable (headerValid P m b) := by
  unfold headerValid; infer_instance

/-- The five exceptions of the header validation. -/
def isHeaderError : LocalException → Bool
  | LocalException.BadMagicException _ => true
  | LocalException.UnsupportedProtocolException _ _ _ _ => true
  | LocalException.UnsupportedEncodingException _ _ _ _ => true
  | LocalException.IllegalMessageSizeException => true
  | LocalException.MemoryLimitException => true
  | _ => false

/-- The first failing check of section 4.4, or the size field when all pass. -/
def headerVerdict (P : Protocol) (messageSizeMax : Int) (b : List Byte) : Except LocalException Int :=
  if hdrMagic P b ≠ P.magic then Except.error (LocalException.BadMagicException (hdrMagic P b))
  else if badProtocol P b then
    Except.error (LocalException.UnsupportedProtocolException (hdrByte P b 0 % 256)
      (hdrByte P b 1 % 256) (P.protocolMajor % 256) (P.protocolMinor % 256))
  else if badEncoding P b then
    Except.error (LocalException.UnsupportedEncodingException (hdrByte P b 2 % 256)
      (hdrByte P b 3 % 256) (P.encodingMajor % 256) (P.encodingMinor % 256))
  else if hdrSize P b < (P.headerSize : Int) then
    Except.error LocalException.IllegalMessageSizeException
  else if hdrSize P b > messageSizeMax then Except.error LocalException.MemoryLimitException
  else Except.ok (hdrSize P b)

/-! ## Example protocol and transports -/

/-- Little-endian two's complement decoding of four bytes. -/
def decodeIntLE (b0 b1 b2 b3 : Byte) : Int :=
  let u : Nat := b0 % 256 + 256 * (b1 % 256) + 65536 * (b2 % 256) + 16777216 * (b3 % 256)
  if u < 2147483648 then (u : Int) else (u : Int) - 4294967296

/-- Modelled from the spec: the constants of `Ice/Protocol.h` and the `Int`
decoding of `BasicStream`, which are not among the sources; section 6 gives
the layout "magic | protoMajor | protoMinor | encMajor | encMinor | type |
compress | totalSize (i32)".  The values are those of Ice 1.x: magic `IceP`,
protocol and encoding 1.0, a 14 byte header, little-endian integers. -/
def iceProtocol : Protocol where
  magic := [73, 99, 101, 80]
  protocolMajor := 1
  protocolMinor := 0
  encodingMajor := 1
  encodingMinor := 0
  headerSize := 14
  decodeInt := decodeIntLE
  layout := rfl

/-- Modelled from the spec: the `read` of a stream (non-datagram) handler,
whose transceiver is not among the sources; section 3: "append bytes from the
underlying transport into stream up to the stream's target length; must make
progress or fail".  The transport is the list of bytes still to come; with
too few of them the available ones are stored and the call times out. -/
def streamRead (pending : List Byte) (s : BasicStream) : ReadCall (List Byte) :=
  let n := s.b.length - s.i
  if pending.length < n then
    ⟨[], ⟨s.b.take s.i ++ pending ++ s.b.drop (s.i + pending.length), s.i + pending.length⟩,
      some LocalException.TimeoutException⟩
  else ⟨pending.drop n, ⟨s.b.take s.i ++ pending.take n, s.b.length⟩, none⟩

/-- A stream handler with an empty stream and the given bytes yet to arrive. -/
def streamHandler (pending : List Byte) : EventHandler (List Byte) :=
  ⟨true, false, ⟨[], 0⟩, pending, streamRead⟩

/-- Modelled from the spec: the `read` of a datagram handler, whose
transceiver is not among the sources: one packet is received whole, the
stream becomes that packet with the cursor at its end ("datagrams are
one-shot", section 4.4).  The transport is the list of packets to come. -/
def datagramRead (packets : List (List Byte)) (s : BasicStream) : ReadCall (List (List Byte)) :=
  match packets with
  | [] => ⟨[], s, some LocalException.TimeoutException⟩
  | p :: rest => ⟨rest, ⟨p, p.length⟩, none⟩

/-- A datagram handler with an empty stream and the given packets to come. -/
def datagramHandler (packets : List (List Byte)) : EventHandler (List (List Byte)) :=
  ⟨true, true, ⟨[], 0⟩, packets, datagramRead⟩

/-- A frame with the header of `iceProtocol` whose size field is 13, one less
than the header size. -/
def shortFrame : List Byte := [73, 99, 101, 80, 1, 0, 1, 0, 0, 0, 13, 0, 0, 0]

/-- A valid header of `iceProtocol` announcing a total size of 18 bytes. -/
def header18 : List Byte := [73, 99, 101, 80, 1, 0, 1, 0, 0, 0, 18, 0, 0, 0]

/-- A datagram packet with the header `header18` and only two of the four
payload bytes. -/
def halfPacket : List Byte := header18 ++ [1, 2]

/-! ## The pool: descriptors, handler table, pending changes -/

/-- Modelled from the spec: the "sentinel invalid value" of section 3.
`Ice/Network.h` is not among the sources; on Unix a `SOCKET` is an `int`
(descriptors are `Int` throughout) and `INVALID_SOCKET` is `-1`. -/
def INVALID_SOCKET : Int := -1

/-- Modelled from the spec: `SOCKET_ERROR` of `Ice/Network.h`, the error
return of `select`; `-1` on Unix. -/
def SOCKET_ERROR : Int := -1

/-- An `EventHandlerPtr`: `none` is the null handle, `some k` points to the
handler object `k`. -/
abbrev EventHandlerPtr := Option Nat

/-- The call `std::map::insert(make_pair(k, v))` on a map kept as the list of
its entries in ascending key order: an existing key keeps its old value. -/
def mapInsert (m : List (Int × Nat)) (k : Int) (v : Nat) : List (Int × Nat) :=
  match m with
  | [] => [(k, v)]
  | e :: rest =>
    if k < e.1 then (k, v) :: e :: rest
    else if k = e.1 then e :: rest
    else e :: mapInsert rest k v

/-- The call `std::map::find(k)`: the value of the entry with key `k`. -/
def mapFind (m : List (Int × Nat)) (k : Int) : Option Nat :=
  match m with
  | [] => none
  | e :: rest => if e.1 = k then some e.2 else mapFind rest k

/-- The call `std::map::erase(p)` for the iterator `p` returned by `find(k)`. -/
def mapErase (m : List (Int × Nat)) (k : Int) : List (Int × Nat) :=
  match m with
  | [] => []
  | e :: rest => if e.1 = k then rest else e :: mapErase rest k

/-- The keys of the handler table. -/
def mapKeys (m : List (Int × Nat)) : List Int := m.map Prod.fst

/-- The data members of `ThreadPool` (guarded by the monitor), without the
thread handles `_threads`, which matter only for joining. `fdSet` is the
`fd_set` as the set of descriptors whose bit is set; `load` is the load
factor in exact arithmetic. -/
structure ThreadPool where
  destroyed : Bool
  fdIntrRead : Int
  fdSet : Finset Int
  maxFd : Int
  minFd : Int
  lastFd : Int
  timeout : Int
  changes : List (Int × EventHandlerPtr)
  handlerMap : List (Int × Nat)
  size : Int
  sizeMax : Int
  sizeWarn : Int
  stackSize : Int
  running : Int
  inUse : Int
  load : ℚ
  promote : Bool
deriving DecidableEq

/-- What the pool does to the outside: calls of handler methods, of the
object-adapter factory and of the logger, in the order they are made. -/
inductive Callback where
  | read (handler : Nat)
  | message (handler : Nat) (stream : BasicStream)
  | exception (handler : Nat) (e : LocalException)
  | finished (handler : Nat)
  | shutdown
  | warning
  | error
deriving DecidableEq, Repr

/-- The pool together with what it shares with its environment: the number
of unread bytes in the interrupt pipe, the handler objects (by identity) and
the calls made so far. -/
structure World (τ : Type) where
  pool : ThreadPool
  pipe : Nat
  objs : Nat → EventHandler τ
  trace : List Callback

/-- What the pool reads from `_instance` and `Ice/Protocol.h`. -/
structure Config where
  protocol : Protocol
  messageSizeMax : Int
  warnUdp : Bool

/-- The values `getPropertyAsIntWithDefault` finds for the four sizing
properties (`none`: the property is not set). -/
structure Properties where
  size : Option Int
  sizeMax : Option Int
  sizeWarn : Option Int
  stackSize : Option Int

/-- The value of a C++ `int` computation: reduction to 32 bit two's complement. -/
def wrapInt (x : Int) : Int := (x + 2147483648) % 4294967296 - 2147483648

/-- The constructor (lines 28-113) when every `thread->start` succeeds: the
pipe's read end is the only descriptor, the sizing properties are clamped and
`size` threads run. -/
def ThreadPool.create (props : Properties) (fdIntrRead : Int) (timeout : Int) : ThreadPool :=
  let size0 := props.size.getD 1
  let size := if size0 < 1 then 1 else size0
  let sizeMax0 := props.sizeMax.getD size
  let sizeMax := if sizeMax0 < size then size else sizeMax0
  let sizeWarn := props.sizeWarn.getD (Int.tdiv (wrapInt (sizeMax * 80)) 100)
  let stackSize0 := props.stackSize.getD 0
  let stackSize := if stackSize0 < 0 then 0 else stackSize0
  { destroyed := false, fdIntrRead := fdIntrRead, fdSet := {fdIntrRead}, maxFd := fdIntrRead,
    minFd := fdIntrRead, lastFd := INVALID_SOCKET, timeout := timeout, changes := [],
    handlerMap := [], size := size, sizeMax := sizeMax, sizeWarn := sizeWarn,
    stackSize := stackSize, running := size, inUse := 0, load := 0, promote := true }

/-- The world right after construction: nothing was written to the pipe and
no call was made. -/
def World.init {τ : Type} (props : Properties) (fdIntrRead : Int) (timeout : Int)
    (objs : Nat → EventHandler τ) : World τ :=
  ⟨ThreadPool.create props fdIntrRead timeout, 0, objs, []⟩

/-- The method `destroy` (lines 140-149); `none` when an `assert` fails. -/
def ThreadPool.destroy {τ : Type} (w : World τ) : Option (World τ) :=
  if w.pool.destroyed then none
  else if w.pool.handlerMap ≠ [] then none
  else if w.pool.changes ≠ [] then none
  else some { w with pool := { w.pool with destroyed := true }, pipe := w.pipe + 1 }

/-- The method `_register` (lines 151-158): the change is queued and one byte
is written to the pipe; `none` when the `assert` fails. -/
def ThreadPool._register {τ : Type} (w : World τ) (fd : Int) (handler : EventHandlerPtr) :
    Option (World τ) :=
  if w.pool.destroyed then none
  else some { w with pool := { w.pool with changes := w.pool.changes ++ [(fd, handler)] },
                     pipe := w.pipe + 1 }

/-- The method `unregister` (lines 160-167). -/
def ThreadPool.unregister {τ : Type} (w : World τ) (fd : Int) : Option (World τ) :=
  if w.pool.destroyed then none
  else some { w with pool := { w.pool with changes := w.pool.changes ++ [(fd, none)] },
                     pipe := w.pipe + 1 }

/-- The method `promoteFollower` (lines 169-209).  `spawnOk` tells whether
`thread->start` succeeds, should a thread be created.  The result is the pool
and the log entries written; `none` when an `assert` fails. -/
def ThreadPool.promoteFollower (p : ThreadPool) (spawnOk : Bool) :
    Option (ThreadPool × List Callback) :=
  if p.sizeMax > 1 then
    if p.promote then none
    else
      let p1 := { p with promote := true }
      if ¬ p1.destroyed then
        if ¬ (p1.inUse ≥ 0) then none
        else
          let p2 := { p1 with inUse := p1.inUse + 1 }
          let log1 := if p2.inUse = p2.sizeWarn then [Callback.warning] else []
          if ¬ (p2.inUse ≤ p2.running) then none
          else if p2.inUse < p2.sizeMax ∧ p2.inUse = p2.running then
            if spawnOk then some ({ p2 with running := p2.running + 1 }, log1)
            else some (p2, log1 ++ [Callback.error])
          else some (p2, log1)
      else some (p1, [])
  else some (p, [])

/-- The conversion `static_cast<int>(x)` of a `double`, in exact arithmetic:
the fraction is cut off (rounding towards zero). -/
def truncToInt (x : ℚ) : Int := if 0 ≤ x then ⌊x⌋ else ⌈x⌉

/-- How one pass through the body of `while(true)` in `run` ends. -/
inductive Flow where
  | continued
  | dispatched
  | returned (promote : Bool)
  | waiting
  | threw
  | assertFailed
  | diverged
deriving DecidableEq, Repr

/-- The size policy at the end of the loop body (lines 634-686), up to the
wait for promotion: dead threads are reaped (no effect on the members kept
here), the load factor is updated, and the thread either retires
(`return false`) or only gives up its `_inUse` count and waits. -/
def ThreadPool.sizePolicy (p : ThreadPool) : ThreadPool × Flow :=
  if p.sizeMax > 1 then
    if ¬ p.destroyed then
      let loadFactor : ℚ := 5 / 100
      let oneMinusLoadFactor : ℚ := 1 - loadFactor
      let p1 := { p with load := p.load * oneMinusLoadFactor + (p.inUse : ℚ) * loadFactor }
      if p1.running > p1.size ∧ truncToInt (p1.load + 1) < p1.running then
        if ¬ (p1.inUse > 0) then (p1, Flow.assertFailed)
        else if ¬ (p1.running > 0) then (p1, Flow.assertFailed)
        else ({ p1 with inUse := p1.inUse - 1, running := p1.running - 1 }, Flow.returned false)
      else if ¬ (p1.inUse > 0) then (p1, Flow.assertFailed)
      else ({ p1 with inUse := p1.inUse - 1 }, Flow.waiting)
    else (p, Flow.waiting)
  else (p, Flow.continued)

/-- The wait for promotion (lines 310-320 and 688-693): a thread leaves it
only when `_promote` is set, and clears the flag. -/
def ThreadPool.acquireLeader (p : ThreadPool) : Option ThreadPool :=
  if p.sizeMax > 1 then
    if p.promote then some { p with promote := false } else none
  else some p

/-- The `do ... while` of the Unix round robin (lines 482-490), run for at
most `fuel` passes: the descriptor reached and the number of wrap-arounds. -/
def roundRobinLoop (minFd maxFd : Int) (fdSet : Finset Int) :
    Nat → Int → Nat → Option (Int × Nat)
  | 0, _, _ => none
  | fuel + 1, lastFd, loops =>
    let next : Int × Nat := if lastFd + 1 > maxFd then (minFd, loops + 1) else (lastFd + 1, loops)
    if next.1 ∉ fdSet ∧ next.2 ≤ 1 then roundRobinLoop minFd maxFd fdSet fuel next.1 next.2
    else some next

/-- The Unix round robin (lines 473-490): `_lastFd` is pulled up to
`_minFd - 1` if it is below or invalid, then the loop runs; it needs at most
`2 * (_maxFd - _minFd) + 3` passes. -/
def ThreadPool.roundRobin (p : ThreadPool) (fdSet : Finset Int) : Option (Int × Nat) :=
  let lastFd := if p.lastFd < p.minFd - 1 ∨ p.lastFd = INVALID_SOCKET then p.minFd - 1 else p.lastFd
  roundRobinLoop p.minFd p.maxFd fdSet (2 * (p.maxFd - p.minFd).toNat + 3) lastFd 0

/-- How draining one change ends. -/
inductive Drained where
  | added
  | removed (handler : Nat)
  | assertFailed
deriving DecidableEq, Repr

/-- Lines 397-427 of `run`: the oldest change is taken from the queue and
applied to the handler table, the descriptor set and its bounds. -/
def ThreadPool.applyChange (p : ThreadPool) : ThreadPool × Drained :=
  match p.changes with
  | [] => (p, Drained.assertFailed)
  | (fd, some handler) :: rest =>
    ({ p with changes := rest, handlerMap := mapInsert p.handlerMap fd handler,
              fdSet := insert fd p.fdSet, maxFd := max p.maxFd fd, minFd := min p.minFd fd },
      Drained.added)
  | (fd, none) :: rest =>
    match mapFind p.handlerMap fd with
    | none => ({ p with changes := rest }, Drained.assertFailed)
    | some handler =>
      let m := mapErase p.handlerMap fd
      let maxFd := match m.getLast? with
        | none => p.fdIntrRead
        | some e => max p.fdIntrRead e.1
      let minFd := match m.head? with
        | none => p.fdIntrRead
        | some e => min p.fdIntrRead e.1
      ({ p with changes := rest, handlerMap := m, fdSet := p.fdSet.erase fd, maxFd := maxFd,
                minFd := minFd }, Drained.removed handler)

/-- Lines 576-631 of `run`: a message is read for the selected handler, if
it is readable, and handed to `handler->message`. -/
def ThreadPool.dispatchMessage {τ : Type} (cfg : Config) (w : World τ) (handler : Nat) :
    World τ × Flow :=
  if (w.objs handler).readable then
    let r := ThreadPool.read cfg.protocol cfg.messageSizeMax cfg.warnUdp (w.objs handler)
    let w1 : World τ := { w with
      objs := Function.update w.objs handler r.handler,
      trace := w.trace ++ List.replicate r.reads (Callback.read handler) ++
        List.replicate r.warnings Callback.warning }
    match r.outcome with
    | Outcome.assertFailed => (w1, Flow.assertFailed)
    | Outcome.raised LocalException.TimeoutException => (w1, Flow.continued)
    | Outcome.raised LocalException.DatagramLimitException => (w1, Flow.continued)
    | Outcome.raised e =>
      ({ w1 with trace := w1.trace ++ [Callback.exception handler e] }, Flow.continued)
    | Outcome.ok =>
      let w2 : World τ := { w1 with
        objs := Function.update w.objs handler { r.handler with stream := ⟨[], 0⟩ } }
      if r.handler.stream.i ≠ r.handler.stream.b.length then (w2, Flow.assertFailed)
      else ({ w2 with trace := w2.trace ++ [Callback.message handler r.handler.stream] },
        Flow.dispatched)
  else ({ w with trace := w.trace ++ [Callback.message handler ⟨[], 0⟩] }, Flow.dispatched)

/-- What the environment contributes to one pass of the loop: the return
value of `select`, the descriptors it left set, whether the error return was
an interruption, whether the communicator is already destroyed when the
object-adapter factory is asked for, and whether a thread can be started. -/
structure Wake where
  ret : Int
  fdSet : Finset Int
  interrupted : Bool
  communicatorDestroyed : Bool
  spawnOk : Bool

/-- One pass through the body of `while(true)` in `run` (lines 322-632),
Unix variant, from the return of `select` to the end of the dispatch. -/
def ThreadPool.run {τ : Type} (cfg : Config) (w : World τ) (k : Wake) : World τ × Flow :=
  if k.ret = SOCKET_ERROR then
    if k.interrupted then (w, Flow.continued)
    else ({ w with trace := w.trace ++ [Callback.error] }, Flow.continued)
  else if k.ret = 0 then
    if ¬ (w.pool.timeout > 0) then (w, Flow.assertFailed)
    else
      let w1 : World τ := { w with pool := { w.pool with timeout := 0 } }
      if k.communicatorDestroyed then (w1, Flow.continued)
      else
        match ThreadPool.promoteFollower w1.pool k.spawnOk with
        | none => (w1, Flow.assertFailed)
        | some (p, logs) =>
          ({ w1 with pool := p, trace := w1.trace ++ logs ++ [Callback.shutdown] }, Flow.dispatched)
  else if w.pool.fdIntrRead ∈ k.fdSet then
    if w.pool.destroyed then (w, Flow.returned true)
    else if w.pipe = 0 then (w, Flow.threw)
    else
      let w1 : World τ := { w with pipe := w.pipe - 1 }
      match ThreadPool.applyChange w1.pool with
      | (p, Drained.assertFailed) => ({ w1 with pool := p }, Flow.assertFailed)
      | (p, Drained.added) => ({ w1 with pool := p }, Flow.continued)
      | (p, Drained.removed handler) =>
        ({ w1 with pool := p, trace := w1.trace ++ [Callback.finished handler] }, Flow.dispatched)
  else
    match ThreadPool.roundRobin w.pool k.fdSet with
    | none => (w, Flow.diverged)
    | some (lastFd, loops) =>
      let w1 : World τ := { w with pool := { w.pool with lastFd := lastFd } }
      if loops > 1 then ({ w1 with trace := w1.trace ++ [Callback.error] }, Flow.continued)
      else if lastFd = w1.pool.fdIntrRead then (w1, Flow.assertFailed)
      else
        match mapFind w1.pool.handlerMap lastFd with
        | none => ({ w1 with trace := w1.trace ++ [Callback.error] }, Flow.continued)
        | some handler => ThreadPool.dispatchMessage cfg w1 handler

/-- Modelled from the spec: the readiness primitive `::select` on the
descriptors of `_fdSet`, an operating system call.  `ready` are the handler
descriptors with data to read; the interrupt read end is readable exactly
when a byte written to the pipe is still unread (section 4.1).  The result
is what `select` hands back: the descriptors left set, and their number as
return value. -/
def select {τ : Type} (w : World τ) (ready : Finset Int) : Int × Finset Int :=
  let s := w.pool.fdSet.filter
    (fun fd => if fd = w.pool.fdIntrRead then 0 < w.pipe else fd ∈ ready)
  ((s.card : Int), s)

/-- A wake-up of the leader after `select` returned normally with the given
descriptors ready. -/
def wakeOn {τ : Type} (w : World τ) (ready : Finset Int) : Wake :=
  ⟨(select w ready).1, (select w ready).2, false, false, true⟩

/-- What can happen to a pool: calls of its methods by the enclosing
runtime or by handlers, and the steps of its worker threads, each taken
under the monitor or, for the dispatch, by the one thread that left it. -/
inductive Event where
  | register (fd : Int) (handler : EventHandlerPtr)
  | unregister (fd : Int)
  | destroy
  | wake (k : Wake)
  | promoteFollower (spawnOk : Bool)
  | sizePolicy
  | acquireLeader

/-- The effect of one event; `none` when an `assert` fails, an exception
leaves `run`, or the round robin runs out of passes. -/
def World.step {τ : Type} (cfg : Config) (w : World τ) : Event → Option (World τ)
  | Event.register fd handler => ThreadPool._register w fd handler
  | Event.unregister fd => ThreadPool.unregister w fd
  | Event.destroy => ThreadPool.destroy w
  | Event.wake k =>
    match ThreadPool.run cfg w k with
    | (_, Flow.assertFailed) => none
    | (_, Flow.threw) => none
    | (_, Flow.diverged) => none
    | (w1, _) => some w1
  | Event.promoteFollower spawnOk =>
    match ThreadPool.promoteFollower w.pool spawnOk with
    | none => none
    | some (p, logs) => some { w with pool := p, trace := w.trace ++ logs }
  | Event.sizePolicy =>
    match ThreadPool.sizePolicy w.pool with
    | (_, Flow.assertFailed) => none
    | (p, _) => some { w with pool := p }
  | Event.acquireLeader =>
    match ThreadPool.acquireLeader w.pool with
    | none => none
    | some p => some { w with pool := p }

/-- The effect of a sequence of events on the pool and its environment. -/
def World.exec {τ : Type} (cfg : Config) (w : World τ) : List Event → Option (World τ)
  | [] => some w
  | e :: es =>
    match World.step cfg w e with
    | none => none
    | some w1 => World.exec cfg w1 es

/-- Invariant 5 of section 3: the keys of the handler table are the
descriptors of `fd_set` other than the interrupt read end. -/
def KeysMatch (p : ThreadPool) : Prop :=
  ∀ fd : Int, fd ∈ mapKeys p.handlerMap ↔ (fd ∈ p.fdSet ∧ fd ≠ p.fdIntrRead)

/-- The members of the pool that hold the descriptor bookkeeping. -/
def ThreadPool.descriptors (p : ThreadPool) :
    Int × Finset Int × List (Int × Nat) × List (Int × EventHandlerPtr) :=
  (p.fdIntrRead, p.fdSet, p.handlerMap, p.changes)

/-- The bookkeeping invariant in its inductive form: the key set matches the
descriptor set, the handler table is in ascending key order, and no queued
addition names the interrupt read end `intr`. -/
def Bookkeeping (intr : Int) (p : ThreadPool) : Prop :=
  p.fdIntrRead = intr ∧ KeysMatch p ∧ (mapKeys p.handlerMap).Pairwise (· < ·) ∧
    ∀ fd h, (fd, some h) ∈ p.changes → fd ≠ intr

/-- The sizing invariants 1 and 2 of section 3:
`0 ≤ in_use ≤ running ≤ size_max` and `size ≤ running`. -/
def SizingInv (p : ThreadPool) : Prop :=
  0 ≤ p.inUse ∧ p.inUse ≤ p.running ∧ p.running ≤ p.sizeMax ∧ p.size ≤ p.running

instance (p : ThreadPool) : Decidable (SizingInv p) := by
  unfold SizingInv; infer_instance

/-- A pool with `Size=2`, `SizeMax=4`, `SizeWarn=3` in which the leader has
been taken (`promote` is clear), two threads run and one is in use. -/
def busyPool : ThreadPool :=
  { ThreadPool.create ⟨some 2, some 4, some 3, none⟩ 3 0 with promote := false, inUse := 1 }

/-- What holds of the load factor in every pool reached from construction
(exact arithmetic): it is not negative, it is a fraction with a power of 20
as denominator, and when it is a whole number other than 0 then `in_use`
exceeds it by at least 18. -/
def LoadInv (p : ThreadPool) : Prop :=
  0 ≤ p.load ∧ (∃ n : ℕ, ∃ a : ℤ, p.load * 20 ^ n = (a : ℚ)) ∧
    ∀ z : ℤ, p.load = (z : ℚ) → z = 0 ∨ z + 18 ≤ p.inUse

/-- The members of the pool that the sizing policy reads and writes. -/
def ThreadPool.sizing (p : ThreadPool) : Int × Int × Int × Int × ℚ :=
  (p.size, p.sizeMax, p.running, p.inUse, p.load)

/-- The sizing invariant together with the facts about the load factor. -/
def Sized (p : ThreadPool) : Prop := SizingInv p ∧ LoadInv p

/-- The load factor after the update of the size policy (line 666). -/
def newLoad (p : ThreadPool) : ℚ := p.load * (1 - 5 / 100) + (p.inUse : ℚ) * (5 / 100)

/-- The world of a pool built with `Size=1`, `SizeMax=4` and the interrupt
read end on descriptor 3. -/
def elasticWorld : World (List Byte) :=
  World.init ⟨some 1, some 4, none, none⟩ 3 0 (fun _ => streamHandler [])

/-- The first worker becomes leader and promotes a follower, for which a
second thread is started. -/
def firstPromotion : List Event := [Event.acquireLeader, Event.promoteFollower true]

/-- The pool of `elasticWorld` after `firstPromotion`: one thread in use, two running. -/
def grownPool : ThreadPool :=
  { ThreadPool.create ⟨some 1, some 4, none, none⟩ 3 0 with inUse := 1, running := 2 }

/-- The handlers on which `finished` was called, in the order of the calls. -/
def finishedCalls : List Callback → List Nat
  | [] => []
  | Callback.finished h :: rest => h :: finishedCalls rest
  | _ :: rest => finishedCalls rest

/-- The effect the queued changes will have once they are all drained: the
handler table then, and the handlers removed on the way, in order. -/
def drainAll (m : List (Int × Nat)) : List (Int × EventHandlerPtr) → List (Int × Nat) × List Nat
  | [] => (m, [])
  | (fd, some h) :: rest => drainAll (mapInsert m fd h) rest
  | (fd, none) :: rest =>
    match mapFind m fd with
    | none => drainAll m rest
    | some h => ((drainAll (mapErase m fd) rest).1, h :: (drainAll (mapErase m fd) rest).2)

/-- The registrations as the callers see them: the handler table with the
queued changes applied, and the handlers that had or will have their
`finished` call for the changes queued so far. -/
def World.registry {τ : Type} (w : World τ) : List (Int × Nat) × List Nat :=
  ((drainAll w.pool.handlerMap w.pool.changes).1,
    finishedCalls w.trace ++ (drainAll w.pool.handlerMap w.pool.changes).2)

/-- The effect of an event on the registrations as the callers see them. -/
def registryStep (r : List (Int × Nat) × List Nat) : Event → List (Int × Nat) × List Nat
  | Event.register fd (some h) => (mapInsert r.1 fd h, r.2)
  | Event.register fd none =>
    match mapFind r.1 fd with
    | none => r
    | some h => (mapErase r.1 fd, r.2 ++ [h])
  | Event.unregister fd =>
    match mapFind r.1 fd with
    | none => r
    | some h => (mapErase r.1 fd, r.2 ++ [h])
  | _ => r

/-- The effect of a sequence of events on the registrations. -/
def registryRun (r : List (Int × Nat) × List Nat) : List Event → List (Int × Nat) × List Nat
  | [] => r
  | e :: es => registryRun (registryStep r e) es

/-- The calls of a sequence are well paired: every `register` names a
descriptor that is not registered at that time and a handler that was
never registered before, and every `unregister` names a descriptor that is
registered at that time (`live` are the registrations at the start, `used`
the handlers registered so far). -/
def WellPaired (live : List (Int × Nat)) (used : List Nat) : List Event → Prop
  | [] => True
  | Event.register fd (some h) :: es =>
    mapFind live fd = none ∧ h ∉ used ∧ WellPaired (mapInsert live fd h) (h :: used) es
  | Event.register _ none :: _ => False
  | Event.unregister fd :: es =>
    (mapFind live fd).isSome = true ∧ WellPaired (mapErase live fd) used es
  | _ :: es => WellPaired live used es

/-- Handler `h` was passed to `register` and its descriptor was subsequently
unregistered. -/
def RegisteredThenUnregistered (h : Nat) : List Event → Prop
  | [] => False
  | e :: es =>
    (∃ fd, e = Event.register fd (some h) ∧ Event.unregister fd ∈ es) ∨
      RegisteredThenUnregistered h es

/-- Each `unregister(fd)` is preceded by a `register` of that `fd`. -/
def UnregisterPreceded : List Event → List Int → Prop
  | [], _ => True
  | Event.register fd _ :: es, seen => UnregisterPreceded es (fd :: seen)
  | Event.unregister fd :: es, seen => fd ∈ seen ∧ UnregisterPreceded es seen
  | _ :: es, seen => UnregisterPreceded es seen

/-- What the registrations satisfy when the calls are well paired: the
table is in ascending key order, no handler is bound twice, no handler is
finished twice, no bound handler is finished, and all of them were passed to
`register`. -/
def RegistryInv (live : List (Int × Nat)) (fin used : List Nat) : Prop :=
  (mapKeys live).Pairwise (· < ·) ∧ (live.map Prod.snd).Nodup ∧ fin.Nodup ∧
    (∀ h ∈ live.map Prod.snd, h ∉ fin) ∧ (∀ h ∈ live.map Prod.snd, h ∈ used) ∧
    ∀ h ∈ fin, h ∈ used

/-- The calls the framer makes while it runs for a handler: the calls of
`handler->read` and the warnings written. -/
def framerCalls {τ : Type} (r : ReadResult τ) (handler : Nat) : List Callback :=
  List.replicate r.reads (Callback.read handler) ++ List.replicate r.warnings Callback.warning

/-- A world whose handler objects are stream handlers about to receive
`shortFrame`, the frame with size field `headerSize - 1`. -/
def shortFrameWorld : World (List Byte) :=
  World.init ⟨none, none, none, none⟩ 3 0 (fun _ => streamHandler shortFrame)

/-- The configuration used in the examples. -/
def iceConfig : Config := ⟨iceProtocol, 1048576, false⟩

/-- The world of a pool built with default properties and the interrupt read
end on descriptor 3; all handler objects are stream handlers without input. -/
def world3 : World (List Byte) :=
  World.init ⟨none, none, none, none⟩ 3 0 (fun _ => streamHandler [])

/-- A wake-up on which only the interrupt read end (descriptor 3) is readable. -/
def intrWake : Wake := ⟨1, {3}, false, false, true⟩

/-- A handler is registered on descriptor 10 and unregistered again; both
changes are drained. -/
def registerUnregister : List Event :=
  [Event.register 10 (some 1), Event.wake intrWake, Event.unregister 10, Event.wake intrWake]

/-- The same handler 1 is registered on the descriptors 10 and 20, both are
unregistered, and every change is drained. -/
def sharedHandler : List Event :=
  [Event.register 10 (some 1), Event.wake intrWake, Event.register 20 (some 1),
   Event.wake intrWake, Event.unregister 10, Event.wake intrWake, Event.unregister 20,
   Event.wake intrWake]

/-- Handler 1 and then handler 2 are registered on descriptor 10, which is
then unregistered; every change is drained. -/
def doubleRegistration : List Event :=
  [Event.register 10 (some 1), Event.wake intrWake, Event.register 10 (some 2),
   Event.wake intrWake, Event.unregister 10, Event.wake intrWake]

/-- The descriptor the round robin of section 4.2 is to pick: the smallest
ready descriptor strictly greater than `lastFd`, or, if there is none or
`lastFd` is the invalid sentinel, the smallest ready descriptor overall. -/
def IsRoundRobinChoice (lastFd : Int) (fdSet : Finset Int) (sel : Int) : Prop :=
  sel ∈ fdSet ∧
  ((lastFd ≠ INVALID_SOCKET ∧ ∃ fd ∈ fdSet, lastFd < fd) →
    lastFd < sel ∧ ∀ fd ∈ fdSet, lastFd < fd → sel ≤ fd) ∧
  (¬ (lastFd ≠ INVALID_SOCKET ∧ ∃ fd ∈ fdSet, lastFd < fd) → ∀ fd ∈ fdSet, sel ≤ fd)

instance (lastFd : Int) (fdSet : Finset Int) (sel : Int) :
    Decidable (IsRoundRobinChoice lastFd fdSet sel) := by
  unfold IsRoundRobinChoice; infer_instance

/-- A pool with handlers 1, 2, 3 registered on the descriptors 10, 20, 30,
the interrupt read end on 3, and `last_fd = 10`. -/
def rrPool : ThreadPool :=
  { ThreadPool.create ⟨none, none, none, none⟩ 3 0 with
    fdSet := {3, 10, 20, 30}, minFd := 3, maxFd := 30, lastFd := 10,
    handlerMap := [(10, 1), (20, 2), (30, 3)] }

/-- The world of `rrPool`; every handler is a stream handler with nothing to read. -/
def rrWorld : World (List Byte) := ⟨rrPool, 0, fun _ => streamHandler [], []⟩

/-- A wake on which the descriptors 10, 20 and 30 are all ready. -/
def rrWake : Wake := ⟨3, {10, 20, 30}, false, false, true⟩

/-- The thread function `EventHandlerThread::run` (lines 800-843), given how
`_pool->run()` ended: `some promote` when it returned `promote`, `none` when
an exception left it (it is logged and `promote` is taken as `true`).  With
`promote` and `_sizeMax > 1` the thread sets `_promote`, after asserting that
it is clear; then it ends.  The result is the pool and the log entries
written; `none` when the `assert` fails. -/
def EventHandlerThread.run (p : ThreadPool) (result : Option Bool) :
    Option (ThreadPool × List Callback) :=
  let promote := result.getD true
  let logs := if result.isNone then [Callback.error] else []
  if promote = true ∧ p.sizeMax > 1 then
    if p.promote then none else some ({ p with promote := true }, logs)
  else some (p, logs)

/-- A wake on which the interrupt read end (descriptor 3) and descriptor 10
are both readable. -/
def busyWake : Wake := ⟨2, {3, 10}, false, false, true⟩

/-- The pool `p` after a worker retired in the size policy. -/
def retired (p : ThreadPool) : ThreadPool :=
  { p with load := newLoad p, inUse := p.inUse - 1, running := p.running - 1 }

/-- A datagram packet with the header `header18` (size field 18) followed by
six bytes: two more than the header announces. -/
def longPacket : List Byte := header18 ++ [1, 2, 3, 4, 5, 6]

/-- The largest value of a C++ `int`, as the `SizeMax` property. -/
def hugeProps : Properties := ⟨none, some 2147483647, none, none⟩

/-- A configuration in which every clamp applies: `Size` 0, `SizeMax` 10, no
`SizeWarn`, `StackSize` -5. -/
def clampedProps : Properties := ⟨some 0, some 10, none, some (-5)⟩

/-- The events of `k` successive promotions: each time a worker becomes the
leader, which clears the promote flag, and calls `promoteFollower` with the
thread creation succeeding. -/
def promotions : Nat → List Event
  | 0 => []
  | k + 1 => promotions k ++ [Event.acquireLeader, Event.promoteFollower true]

/-- The number of low-on-threads warnings in a log. -/
def warningCalls (trace : List Callback) : Nat := trace.count Callback.warning

/-- The timeout handed to `select` (lines 327-337): `some s` for a `timeval`
of `s` seconds, `none` for the null pointer, a wait without timeout. -/
def ThreadPool.selectTimeout (p : ThreadPool) : Option Int :=
  if p.timeout > 0 then some p.timeout else none

/-- The wakes of a sequence of events in which `select` returned 0. -/
def timeoutWakes : List Event → List Wake
  | [] => []
  | Event.wake k :: es => if k.ret = 0 then k :: timeoutWakes es else timeoutWakes es
  | _ :: es => timeoutWakes es

/-- The number of calls of `factory->shutdown()` in a log. -/
def shutdownCalls (trace : List Callback) : Nat := trace.count Callback.shutdown

/-- A pool with an idle timeout of five seconds. -/
def idleWorld : World (List Byte) :=
  World.init ⟨some 1, some 4, none, none⟩ 3 5 (fun _ => streamHandler [])

/-- The wait timed out and the communicator is already destroyed. -/
def lateTimeout : Wake := ⟨0, ∅, false, true, true⟩

/-- The wait timed out while the object-adapter factory is available. -/
def idleTimeout : Wake := ⟨0, ∅, false, false, true⟩

/-- The extent of the descriptor set as section 3 describes it: the interrupt
read end is in `fd_set`, and `max_fd` and `min_fd` are the largest and the
smallest descriptor of `fd_set`. -/
def Extent (p : ThreadPool) : Prop :=
  p.fdIntrRead ∈ p.fdSet ∧ p.maxFd ∈ p.fdSet ∧ p.minFd ∈ p.fdSet ∧
    ∀ fd ∈ p.fdSet, p.minFd ≤ fd ∧ fd ≤ p.maxFd

/-- The members of the pool that hold the descriptor set and its bounds. -/
def ThreadPool.extent (p : ThreadPool) : Int × Finset Int × Int × Int :=
  (p.fdIntrRead, p.fdSet, p.maxFd, p.minFd)

/-- The descriptors selected by `n` successive passes of the loop on the
same wake `k`, each pass starting from the world the one before left: the
values `_lastFd` takes. -/
def selections {τ : Type} (cfg : Config) (w : World τ) (k : Wake) : Nat → List Int
  | 0 => []
  | n + 1 =>
    (ThreadPool.run cfg w k).1.pool.lastFd :: selections cfg (ThreadPool.run cfg w k).1 k n

/-- The world of `rrPool` before any selection: `last_fd` is invalid. -/
def rrFreshWorld : World (List Byte) :=
  ⟨{ rrPool with lastFd := INVALID_SOCKET }, 0, fun _ => streamHandler [], []⟩

/-- How the WIN32 round robin ends: a descriptor is selected, nothing is
readable (`fd_count == 0`, logged, the pass continues), or an `assert` fails. -/
inductive Selection where
  | selected (fd : Int)
  | noneReadable
  | assertFailed
deriving DecidableEq, Repr

/-- The `for` loop of the WIN32 round robin (lines 452-463) over the array
`fd_array` of ready descriptors, from the given `(largerFd, smallestFd)`;
`none` when the `assert(fd != INVALID_SOCKET)` fails. -/
def win32Scan (lastFd : Int) : List Int → Int × Int → Option (Int × Int)
  | [], acc => some acc
  | fd :: rest, (largerFd, smallestFd) =>
    if fd = INVALID_SOCKET then none
    else
      win32Scan lastFd rest
        (if fd > lastFd ∨ lastFd = INVALID_SOCKET then min largerFd fd else largerFd,
          min smallestFd fd)

/-- The WIN32 round robin (lines 438-471): the new value of `_lastFd`.
Descriptors are integers with the sentinel `INVALID_SOCKET` as in the Unix
variant. -/
def ThreadPool.roundRobinWin32 (p : ThreadPool) (fdArray : List Int) : Selection :=
  if fdArray.length = 0 then Selection.noneReadable
  else
    match win32Scan p.lastFd fdArray (p.maxFd + 1, p.maxFd + 1) with
    | none => Selection.assertFailed
    | some (largerFd, smallestFd) =>
      if largerFd ≤ p.maxFd then
        if ¬ (largerFd ≥ p.minFd) then Selection.assertFailed
        else Selection.selected largerFd
      else
        if ¬ (smallestFd ≥ p.minFd ∧ smallestFd ≤ p.maxFd) then Selection.assertFailed
        else Selection.selected smallestFd

/-- The changes the calls of `_register` and `unregister` in a sequence of
events put into the queue, in the order of the calls. -/
def enqueued : List Event → List (Int × EventHandlerPtr)
  | [] => []
  | Event.register fd handler :: es => (fd, handler) :: enqueued es
  | Event.unregister fd :: es => (fd, none) :: enqueued es
  | _ :: es => enqueued es

/-- The local variable `change` of `run` (lines 397-398): the change a pass
takes from the front of the queue, if the pass gets that far, which is after
`clearInterrupt` on an interrupt wake of a pool that is not destroyed. -/
def ThreadPool.drainedChange {τ : Type} (w : World τ) (k : Wake) : Option (Int × EventHandlerPtr) :=
  if k.ret = SOCKET_ERROR then none
  else if k.ret = 0 then none
  else if w.pool.fdIntrRead ∈ k.fdSet then
    if w.pool.destroyed then none
    else if w.pipe = 0 then none
    else w.pool.changes.head?
  else none

/-- The change an event takes from the queue, as a list. -/
def World.drainedBy {τ : Type} (w : World τ) : Event → List (Int × EventHandlerPtr)
  | Event.wake k => (ThreadPool.drainedChange w k).toList
  | _ => []

/-- The changes taken from the queue over a sequence of events, in the order
in which they were taken. -/
def World.drained {τ : Type} (cfg : Config) (w : World τ) :
    List Event → List (Int × EventHandlerPtr)
  | [] => []
  | e :: es =>
    match World.step cfg w e with
    | none => []
    | some w1 => w.drainedBy e ++ World.drained cfg w1 es

/-- The interrupt accounting of section 3: the unread bytes of the interrupt
channel are one per queued change, plus one once the pool is destroyed. -/
def Accounted {τ : Type} (w : World τ) : Prop :=
  w.pipe = w.pool.changes.length + (if w.pool.destroyed then 1 else 0)

/-! # Theorems -/

/-! ## Properties of the framer -/

theorem fillHeader_ok {τ : Type} (P : Protocol) (h : EventHandler τ)
    (hok : (ThreadPool.fillHeader P h).outcome = Outcome.ok) :
    (ThreadPool.fillHeader P h).handler.stream.i = (ThreadPool.fillHeader P h).handler.stream.b.length ∧
    P.headerSize ≤ (ThreadPool.fillHeader P h).handler.stream.b.length := by
  unfold ThreadPool.fillHeader at hok ⊢
  simp only at hok ⊢
  split_ifs at hok ⊢ <;> (try split at hok) <;> simp_all

/-- The header fill changes only the stream and the transport of a handler. -/
theorem fillHeader_handler {τ : Type} (P : Protocol) (h : EventHandler τ) :
    (ThreadPool.fillHeader P h).handler.read = h.read := by
  unfold ThreadPool.fillHeader
  simp only
  split_ifs <;> (try split) <;> rfl

theorem checkHeader_verdict (P : Protocol) (m : Int) (b : List Byte)
    (hlen : P.headerSize ≤ b.length) :
    (ThreadPool.checkHeader P m ⟨b, 0⟩).2 = headerVerdict P m b := by
  have hl := P.layout
  have h0 : ¬ (b.length < P.magic.length) := by omega
  have h1 : P.magic.length < b.length := by omega
  have h2 : P.magic.length + 1 < b.length := by omega
  have h3 : P.magic.length + 1 + 1 < b.length := by omega
  have h4 : P.magic.length + 1 + 1 + 1 < b.length := by omega
  have h5 : P.magic.length + 1 + 1 + 1 + 1 < b.length := by omega
  have h6 : P.magic.length + 1 + 1 + 1 + 1 + 1 < b.length := by omega
  have h7 : P.magic.length + 1 + 1 + 1 + 1 + 1 + 1 + 4 ≤ b.length := by omega
  simp only [ThreadPool.checkHeader, BasicStream.readBlob, BasicStream.readByte,
    BasicStream.readInt, headerVerdict, hdrMagic, hdrByte, hdrSize, badProtocol, badEncoding,
    Nat.sub_zero, h0, h1, h2, h3, h4, h5, h6, h7, if_true, if_false, List.drop_zero, Nat.zero_add,
    Nat.add_zero, Nat.add_assoc, Nat.reduceAdd]
  split_ifs <;> simp_all

theorem readBlob_buffer (s s1 : BasicStream) (n : Nat) (m : List Byte)
    (h : s.readBlob n = some (m, s1)) : s1.b = s.b := by
  unfold BasicStream.readBlob at h
  split_ifs at h
  simp only [Option.some.injEq, Prod.mk.injEq] at h
  rw [← h.2]

theorem readByte_buffer (s s1 : BasicStream) (x : Byte)
    (h : s.readByte = some (x, s1)) : s1.b = s.b := by
  unfold BasicStream.readByte at h
  split_ifs at h
  simp only [Option.some.injEq, Prod.mk.injEq] at h
  rw [← h.2]

theorem readInt_buffer (P : Protocol) (s s1 : BasicStream) (x : Int)
    (h : s.readInt P = some (x, s1)) : s1.b = s.b := by
  unfold BasicStream.readInt at h
  split_ifs at h
  simp only [Option.some.injEq, Prod.mk.injEq] at h
  rw [← h.2]

/-- The header checks only move the cursor. -/
theorem checkHeader_buffer (P : Protocol) (m : Int) (s : BasicStream) :
    (ThreadPool.checkHeader P m s).1.b = s.b := by
  unfold ThreadPool.checkHeader
  split
  · rfl
  next m0 s1 e1 =>
  have b1 := readBlob_buffer _ _ _ _ e1
  split_ifs
  · exact b1
  split
  · exact b1
  next x2 s2 e2 =>
  have b2 := (readByte_buffer _ _ _ e2).trans b1
  split
  · exact b2
  next x3 s3 e3 =>
  have b3 := (readByte_buffer _ _ _ e3).trans b2
  split_ifs
  · exact b3
  split
  · exact b3
  next x4 s4 e4 =>
  have b4 := (readByte_buffer _ _ _ e4).trans b3
  split
  · exact b4
  next x5 s5 e5 =>
  have b5 := (readByte_buffer _ _ _ e5).trans b4
  split_ifs
  · exact b5
  split
  · exact b5
  next x6 s6 e6 =>
  have b6 := (readByte_buffer _ _ _ e6).trans b5
  split
  · exact b6
  next x7 s7 e7 =>
  have b7 := (readByte_buffer _ _ _ e7).trans b6
  split
  · exact b7
  next x8 s8 e8 =>
  have b8 := (readInt_buffer _ _ _ _ e8).trans b7
  split_ifs <;> exact b8

/-- After a successful header fill, `ThreadPool::read` is the header verdict
followed by the body of the framer. -/
theorem read_of_fill_ok {τ : Type} (P : Protocol) (m : Int) (w : Bool) (h : EventHandler τ)
    (hok : (ThreadPool.fillHeader P h).outcome = Outcome.ok) :
    ThreadPool.read P m w h =
      (let r1 := ThreadPool.fillHeader P h
       let s := (ThreadPool.checkHeader P m ⟨r1.handler.stream.b, 0⟩).1
       match headerVerdict P m r1.handler.stream.b with
       | Except.error e => ⟨{ r1.handler with stream := s }, Outcome.raised e, r1.reads, 0⟩
       | Except.ok size =>
         ThreadPool.readBody w { r1.handler with stream := s } size r1.handler.stream.i r1.reads) := by
  have hv := checkHeader_verdict P m _ (fillHeader_ok P h hok).2
  simp only [ThreadPool.read, hok]
  rw [← hv]
  rcases hc : ThreadPool.checkHeader P m ⟨(ThreadPool.fillHeader P h).handler.stream.b, 0⟩ with
    ⟨s, v⟩
  cases v <;> simp

/-- The outcome of `ThreadPool::read` when the header fill succeeded and a
header check fails. -/
theorem read_outcome_of_error {τ : Type} (P : Protocol) (m : Int) (w : Bool) (h : EventHandler τ)
    (hok : (ThreadPool.fillHeader P h).outcome = Outcome.ok) (e : LocalException)
    (hv : headerVerdict P m (ThreadPool.fillHeader P h).handler.stream.b = Except.error e) :
    (ThreadPool.read P m w h).outcome = Outcome.raised e ∧
      (ThreadPool.read P m w h).reads = (ThreadPool.fillHeader P h).reads := by
  rw [read_of_fill_ok P m w h hok]
  simp [hv]

/-- The header verdict is a size exactly when all five checks pass. -/
theorem headerVerdict_ok_iff (P : Protocol) (m : Int) (b : List Byte) :
    headerValid P m b ↔ headerVerdict P m b = Except.ok (hdrSize P b) := by
  unfold headerValid headerVerdict
  split_ifs <;> simp_all

/-- Whatever the header verdict raises is one of the five header errors. -/
theorem headerVerdict_error (P : Protocol) (m : Int) (b : List Byte) (e : LocalException)
    (h : headerVerdict P m b = Except.error e) : isHeaderError e = true := by
  unfold headerVerdict at h
  split_ifs at h <;> simp at h <;> subst h <;> rfl

/-- An exception leaving the body of the framer is `DatagramLimitException`
or was thrown by the handler's `read`. -/
theorem readBody_raised {τ : Type} (w : Bool) (h : EventHandler τ) (size : Int) (pos n : Nat)
    (e : LocalException) (hr : (ThreadPool.readBody w h size pos n).outcome = Outcome.raised e) :
    e = LocalException.DatagramLimitException ∨ ∃ t s, (h.read t s).raised = some e := by
  unfold ThreadPool.readBody at hr
  simp only at hr
  generalize (if size > (h.stream.b.length : Int) then resize h.stream.b size.toNat
    else h.stream.b) = b1 at hr
  cases hd : h.datagram with
  | true =>
    left
    simp only [hd, if_true] at hr
    split_ifs at hr <;> simp_all
  | false =>
    right
    refine ⟨h.transport, ⟨b1, pos⟩, ?_⟩
    simp only [hd, Bool.false_eq_true, if_false] at hr
    cases hrs : (h.read h.transport ⟨b1, pos⟩).raised with
    | none =>
      simp only [hrs] at hr
      split_ifs at hr
    | some e1 =>
      simp only [hrs] at hr
      split_ifs at hr
      simp_all

/-- C1: once `handler.read` has filled the header (the first phase of
`ThreadPool::read` ended without error), the framer fails with the first
applicable header error, in the order BadMagic (with the offending bytes),
UnsupportedProtocol, UnsupportedEncoding, IllegalMessageSize, MemoryLimit;
and, for a handler whose own `read` throws none of these five, the framer
raises none of them exactly when all five checks pass. -/
theorem read_header_error_order {τ : Type} (P : Protocol) (messageSizeMax : Int) (warnUdp : Bool)
    (h : EventHandler τ) (hfill : (ThreadPool.fillHeader P h).outcome = Outcome.ok) :
    (hdrMagic P (ThreadPool.fillHeader P h).handler.stream.b ≠ P.magic →
      (ThreadPool.read P messageSizeMax warnUdp h).outcome =
        Outcome.raised (LocalException.BadMagicException
          (hdrMagic P (ThreadPool.fillHeader P h).handler.stream.b))) ∧
    (hdrMagic P (ThreadPool.fillHeader P h).handler.stream.b = P.magic →
      badProtocol P (ThreadPool.fillHeader P h).handler.stream.b →
      (ThreadPool.read P messageSizeMax warnUdp h).outcome =
        Outcome.raised (LocalException.UnsupportedProtocolException
          (hdrByte P (ThreadPool.fillHeader P h).handler.stream.b 0 % 256)
          (hdrByte P (ThreadPool.fillHeader P h).handler.stream.b 1 % 256)
          (P.protocolMajor % 256) (P.protocolMinor % 256))) ∧
    (hdrMagic P (ThreadPool.fillHeader P h).handler.stream.b = P.magic →
      ¬ badProtocol P (ThreadPool.fillHeader P h).handler.stream.b →
      badEncoding P (ThreadPool.fillHeader P h).handler.stream.b →
      (ThreadPool.read P messageSizeMax warnUdp h).outcome =
        Outcome.raised (LocalException.UnsupportedEncodingException
          (hdrByte P (ThreadPool.fillHeader P h).handler.stream.b 2 % 256)
          (hdrByte P (ThreadPool.fillHeader P h).handler.stream.b 3 % 256)
          (P.encodingMajor % 256) (P.encodingMinor % 256))) ∧
    (hdrMagic P (ThreadPool.fillHeader P h).handler.stream.b = P.magic →
      ¬ badProtocol P (ThreadPool.fillHeader P h).handler.stream.b →
      ¬ badEncoding P (ThreadPool.fillHeader P h).handler.stream.b →
      hdrSize P (ThreadPool.fillHeader P h).handler.stream.b < (P.headerSize : Int) →
      (ThreadPool.read P messageSizeMax warnUdp h).outcome =
        Outcome.raised LocalException.IllegalMessageSizeException) ∧
    (hdrMagic P (ThreadPool.fillHeader P h).handler.stream.b = P.magic →
      ¬ badProtocol P (ThreadPool.fillHeader P h).handler.stream.b →
      ¬ badEncoding P (ThreadPool.fillHeader P h).handler.stream.b →
      (P.headerSize : Int) ≤ hdrSize P (ThreadPool.fillHeader P h).handler.stream.b →
      hdrSize P (ThreadPool.fillHeader P h).handler.stream.b > messageSizeMax →
      (ThreadPool.read P messageSizeMax warnUdp h).outcome =
        Outcome.raised LocalException.MemoryLimitException) ∧
    ((∀ t s e, (h.read t s).raised = some e → isHeaderError e = false) →
      (headerValid P messageSizeMax (ThreadPool.fillHeader P h).handler.stream.b ↔
        ∀ e, (ThreadPool.read P messageSizeMax warnUdp h).outcome = Outcome.raised e →
          isHeaderError e = false)) := by
  have key := read_outcome_of_error P messageSizeMax warnUdp h hfill
  refine ⟨?_, ?_, ?_, ?_, ?_, ?_⟩
  · intro h1
    exact (key _ (by simp [headerVerdict, h1])).1
  · intro h1 h2
    exact (key _ (by simp [headerVerdict, h1, h2])).1
  · intro h1 h2 h3
    exact (key _ (by simp [headerVerdict, h1, h2, h3])).1
  · intro h1 h2 h3 h4
    exact (key _ (by simp [headerVerdict, h1, h2, h3, h4])).1
  · intro h1 h2 h3 h4 h5
    exact (key _ (by simp [headerVerdict, h1, h2, h3, not_lt.mpr h4, h5])).1
  · intro hrd
    constructor
    · intro hv e he
      rw [read_of_fill_ok P messageSizeMax warnUdp h hfill] at he
      simp only [(headerVerdict_ok_iff P messageSizeMax _).mp hv] at he
      rcases readBody_raised _ _ _ _ _ _ he with hdl | ⟨t, s, hts⟩
      · subst hdl; rfl
      · have hts2 : (h.read t s).raised = some e := by
          rw [← fillHeader_handler P h]; exact hts
        exact hrd t s e hts2
    · intro hall
      by_contra hv
      cases hverd : headerVerdict P messageSizeMax (ThreadPool.fillHeader P h).handler.stream.b with
      | error e =>
        have h1 := hall e (key e hverd).1
        rw [headerVerdict_error P messageSizeMax _ e hverd] at h1
        exact Bool.noConfusion h1
      | ok sz =>
        apply hv
        unfold headerVerdict at hverd
        unfold headerValid
        split_ifs at hverd
        simp_all

/-- Witness of C1: the frame with size field `headerSize - 1` passes the
version checks and is rejected with `IllegalMessageSizeException`. -/
theorem read_header_error_order_witness :
    (ThreadPool.fillHeader iceProtocol (streamHandler shortFrame)).outcome = Outcome.ok ∧
    (ThreadPool.read iceProtocol 1048576 false (streamHandler shortFrame)).outcome =
      Outcome.raised LocalException.IllegalMessageSizeException :=
  ⟨by decide, (read_header_error_order iceProtocol 1048576 false (streamHandler shortFrame)
    (by decide)).2.2.2.1 (by decide) (by decide) (by decide) (by decide)⟩

/-- A stream read with enough pending bytes fills the stream to its end. -/
theorem streamRead_enough (x rest : List Byte) (s : BasicStream)
    (hx : x.length = s.b.length - s.i) :
    streamRead (x ++ rest) s = ⟨rest, ⟨s.b.take s.i ++ x, s.b.length⟩, none⟩ := by
  unfold streamRead
  have h1 : ¬ ((x ++ rest).length < s.b.length - s.i) := by
    rw [List.length_append]; omega
  simp only [h1, if_false]
  rw [← hx, List.take_left, List.drop_left]

/-- The header fill of a stream handler with an empty stream stores the first
`headerSize` pending bytes. -/
theorem fillHeader_stream (P : Protocol) (h : EventHandler (List Byte)) (hdr payload : List Byte)
    (hs : h.stream = ⟨[], 0⟩) (hr : h.read = streamRead) (ht : h.transport = hdr ++ payload)
    (hlen : hdr.length = P.headerSize) :
    ThreadPool.fillHeader P h =
      ⟨{ h with stream := ⟨hdr, P.headerSize⟩, transport := payload }, Outcome.ok, 1, 0⟩ := by
  have hl := P.layout
  have hne : ¬ (0 = P.headerSize) := by omega
  have hrd := streamRead_enough hdr payload ⟨List.replicate P.headerSize 0, 0⟩
    (by simp [hlen])
  simp only [List.take_zero, List.nil_append, List.length_replicate] at hrd
  unfold ThreadPool.fillHeader
  simp only [hs, hr, ht, resize, List.length_nil, List.take_nil, List.nil_append,
    Nat.sub_zero, List.length_replicate, if_true, ne_eq, hne, not_false_eq_true, hrd,
    lt_self_iff_false, not_true_eq_false, if_false, hlen]

/-- C2 (framer round trip): a valid header followed by `size - headerSize`
payload bytes, delivered to a non-datagram handler that starts with an empty
stream and whose `read` fills the stream to its current length, is accepted:
`ThreadPool::read` returns without error, the stream holds exactly the `size`
bytes sent, and the cursor is at the end. -/
theorem read_round_trip (P : Protocol) (messageSizeMax : Int) (warnUdp : Bool)
    (h : EventHandler (List Byte)) (hdr payload : List Byte)
    (hs : h.stream = ⟨[], 0⟩) (hd : h.datagram = false) (hr : h.read = streamRead)
    (ht : h.transport = hdr ++ payload) (hlen : hdr.length = P.headerSize)
    (hvalid : headerValid P messageSizeMax hdr)
    (hpay : (payload.length : Int) = hdrSize P hdr - (P.headerSize : Int)) :
    (ThreadPool.read P messageSizeMax warnUdp h).outcome = Outcome.ok ∧
    (ThreadPool.read P messageSizeMax warnUdp h).handler.stream.b = hdr ++ payload ∧
    ((ThreadPool.read P messageSizeMax warnUdp h).handler.stream.b.length : Int) = hdrSize P hdr ∧
    (ThreadPool.read P messageSizeMax warnUdp h).handler.stream.i =
      (ThreadPool.read P messageSizeMax warnUdp h).handler.stream.b.length := by
  have hfill := fillHeader_stream P h hdr payload hs hr ht hlen
  have hok : (ThreadPool.fillHeader P h).outcome = Outcome.ok := by rw [hfill]
  have hverd := (headerVerdict_ok_iff P messageSizeMax hdr).mp hvalid
  have hbuf := checkHeader_buffer P messageSizeMax ⟨hdr, 0⟩
  have hsz : hdrSize P hdr = ((hdr.length + payload.length : Nat) : Int) := by
    push_cast; omega
  rw [read_of_fill_ok P messageSizeMax warnUdp h hok, hfill]
  simp only [hverd]
  unfold ThreadPool.readBody
  simp only [hbuf, hd, hr, Bool.false_eq_true, if_false]
  by_cases hp : payload = []
  · subst hp
    have h1 : ¬ (hdrSize P hdr > (hdr.length : Int)) := by
      rw [hsz]; simp
    simp [h1, hlen, hsz]
  · have hpl : 0 < payload.length := List.length_pos.mpr hp
    have h1 : hdrSize P hdr > (hdr.length : Int) := by
      rw [hsz]; push_cast; omega
    have h2 : (hdrSize P hdr).toNat = hdr.length + payload.length := by
      rw [hsz, Int.toNat_ofNat]
    have hres : resize hdr (hdr.length + payload.length) =
        hdr ++ List.replicate payload.length 0 := by
      simp [resize]
    have hrd := streamRead_enough payload [] ⟨hdr ++ List.replicate payload.length 0, hdr.length⟩
      (by simp)
    simp only [List.append_nil, List.take_left, List.length_append, List.length_replicate] at hrd
    have h3 : ¬ (P.headerSize = hdr.length + payload.length) := by omega
    simp only [h1, if_true, h2, hres, List.length_append, List.length_replicate, ne_eq, h3,
      not_false_eq_true, ← hlen, hrd, not_true_eq_false, if_false]
    rw [hlen] at hrd ⊢
    simp [hrd, hsz, hlen, hp]

/-- Witness of C2: the frame of total size `headerSize + 4` with payload
`[1, 2, 3, 4]` is accepted and the stream holds the 18 bytes sent. -/
theorem read_round_trip_witness :
    headerValid iceProtocol 1048576 header18 ∧
    (ThreadPool.read iceProtocol 1048576 false
      (streamHandler (header18 ++ [1, 2, 3, 4]))).outcome = Outcome.ok ∧
    (ThreadPool.read iceProtocol 1048576 false
      (streamHandler (header18 ++ [1, 2, 3, 4]))).handler.stream.b = header18 ++ [1, 2, 3, 4] ∧
    (ThreadPool.read iceProtocol 1048576 false
      (streamHandler (header18 ++ [1, 2, 3, 4]))).handler.stream.i = 18 :=
  have w := read_round_trip iceProtocol 1048576 false (streamHandler (header18 ++ [1, 2, 3, 4]))
    header18 [1, 2, 3, 4] rfl rfl rfl rfl rfl (by decide) (by decide)
  ⟨by decide, w.1, w.2.1, by rw [w.2.2.2, w.2.1]; rfl⟩

theorem resize_length (b : List Byte) (n : Nat) : (resize b n).length = n := by
  simp only [resize, List.length_append, List.length_take, List.length_replicate]
  omega

/-- The header fill keeps the `datagram()` answer of the handler. -/
theorem fillHeader_datagram {τ : Type} (P : Protocol) (h : EventHandler τ) :
    (ThreadPool.fillHeader P h).handler.datagram = h.datagram := by
  unfold ThreadPool.fillHeader
  simp only
  split_ifs <;> (try split) <;> rfl

/-- C8 (datagram policy): for a datagram handler whose header passes all
validation checks, `ThreadPool::read` raises `DatagramLimitException` exactly
when the number of bytes received is less than the size field; it then makes
no further call of `handler.read` after the header read; and when at least
`size` bytes were received it returns without error. -/
theorem read_datagram_policy {τ : Type} (P : Protocol) (messageSizeMax : Int) (warnUdp : Bool)
    (h : EventHandler τ) (hd : h.datagram = true)
    (hfill : (ThreadPool.fillHeader P h).outcome = Outcome.ok)
    (hvalid : headerValid P messageSizeMax (ThreadPool.fillHeader P h).handler.stream.b) :
    ((ThreadPool.read P messageSizeMax warnUdp h).outcome =
        Outcome.raised LocalException.DatagramLimitException ↔
      ((ThreadPool.fillHeader P h).handler.stream.b.length : Int) <
        hdrSize P (ThreadPool.fillHeader P h).handler.stream.b) ∧
    (((ThreadPool.fillHeader P h).handler.stream.b.length : Int) <
        hdrSize P (ThreadPool.fillHeader P h).handler.stream.b →
      (ThreadPool.read P messageSizeMax warnUdp h).reads = (ThreadPool.fillHeader P h).reads) ∧
    (hdrSize P (ThreadPool.fillHeader P h).handler.stream.b ≤
        ((ThreadPool.fillHeader P h).handler.stream.b.length : Int) →
      (ThreadPool.read P messageSizeMax warnUdp h).outcome = Outcome.ok) := by
  have hverd := (headerVerdict_ok_iff P messageSizeMax _).mp hvalid
  have hbuf := checkHeader_buffer P messageSizeMax ⟨(ThreadPool.fillHeader P h).handler.stream.b, 0⟩
  have hpos := (fillHeader_ok P h hfill).1
  have hdg := (fillHeader_datagram P h).trans hd
  rw [read_of_fill_ok P messageSizeMax warnUdp h hfill]
  simp only [hverd]
  unfold ThreadPool.readBody
  simp only [hbuf, hdg, if_true, hpos]
  by_cases hlt : hdrSize P (ThreadPool.fillHeader P h).handler.stream.b >
      ((ThreadPool.fillHeader P h).handler.stream.b.length : Int)
  · have hne : ¬ ((ThreadPool.fillHeader P h).handler.stream.b.length =
        (hdrSize P (ThreadPool.fillHeader P h).handler.stream.b).toNat) := by omega
    have hnle : ¬ (hdrSize P (ThreadPool.fillHeader P h).handler.stream.b ≤
        ((ThreadPool.fillHeader P h).handler.stream.b.length : Int)) := by omega
    have hlt2 : ((ThreadPool.fillHeader P h).handler.stream.b.length : Int) <
        hdrSize P (ThreadPool.fillHeader P h).handler.stream.b := hlt
    simp only [hlt, if_true, resize_length, ne_eq, hne, not_false_eq_true, hnle, hlt2]
    cases warnUdp <;> simp
  · have hnlt : ¬ (((ThreadPool.fillHeader P h).handler.stream.b.length : Int) <
        hdrSize P (ThreadPool.fillHeader P h).handler.stream.b) := hlt
    have hle : hdrSize P (ThreadPool.fillHeader P h).handler.stream.b ≤
        ((ThreadPool.fillHeader P h).handler.stream.b.length : Int) := by omega
    simp [hlt, hnlt, hle]

/-- Witness of C8: half the payload arrives on a datagram handler; the framer
raises `DatagramLimitException` after the single header read. -/
theorem read_datagram_policy_witness :
    (ThreadPool.read iceProtocol 1048576 false (datagramHandler [halfPacket])).outcome =
      Outcome.raised LocalException.DatagramLimitException ∧
    (ThreadPool.read iceProtocol 1048576 false (datagramHandler [halfPacket])).reads = 1 :=
  have w := read_datagram_policy iceProtocol 1048576 false (datagramHandler [halfPacket]) rfl
    (by decide) (by decide)
  ⟨w.1.mpr (by decide), (w.2.1 (by decide)).trans (by decide)⟩

/-! ## Round robin -/

theorem roundRobinLoop_up (lo hi : Int) (S : Finset Int) (t : Int) (ht : t ∈ S)
    (hthi : t ≤ hi) : ∀ (fuel : Nat) (L : Int) (loops : Nat), loops ≤ 1 → L < t →
      (∀ x ∈ S, L < x → t ≤ x) → (t - L).toNat ≤ fuel →
      roundRobinLoop lo hi S fuel L loops = some (t, loops) := by
  intro fuel
  induction fuel with
  | zero => intro L loops _ hL _ hf; omega
  | succ n ih =>
    intro L loops hl hL hmin hf
    have h1 : ¬ (L + 1 > hi) := by omega
    simp only [roundRobinLoop, h1, if_false]
    by_cases heq : L + 1 = t
    · simp [heq, ht]
    · have hnot : L + 1 ∉ S := fun hmem => by
        have := hmin _ hmem (by omega); omega
      simp only [hnot, not_false_eq_true, hl, and_self, if_true]
      exact ih (L + 1) loops hl (by omega) (fun x hx hlt => hmin x hx (by omega)) (by omega)

theorem roundRobinLoop_wrap (lo hi : Int) (S : Finset Int) (m : Int) (hm : m ∈ S)
    (hmin : ∀ x ∈ S, m ≤ x) (hlo : lo ≤ m) (hhi : m ≤ hi) : ∀ (fuel : Nat) (L : Int),
      (∀ x ∈ S, x ≤ L) → (hi - L).toNat + 1 + (m - lo).toNat ≤ fuel →
      roundRobinLoop lo hi S fuel L 0 = some (m, 1) := by
  intro fuel
  induction fuel with
  | zero => intro L _ hf; omega
  | succ n ih =>
    intro L hall hf
    by_cases h1 : L + 1 > hi
    · simp only [roundRobinLoop, h1, if_true]
      by_cases hmem : lo ∈ S
      · have : m = lo := le_antisymm (hmin lo hmem) hlo
        simp [hmem, this]
      · have hlt : lo < m := lt_of_le_of_ne hlo (fun h => hmem (h ▸ hm))
        simp only [hmem, not_false_eq_true, zero_add, le_refl, and_self, if_true]
        exact roundRobinLoop_up lo hi S m hm hhi n lo 1 (le_refl 1) hlt
          (fun x hx _ => hmin x hx) (by omega)
    · simp only [roundRobinLoop, h1, if_false]
      have hnot : L + 1 ∉ S := fun hmem => by
        have := hall _ hmem; omega
      simp only [hnot, not_false_eq_true, zero_le, and_self, if_true]
      exact ih (L + 1) (fun x hx => by have := hall x hx; omega) (by omega)

/-- The Unix round robin always ends, after at most one wrap-around when a
descriptor of the range is ready, and picks the descriptor of section 4.2. -/
theorem roundRobin_choice (p : ThreadPool) (S : Finset Int) (hne : S.Nonempty)
    (hrange : ∀ fd ∈ S, p.minFd ≤ fd ∧ fd ≤ p.maxFd) :
    ∃ sel loops, p.roundRobin S = some (sel, loops) ∧ loops ≤ 1 ∧
      IsRoundRobinChoice p.lastFd S sel := by
  have hmm : S.min' hne ∈ S := Finset.min'_mem S hne
  have hmle : ∀ x ∈ S, S.min' hne ≤ x := fun x hx => Finset.min'_le S x hx
  have hmr := hrange _ hmm
  unfold ThreadPool.roundRobin
  simp only
  generalize hL0 : (if p.lastFd < p.minFd - 1 ∨ p.lastFd = INVALID_SOCKET then p.minFd - 1
    else p.lastFd) = L0
  have hL0lo : p.minFd - 1 ≤ L0 := by
    rw [← hL0]; split_ifs with hc
    · exact le_refl _
    · push_neg at hc; exact hc.1
  by_cases hex : ∃ fd ∈ S, L0 < fd
  · obtain ⟨fd0, hfd0, hlt0⟩ := hex
    have hTne : (S.filter (fun x => L0 < x)).Nonempty := ⟨fd0, by simp [hfd0, hlt0]⟩
    have htmem := Finset.min'_mem _ hTne
    have htle : ∀ x ∈ S, L0 < x → (S.filter (fun x => L0 < x)).min' hTne ≤ x :=
      fun x hx hlt => Finset.min'_le _ x (by simp [hx, hlt])
    generalize (S.filter (fun x => L0 < x)).min' hTne = t at htmem htle
    simp only [Finset.mem_filter] at htmem
    have htr := hrange t htmem.1
    refine ⟨t, 0, ?_, by omega, htmem.1, ?_, ?_⟩
    · have hfuel : (t - L0).toNat ≤ 2 * (p.maxFd - p.minFd).toNat + 3 := by
        have h1 := htr.2
        have h2 := htr.1
        have h3 : L0 < t := htmem.2
        omega
      exact roundRobinLoop_up p.minFd p.maxFd S t htmem.1 htr.2 _ L0 0 (by omega) htmem.2 htle
        hfuel
    · rintro ⟨hinv, fd1, hfd1, hlt1⟩
      by_cases hc : p.lastFd < p.minFd - 1 ∨ p.lastFd = INVALID_SOCKET
      · rcases hc with hc | hc
        · have h2 := htr.1
          refine ⟨by omega, fun fd hfd _ => htle fd hfd ?_⟩
          rw [← hL0, if_pos (Or.inl hc)]
          have := (hrange fd hfd).1
          omega
        · exact absurd hc hinv
      · rw [if_neg hc] at hL0
        subst hL0
        exact ⟨htmem.2, htle⟩
    · intro hno fd hfd
      by_cases hc : p.lastFd < p.minFd - 1 ∨ p.lastFd = INVALID_SOCKET
      · apply htle fd hfd
        rw [← hL0, if_pos hc]
        have := (hrange fd hfd).1
        omega
      · rw [if_neg hc] at hL0
        subst hL0
        push_neg at hc
        exact absurd ⟨hc.2, fd0, hfd0, hlt0⟩ hno
  · push_neg at hex
    have hc : ¬ (p.lastFd < p.minFd - 1 ∨ p.lastFd = INVALID_SOCKET) := by
      intro hc
      rw [if_pos hc] at hL0
      have h1 := hex _ hmm
      have h2 := hmr.1
      omega
    rw [if_neg hc] at hL0
    subst hL0
    refine ⟨S.min' hne, 1, ?_, le_refl 1, hmm, ?_, ?_⟩
    · have hfuel : (p.maxFd - p.lastFd).toNat + 1 + (S.min' hne - p.minFd).toNat ≤
          2 * (p.maxFd - p.minFd).toNat + 3 := by
        have h1 := hmr.1
        have h2 := hmr.2
        omega
      exact roundRobinLoop_wrap p.minFd p.maxFd S _ hmm hmle hmr.1 hmr.2 _ p.lastFd hex hfuel
    · rintro ⟨_, fd1, hfd1, hlt1⟩
      have := hex fd1 hfd1
      omega
    · intro _ fd hfd
      exact hmle fd hfd

/-- Dispatching a message leaves the members of the pool alone. -/
theorem dispatchMessage_pool {τ : Type} (cfg : Config) (w : World τ) (handler : Nat) :
    (ThreadPool.dispatchMessage cfg w handler).1.pool = w.pool := by
  unfold ThreadPool.dispatchMessage
  by_cases hr : (w.objs handler).readable = true
  · simp only [hr, if_true]
    generalize ThreadPool.read cfg.protocol cfg.messageSizeMax cfg.warnUdp (w.objs handler) = r
    rcases r with ⟨h, o, n, m⟩
    cases o with
    | ok => simp only; split_ifs <;> rfl
    | raised e => cases e <;> rfl
    | assertFailed => rfl
  · simp [hr]

/-- C3 (round-robin selection): on a wake where `select` reports ready
descriptors, the interrupt read end is not among them and every ready
descriptor is registered and lies in `[min_fd, max_fd]`, the loop selects the
smallest ready descriptor strictly greater than the previous `last_fd`, or,
if there is none or `last_fd` is the invalid sentinel, the smallest ready
descriptor overall; `last_fd` becomes that descriptor, which is not the
interrupt read end, and the pass goes on to dispatch the handler registered
for it. -/
theorem run_round_robin {τ : Type} (cfg : Config) (w : World τ) (k : Wake)
    (hret : 0 < k.ret) (hintr : w.pool.fdIntrRead ∉ k.fdSet) (hne : k.fdSet.Nonempty)
    (hreg : ∀ fd ∈ k.fdSet, (mapFind w.pool.handlerMap fd).isSome = true ∧
      w.pool.minFd ≤ fd ∧ fd ≤ w.pool.maxFd) :
    ∃ sel handler, IsRoundRobinChoice w.pool.lastFd k.fdSet sel ∧
      sel ≠ w.pool.fdIntrRead ∧
      mapFind w.pool.handlerMap sel = some handler ∧
      (ThreadPool.run cfg w k).1.pool = { w.pool with lastFd := sel } ∧
      ThreadPool.run cfg w k =
        ThreadPool.dispatchMessage cfg { w with pool := { w.pool with lastFd := sel } } handler := by
  obtain ⟨sel, loops, hrr, hloops, hchoice⟩ :=
    roundRobin_choice w.pool k.fdSet hne (fun fd hfd => (hreg fd hfd).2)
  have hsel : sel ∈ k.fdSet := hchoice.1
  have hselne : sel ≠ w.pool.fdIntrRead := fun h => hintr (h ▸ hsel)
  obtain ⟨handler, hfind⟩ := Option.isSome_iff_exists.mp (hreg sel hsel).1
  have h1 : ¬ (k.ret = SOCKET_ERROR) := by unfold SOCKET_ERROR; omega
  have h2 : ¬ (k.ret = 0) := by omega
  have h3 : ¬ (loops > 1) := by omega
  have hit : ThreadPool.run cfg w k =
      ThreadPool.dispatchMessage cfg { w with pool := { w.pool with lastFd := sel } } handler := by
    unfold ThreadPool.run
    simp only [h1, h2, hintr, if_false, hrr, h3, hselne, hfind]
  refine ⟨sel, handler, hchoice, hselne, hfind, ?_, hit⟩
  rw [hit, dispatchMessage_pool]

/-- Witness of C3: handlers on 10, 20 and 30 are all ready and `last_fd` is
10; the loop selects 20. -/
theorem run_round_robin_witness :
    ∃ sel handler, IsRoundRobinChoice 10 {10, 20, 30} sel ∧ sel ≠ 3 ∧
      mapFind [(10, 1), (20, 2), (30, 3)] sel = some handler ∧
      (ThreadPool.run (τ := List Byte) ⟨iceProtocol, 1048576, false⟩ rrWorld rrWake).1.pool =
        { rrWorld.pool with lastFd := sel } ∧
      ThreadPool.run ⟨iceProtocol, 1048576, false⟩ rrWorld rrWake =
        ThreadPool.dispatchMessage ⟨iceProtocol, 1048576, false⟩
          { rrWorld with pool := { rrWorld.pool with lastFd := sel } } handler :=
  run_round_robin ⟨iceProtocol, 1048576, false⟩ rrWorld rrWake (by decide) (by decide)
    (by decide) (by decide)

/-! ## The handler table -/

theorem mem_mapKeys_mapInsert (m : List (Int × Nat)) (k : Int) (v : Nat) (x : Int) :
    x ∈ mapKeys (mapInsert m k v) ↔ x = k ∨ x ∈ mapKeys m := by
  induction m with
  | nil => simp [mapInsert, mapKeys]
  | cons e rest ih =>
    unfold mapInsert
    split_ifs with h1 h2
    · simp [mapKeys]
    · simp only [mapKeys, List.map_cons, List.mem_cons] at *
      constructor
      · intro h; exact Or.inr h
      · rintro (h | h)
        · left; rw [h, h2]
        · exact h
    · simp only [mapKeys, List.map_cons, List.mem_cons] at *
      rw [ih]
      tauto

theorem mapInsert_sorted (m : List (Int × Nat)) (k : Int) (v : Nat)
    (hs : (mapKeys m).Pairwise (· < ·)) : (mapKeys (mapInsert m k v)).Pairwise (· < ·) := by
  induction m with
  | nil => simp [mapInsert, mapKeys]
  | cons e rest ih =>
    have hs2 := hs
    simp only [mapKeys, List.map_cons, List.pairwise_cons] at hs2
    unfold mapInsert
    split_ifs with h1 h2
    · simp only [mapKeys, List.map_cons, List.pairwise_cons, List.mem_cons, forall_eq_or_imp]
      refine ⟨⟨h1, fun a ha => lt_trans h1 (hs2.1 a ha)⟩, hs2⟩
    · exact hs
    · simp only [mapKeys, List.map_cons, List.pairwise_cons]
      refine ⟨fun a ha => ?_, ih hs2.2⟩
      rcases (mem_mapKeys_mapInsert rest k v a).mp ha with h | h
      · rw [h]; omega
      · exact hs2.1 a h

theorem mem_mapKeys_mapErase (m : List (Int × Nat)) (k : Int) (x : Int)
    (hs : (mapKeys m).Pairwise (· < ·)) :
    x ∈ mapKeys (mapErase m k) ↔ x ∈ mapKeys m ∧ x ≠ k := by
  induction m with
  | nil => simp [mapErase, mapKeys]
  | cons e rest ih =>
    have hs2 := hs
    simp only [mapKeys, List.map_cons, List.pairwise_cons] at hs2
    unfold mapErase
    split_ifs with h1
    · simp only [mapKeys, List.map_cons, List.mem_cons]
      constructor
      · intro h
        refine ⟨Or.inr h, ?_⟩
        have := hs2.1 x h
        omega
      · rintro ⟨h | h, hne⟩
        · exact absurd (h.trans h1) hne
        · exact h
    · simp only [mapKeys, List.map_cons, List.mem_cons] at *
      rw [ih hs2.2]
      constructor
      · rintro (h | h)
        · exact ⟨Or.inl h, by rw [h]; exact h1⟩
        · exact ⟨Or.inr h.1, h.2⟩
      · rintro ⟨h | h, hne⟩
        · exact Or.inl h
        · exact Or.inr ⟨h, hne⟩

theorem mapErase_sorted (m : List (Int × Nat)) (k : Int)
    (hs : (mapKeys m).Pairwise (· < ·)) : (mapKeys (mapErase m k)).Pairwise (· < ·) := by
  induction m with
  | nil => simp [mapErase, mapKeys]
  | cons e rest ih =>
    have hs2 := hs
    simp only [mapKeys, List.map_cons, List.pairwise_cons] at hs2
    unfold mapErase
    split_ifs with h1
    · exact hs2.2
    · simp only [mapKeys, List.map_cons, List.pairwise_cons]
      exact ⟨fun a ha => hs2.1 a (((mem_mapKeys_mapErase rest k a hs2.2).mp ha).1), ih hs2.2⟩

theorem mapFind_isSome (m : List (Int × Nat)) (k : Int) :
    (mapFind m k).isSome = true ↔ k ∈ mapKeys m := by
  induction m with
  | nil => simp [mapFind, mapKeys]
  | cons e rest ih =>
    unfold mapFind
    split_ifs with h1
    · simp [mapKeys, h1]
    · simp only [mapKeys, List.map_cons, List.mem_cons] at *
      rw [ih]
      constructor
      · exact Or.inr
      · rintro (h | h)
        · exact absurd h.symm h1
        · exact h

/-! ## Descriptor bookkeeping -/

theorem Bookkeeping_of_descriptors (intr : Int) (p q : ThreadPool)
    (h : q.descriptors = p.descriptors) (hb : Bookkeeping intr p) : Bookkeeping intr q := by
  simp only [ThreadPool.descriptors, Prod.mk.injEq] at h
  obtain ⟨h1, h2, h3, h4⟩ := h
  unfold Bookkeeping KeysMatch at *
  rw [h1, h2, h3, h4]
  exact hb

theorem promoteFollower_descriptors (p q : ThreadPool) (ok : Bool) (logs : List Callback)
    (h : ThreadPool.promoteFollower p ok = some (q, logs)) : q.descriptors = p.descriptors := by
  unfold ThreadPool.promoteFollower at h
  simp only at h
  split_ifs at h <;> simp only [Option.some.injEq, Prod.mk.injEq] at h <;>
    (obtain ⟨h1, _⟩ := h; subst h1; rfl)

theorem sizePolicy_descriptors (p : ThreadPool) :
    (ThreadPool.sizePolicy p).1.descriptors = p.descriptors := by
  unfold ThreadPool.sizePolicy
  simp only
  split_ifs <;> rfl

theorem acquireLeader_descriptors (p q : ThreadPool)
    (h : ThreadPool.acquireLeader p = some q) : q.descriptors = p.descriptors := by
  unfold ThreadPool.acquireLeader at h
  split_ifs at h <;> simp only [Option.some.injEq] at h <;> (subst h; rfl)

/-- Draining a change keeps the bookkeeping invariant. -/
theorem applyChange_bookkeeping (intr : Int) (p : ThreadPool) (hb : Bookkeeping intr p) :
    Bookkeeping intr (ThreadPool.applyChange p).1 := by
  obtain ⟨hi, hk, hs, hc⟩ := hb
  unfold ThreadPool.applyChange
  rcases hch : p.changes with _ | ⟨⟨fd, handler⟩, rest⟩
  · exact ⟨hi, hk, hs, hc⟩
  · have hrest : ∀ fd h, (fd, some h) ∈ rest → fd ≠ intr := fun fd' h' hm =>
      hc fd' h' (by rw [hch]; exact List.mem_cons_of_mem _ hm)
    cases handler with
    | some h =>
      have hfd : fd ≠ intr := hc fd h (by rw [hch]; exact List.mem_cons_self _ _)
      refine ⟨hi, ?_, mapInsert_sorted _ _ _ hs, hrest⟩
      intro x
      simp only [mem_mapKeys_mapInsert, Finset.mem_insert]
      rw [hk x]
      constructor
      · rintro (h1 | h1)
        · exact ⟨Or.inl h1, by rw [h1, hi]; exact hfd⟩
        · exact ⟨Or.inr h1.1, h1.2⟩
      · rintro ⟨h1 | h1, h2⟩
        · exact Or.inl h1
        · exact Or.inr ⟨h1, h2⟩
    | none =>
      simp only
      cases hf : mapFind p.handlerMap fd with
      | none => exact ⟨hi, hk, hs, hrest⟩
      | some h =>
        refine ⟨hi, ?_, mapErase_sorted _ _ hs, hrest⟩
        intro x
        simp only [mem_mapKeys_mapErase _ _ _ hs, Finset.mem_erase]
        rw [hk x]
        tauto

/-- One pass of the loop keeps the bookkeeping invariant. -/
theorem run_bookkeeping {τ : Type} (cfg : Config) (intr : Int) (w : World τ) (k : Wake)
    (hb : Bookkeeping intr w.pool) : Bookkeeping intr (ThreadPool.run cfg w k).1.pool := by
  unfold ThreadPool.run
  by_cases h1 : k.ret = SOCKET_ERROR
  · simp only [h1, if_true]
    split_ifs <;> exact hb
  simp only [h1, if_false]
  by_cases h2 : k.ret = 0
  · simp only [h2, if_true]
    split_ifs
    all_goals first
      | exact hb
      | exact Bookkeeping_of_descriptors intr w.pool _ rfl hb
      | (split
         · exact Bookkeeping_of_descriptors intr w.pool _ rfl hb
         · next q logs hp =>
           exact Bookkeeping_of_descriptors intr w.pool q
             ((promoteFollower_descriptors _ q _ logs hp).trans rfl) hb)
  simp only [h2, if_false]
  by_cases h3 : w.pool.fdIntrRead ∈ k.fdSet
  · simp only [h3, if_true]
    split_ifs
    · exact hb
    · exact hb
    · have ha := applyChange_bookkeeping intr w.pool hb
      rcases hac : ThreadPool.applyChange w.pool with ⟨q, d⟩
      rw [hac] at ha
      cases d <;> exact ha
  simp only [h3, if_false]
  cases hrr : ThreadPool.roundRobin w.pool k.fdSet with
  | none => exact hb
  | some r =>
    obtain ⟨lastFd, loops⟩ := r
    have hb1 : Bookkeeping intr { w.pool with lastFd := lastFd } :=
      Bookkeeping_of_descriptors intr w.pool _ rfl hb
    simp only
    split_ifs
    · exact hb1
    · exact hb1
    · cases hf : mapFind w.pool.handlerMap lastFd with
      | none => exact hb1
      | some handler =>
        simp only
        rw [dispatchMessage_pool]
        exact hb1

/-- Every event keeps the bookkeeping invariant, as long as no non-null
handler is registered on the interrupt read end. -/
theorem step_bookkeeping {τ : Type} (cfg : Config) (intr : Int) (w w1 : World τ) (e : Event)
    (he : ∀ fd h, e = Event.register fd (some h) → fd ≠ intr)
    (hstep : World.step cfg w e = some w1) (hb : Bookkeeping intr w.pool) :
    Bookkeeping intr w1.pool := by
  cases e with
  | register fd handler =>
    simp only [World.step, ThreadPool._register] at hstep
    split_ifs at hstep
    simp only [Option.some.injEq] at hstep
    subst hstep
    obtain ⟨hi, hk, hs, hc⟩ := hb
    refine ⟨hi, hk, hs, ?_⟩
    intro fd' h' hm
    simp only [List.mem_append, List.mem_singleton, Prod.mk.injEq] at hm
    rcases hm with hm | ⟨hm1, hm2⟩
    · exact hc fd' h' hm
    · subst hm1 hm2
      exact he fd' h' rfl
  | unregister fd =>
    simp only [World.step, ThreadPool.unregister] at hstep
    split_ifs at hstep
    simp only [Option.some.injEq] at hstep
    subst hstep
    obtain ⟨hi, hk, hs, hc⟩ := hb
    refine ⟨hi, hk, hs, ?_⟩
    intro fd' h' hm
    simp only [List.mem_append, List.mem_singleton, Prod.mk.injEq] at hm
    rcases hm with hm | ⟨_, hm2⟩
    · exact hc fd' h' hm
    · exact Option.noConfusion hm2
  | destroy =>
    simp only [World.step, ThreadPool.destroy] at hstep
    split_ifs at hstep
    simp only [Option.some.injEq] at hstep
    subst hstep
    exact Bookkeeping_of_descriptors intr w.pool _ rfl hb
  | wake k =>
    have hi := run_bookkeeping cfg intr w k hb
    simp only [World.step] at hstep
    rcases hit : ThreadPool.run cfg w k with ⟨w2, f⟩
    rw [hit] at hstep hi
    cases f <;> simp only [Option.some.injEq] at hstep <;> first
      | (subst hstep; exact hi)
      | exact Option.noConfusion hstep
  | promoteFollower ok =>
    simp only [World.step] at hstep
    cases hp : ThreadPool.promoteFollower w.pool ok with
    | none => rw [hp] at hstep; exact Option.noConfusion hstep
    | some r =>
      obtain ⟨q, logs⟩ := r
      rw [hp] at hstep
      simp only [Option.some.injEq] at hstep
      subst hstep
      exact Bookkeeping_of_descriptors intr w.pool _ (promoteFollower_descriptors _ _ _ _ hp) hb
  | sizePolicy =>
    simp only [World.step] at hstep
    have hd := sizePolicy_descriptors w.pool
    rcases hsp : ThreadPool.sizePolicy w.pool with ⟨q, f⟩
    rw [hsp] at hstep hd
    cases f <;> simp only [Option.some.injEq] at hstep <;> first
      | (subst hstep; exact Bookkeeping_of_descriptors intr w.pool _ hd hb)
      | exact Option.noConfusion hstep
  | acquireLeader =>
    simp only [World.step] at hstep
    cases hp : ThreadPool.acquireLeader w.pool with
    | none => rw [hp] at hstep; exact Option.noConfusion hstep
    | some q =>
      rw [hp] at hstep
      simp only [Option.some.injEq] at hstep
      subst hstep
      exact Bookkeeping_of_descriptors intr w.pool _ (acquireLeader_descriptors _ _ hp) hb

theorem exec_bookkeeping {τ : Type} (cfg : Config) (intr : Int) (events : List Event) :
    ∀ (w w1 : World τ), (∀ fd h, Event.register fd (some h) ∈ events → fd ≠ intr) →
      World.exec cfg w events = some w1 → Bookkeeping intr w.pool → Bookkeeping intr w1.pool := by
  induction events with
  | nil =>
    intro w w1 _ hrun hb
    simp only [World.exec, Option.some.injEq] at hrun
    subst hrun
    exact hb
  | cons e es ih =>
    intro w w1 he hrun hb
    simp only [World.exec] at hrun
    cases hs : World.step cfg w e with
    | none => rw [hs] at hrun; exact Option.noConfusion hrun
    | some w2 =>
      rw [hs] at hrun
      exact ih w2 w1 (fun fd h hm => he fd h (List.mem_cons_of_mem _ hm)) hrun
        (step_bookkeeping cfg intr w w2 e
          (fun fd h heq => he fd h (heq ▸ List.mem_cons_self _ _)) hs hb)

theorem create_bookkeeping (props : Properties) (intr timeout : Int) :
    Bookkeeping intr (ThreadPool.create props intr timeout) := by
  refine ⟨rfl, ?_, ?_, ?_⟩
  · intro fd
    simp [ThreadPool.create, mapKeys]
  · simp [ThreadPool.create, mapKeys]
  · intro fd h hm
    simp [ThreadPool.create] at hm

/-- C4 as stated fails: a handler registered on the interrupt read end itself
(descriptor 3) enters the handler table when the change is drained, yet the
descriptor set has no descriptor other than the interrupt read end. -/
theorem keys_match_fails_on_interrupt_fd :
    ∃ w, World.exec iceConfig world3 [Event.register 3 (some 1), Event.wake intrWake] = some w ∧
      mapKeys w.pool.handlerMap = [3] ∧ w.pool.fdSet = {3} ∧ w.pool.fdIntrRead = 3 ∧
      ¬ KeysMatch w.pool := by
  refine ⟨_, rfl, by decide, by decide, rfl, ?_⟩
  intro h
  have h3 := (h 3).mp (by decide)
  exact h3.2 rfl

/-- C4 (amended): starting from the constructed pool, after every prefix of
any sequence of events in which no handler is registered on the interrupt
read end (and which the pool survives, so that every drained unregister
names a descriptor present in the handler table), the key set of the handler
table equals the set of descriptors in `fd_set` other than the interrupt read
end. -/
theorem keys_match_invariant {τ : Type} (cfg : Config) (props : Properties) (intr timeout : Int)
    (objs : Nat → EventHandler τ) (events : List Event)
    (hreg : ∀ fd h, Event.register fd (some h) ∈ events → fd ≠ intr) (n : Nat) (w : World τ)
    (hrun : World.exec cfg (World.init props intr timeout objs) (events.take n) = some w) :
    KeysMatch w.pool :=
  (exec_bookkeeping cfg intr (events.take n) _ w
    (fun fd h hm => hreg fd h (List.mem_of_mem_take hm)) hrun
    (create_bookkeeping props intr timeout)).2.1

/-- Witness of C4 (amended): register and unregister on descriptor 10, both
drained. -/
theorem keys_match_invariant_witness :
    ∃ w, World.exec iceConfig world3 (registerUnregister.take 4) = some w ∧ KeysMatch w.pool :=
  ⟨_, rfl, keys_match_invariant iceConfig ⟨none, none, none, none⟩ 3 0 (fun _ => streamHandler [])
    registerUnregister
    (fun fd h hm => by
      simp only [registerUnregister, List.mem_cons, Event.register.injEq, List.mem_singleton,
        reduceCtorEq, or_false, false_or, List.not_mem_nil] at hm
      omega) 4 _ rfl⟩

/-! ## Sizing -/

/-- What `promoteFollower` does to the sizing members when it returns. -/
theorem promoteFollower_sizing (p q : ThreadPool) (ok : Bool) (logs : List Callback)
    (h : ThreadPool.promoteFollower p ok = some (q, logs)) :
    q.size = p.size ∧ q.sizeMax = p.sizeMax ∧ q.load = p.load ∧ q.destroyed = p.destroyed ∧
    ((q.inUse = p.inUse ∧ q.running = p.running) ∨
      (q.inUse = p.inUse + 1 ∧ 0 ≤ p.inUse ∧ p.inUse + 1 ≤ p.running ∧
        (q.running = p.running ∨
          (q.running = p.running + 1 ∧ p.inUse + 1 = p.running ∧ p.inUse + 1 < p.sizeMax)))) := by
  unfold ThreadPool.promoteFollower at h
  simp only at h
  split_ifs at h <;> simp only [Option.some.injEq, Prod.mk.injEq] at h <;>
    (obtain ⟨h1, _⟩ := h; subst h1; refine ⟨rfl, rfl, rfl, rfl, ?_⟩) <;> first
      | (left; exact ⟨rfl, rfl⟩)
      | (right; refine ⟨rfl, by omega, by omega, ?_⟩; first
          | (left; rfl)
          | (right; exact ⟨rfl, by omega, by omega⟩))

theorem promoteFollower_SizingInv (p q : ThreadPool) (ok : Bool) (logs : List Callback)
    (h : ThreadPool.promoteFollower p ok = some (q, logs)) (hinv : SizingInv p) :
    SizingInv q := by
  obtain ⟨h1, h2, _, _, h5⟩ := promoteFollower_sizing p q ok logs h
  unfold SizingInv at *
  rw [h1, h2]
  omega

/-- With `promote` clear and `in_use < running`, `promoteFollower` returns. -/
theorem promoteFollower_returns (p : ThreadPool) (ok : Bool) (hp : p.promote = false)
    (hinv : SizingInv p) (hlt : p.inUse < p.running) :
    ∃ q logs, ThreadPool.promoteFollower p ok = some (q, logs) := by
  unfold SizingInv at hinv
  unfold ThreadPool.promoteFollower
  simp only [hp, Bool.false_eq_true, if_false]
  split_ifs <;> first
    | exact ⟨_, _, rfl⟩
    | omega

/-- What the size policy does to the sizing members. -/
theorem sizePolicy_sizing (p : ThreadPool) (h : (ThreadPool.sizePolicy p).2 ≠ Flow.assertFailed) :
    (ThreadPool.sizePolicy p).1.size = p.size ∧ (ThreadPool.sizePolicy p).1.sizeMax = p.sizeMax ∧
    (ThreadPool.sizePolicy p).1.destroyed = p.destroyed ∧
    (((ThreadPool.sizePolicy p).1.inUse = p.inUse ∧ (ThreadPool.sizePolicy p).1.running = p.running ∧
        (ThreadPool.sizePolicy p).1.load = p.load) ∨
      (1 ≤ p.inUse ∧ (ThreadPool.sizePolicy p).1.inUse = p.inUse - 1 ∧
        (ThreadPool.sizePolicy p).1.load = p.load * (1 - 5 / 100) + (p.inUse : ℚ) * (5 / 100) ∧
        ((ThreadPool.sizePolicy p).1.running = p.running ∨
          ((ThreadPool.sizePolicy p).1.running = p.running - 1 ∧ p.size < p.running)))) := by
  unfold ThreadPool.sizePolicy at h ⊢
  simp only at h ⊢
  split_ifs at h ⊢ <;> first
    | exact absurd rfl h
    | (refine ⟨rfl, rfl, rfl, ?_⟩; left; exact ⟨rfl, rfl, rfl⟩)
    | (refine ⟨rfl, rfl, rfl, ?_⟩; right; refine ⟨by omega, rfl, rfl, ?_⟩; first
        | (left; rfl)
        | (right; exact ⟨rfl, by omega⟩))

theorem sizePolicy_SizingInv (p : ThreadPool) (h : (ThreadPool.sizePolicy p).2 ≠ Flow.assertFailed)
    (hinv : SizingInv p) : SizingInv (ThreadPool.sizePolicy p).1 := by
  obtain ⟨h1, h2, _, h5⟩ := sizePolicy_sizing p h
  unfold SizingInv at *
  rw [h1, h2]
  omega

/-- With `in_use ≥ 1` no `assert` of the size policy fails. -/
theorem sizePolicy_no_assert (p : ThreadPool) (hinv : SizingInv p) (hin : 1 ≤ p.inUse) :
    (ThreadPool.sizePolicy p).2 ≠ Flow.assertFailed := by
  unfold SizingInv at hinv
  unfold ThreadPool.sizePolicy
  simp only
  split_ifs <;> first
    | exact Flow.noConfusion
    | omega

theorem create_SizingInv (props : Properties) (intr timeout : Int) :
    SizingInv (ThreadPool.create props intr timeout) := by
  unfold SizingInv ThreadPool.create
  simp only
  split_ifs <;> omega

/-- C5 (sizing invariant): once construction has spawned `size` workers,
`0 ≤ in_use ≤ running ≤ size_max` and `size ≤ running` hold; a pool with
these properties keeps them (with `size` and `size_max` unchanged) through
every `promoteFollower` call made when `in_use < running`, whether or not the
thread can be started, and through every size-policy step made when
`in_use ≥ 1`; under these conditions neither operation fails an assertion on
the counters. -/
theorem sizing_invariant (props : Properties) (intr timeout : Int) (p : ThreadPool)
    (hinv : SizingInv p) :
    SizingInv (ThreadPool.create props intr timeout) ∧
    (p.inUse < p.running → ∀ spawnOk : Bool,
      (p.promote = false → ∃ q logs, ThreadPool.promoteFollower p spawnOk = some (q, logs)) ∧
      ∀ q logs, ThreadPool.promoteFollower p spawnOk = some (q, logs) →
        SizingInv q ∧ q.size = p.size ∧ q.sizeMax = p.sizeMax) ∧
    (1 ≤ p.inUse →
      (ThreadPool.sizePolicy p).2 ≠ Flow.assertFailed ∧ SizingInv (ThreadPool.sizePolicy p).1 ∧
      (ThreadPool.sizePolicy p).1.size = p.size ∧
      (ThreadPool.sizePolicy p).1.sizeMax = p.sizeMax) := by
  refine ⟨create_SizingInv props intr timeout, ?_, ?_⟩
  · intro hlt ok
    refine ⟨fun hp => promoteFollower_returns p ok hp hinv hlt, fun q logs hq => ?_⟩
    have hs := promoteFollower_sizing p q ok logs hq
    exact ⟨promoteFollower_SizingInv p q ok logs hq hinv, hs.1, hs.2.1⟩
  · intro hin
    have hna := sizePolicy_no_assert p hinv hin
    have hs := sizePolicy_sizing p hna
    exact ⟨hna, sizePolicy_SizingInv p hna hinv, hs.1, hs.2.1⟩

/-- Witness of C5: in a pool with `Size=2`, `SizeMax=4`, two threads running
and one in use, `promoteFollower` raises `in_use` to 2 and, when the thread
can be started, `running` to 3. -/
theorem sizing_invariant_witness :
    SizingInv busyPool ∧
    ∃ q logs, ThreadPool.promoteFollower busyPool true = some (q, logs) ∧ SizingInv q ∧
      q.inUse = 2 ∧ q.running = 3 :=
  have w := sizing_invariant ⟨some 2, some 4, some 3, none⟩ 3 0 busyPool (by decide)
  ⟨by decide, _, _, rfl, (w.2.1 (by decide) true).2 _ _ rfl |>.1, by decide, by decide⟩

/-! ## The load factor -/

/-- If the updated load factor is a whole number, it lies at least 19 below
`in_use`. -/
theorem load_update_integer (L : ℚ) (u : ℤ) (hL : 0 ≤ L)
    (hD : ∃ n : ℕ, ∃ a : ℤ, L * 20 ^ n = (a : ℚ))
    (hK : ∀ z : ℤ, L = (z : ℚ) → z = 0 ∨ z + 18 ≤ u) (hu : 1 ≤ u) (z : ℤ)
    (hz : L * (1 - 5 / 100) + (u : ℚ) * (5 / 100) = (z : ℚ)) : 1 ≤ z ∧ z + 19 ≤ u := by
  obtain ⟨n, a, ha⟩ := hD
  have h19 : 19 * L = ((20 * z - u : ℤ) : ℚ) := by
    push_cast; linarith
  have hdvd : (19 : ℤ) ∣ (20 * z - u) * 20 ^ n := by
    refine ⟨a, ?_⟩
    have : (((20 * z - u) * 20 ^ n : ℤ) : ℚ) = ((19 * a : ℤ) : ℚ) := by
      push_cast
      rw [← ha]
      have h19' := h19
      push_cast at h19'
      rw [← h19']
      ring
    exact_mod_cast this
  have hcop : IsCoprime (19 : ℤ) (20 ^ n) :=
    IsCoprime.pow_right ⟨-1, 1, by norm_num⟩
  obtain ⟨L0, hL0⟩ := hcop.dvd_of_dvd_mul_right hdvd
  have hLeq : L = (L0 : ℚ) := by
    have : (19 : ℚ) * L = 19 * (L0 : ℚ) := by
      rw [h19, hL0]; push_cast; ring
    linarith
  have hL0nn : 0 ≤ L0 := by
    have : (0 : ℚ) ≤ (L0 : ℚ) := hLeq ▸ hL
    exact_mod_cast this
  rcases hK L0 hLeq with h0 | h18 <;> omega

theorem Sized_of_sizing (p q : ThreadPool) (h : q.sizing = p.sizing) (hs : Sized p) : Sized q := by
  simp only [ThreadPool.sizing, Prod.mk.injEq] at h
  obtain ⟨h1, h2, h3, h4, h5⟩ := h
  unfold Sized SizingInv LoadInv at *
  rw [h1, h2, h3, h4, h5]
  exact hs

theorem create_Sized (props : Properties) (intr timeout : Int) :
    Sized (ThreadPool.create props intr timeout) := by
  refine ⟨create_SizingInv props intr timeout, le_refl _, ⟨0, 0, by simp [ThreadPool.create]⟩, ?_⟩
  intro z hz
  left
  have : (z : ℚ) = 0 := hz.symm
  exact_mod_cast this

theorem promoteFollower_Sized (p q : ThreadPool) (ok : Bool) (logs : List Callback)
    (h : ThreadPool.promoteFollower p ok = some (q, logs)) (hs : Sized p) : Sized q := by
  refine ⟨promoteFollower_SizingInv p q ok logs h hs.1, ?_⟩
  obtain ⟨_, _, h3, _, h5⟩ := promoteFollower_sizing p q ok logs h
  obtain ⟨hl, hd, hk⟩ := hs.2
  unfold LoadInv
  rw [h3]
  refine ⟨hl, hd, fun z hz => ?_⟩
  rcases hk z hz with h0 | h18
  · exact Or.inl h0
  · right
    rcases h5 with h5 | h5 <;> omega

theorem sizePolicy_Sized (p : ThreadPool) (h : (ThreadPool.sizePolicy p).2 ≠ Flow.assertFailed)
    (hs : Sized p) : Sized (ThreadPool.sizePolicy p).1 := by
  refine ⟨sizePolicy_SizingInv p h hs.1, ?_⟩
  obtain ⟨_, _, _, h5⟩ := sizePolicy_sizing p h
  obtain ⟨hl, hd, hk⟩ := hs.2
  unfold LoadInv
  rcases h5 with ⟨h5a, _, h5c⟩ | ⟨hin, h5a, h5c, _⟩
  · rw [h5a, h5c]
    exact ⟨hl, hd, hk⟩
  · rw [h5a, h5c]
    have hu : (1 : ℚ) ≤ (p.inUse : ℚ) := by exact_mod_cast hin
    refine ⟨?_, ?_, ?_⟩
    · have h1 : 0 ≤ p.load * (1 - 5 / 100) := mul_nonneg hl (by norm_num)
      have h2 : 0 ≤ (p.inUse : ℚ) * (5 / 100) := mul_nonneg (by linarith) (by norm_num)
      linarith
    · obtain ⟨n, a, ha⟩ := hd
      refine ⟨n + 1, 19 * a + p.inUse * 20 ^ n, ?_⟩
      push_cast
      rw [← ha]
      ring
    · intro z hz
      right
      have := (load_update_integer p.load p.inUse hl hd hk hin z hz).2
      omega

theorem applyChange_sizing (p : ThreadPool) :
    (ThreadPool.applyChange p).1.sizing = p.sizing := by
  unfold ThreadPool.applyChange
  rcases p.changes with _ | ⟨⟨fd, handler⟩, rest⟩
  · rfl
  · cases handler with
    | some h => rfl
    | none =>
      simp only
      cases mapFind p.handlerMap fd <;> rfl

/-- One pass of the loop keeps the sizing facts. -/
theorem run_Sized {τ : Type} (cfg : Config) (w : World τ) (k : Wake) (hs : Sized w.pool) :
    Sized (ThreadPool.run cfg w k).1.pool := by
  unfold ThreadPool.run
  by_cases h1 : k.ret = SOCKET_ERROR
  · simp only [h1, if_true]
    split_ifs <;> exact hs
  simp only [h1, if_false]
  by_cases h2 : k.ret = 0
  · simp only [h2, if_true]
    split_ifs
    all_goals first
      | exact hs
      | exact Sized_of_sizing w.pool _ rfl hs
      | (split
         · exact Sized_of_sizing w.pool _ rfl hs
         · next q logs hp =>
           exact promoteFollower_Sized _ q _ logs hp (Sized_of_sizing w.pool _ rfl hs))
  simp only [h2, if_false]
  by_cases h3 : w.pool.fdIntrRead ∈ k.fdSet
  · simp only [h3, if_true]
    split_ifs
    · exact hs
    · exact hs
    · have ha := Sized_of_sizing w.pool _ (applyChange_sizing w.pool) hs
      rcases hac : ThreadPool.applyChange w.pool with ⟨q, d⟩
      rw [hac] at ha
      cases d <;> exact ha
  simp only [h3, if_false]
  cases hrr : ThreadPool.roundRobin w.pool k.fdSet with
  | none => exact hs
  | some r =>
    obtain ⟨lastFd, loops⟩ := r
    have hs1 : Sized { w.pool with lastFd := lastFd } := Sized_of_sizing w.pool _ rfl hs
    simp only
    split_ifs
    · exact hs1
    · exact hs1
    · cases hf : mapFind w.pool.handlerMap lastFd with
      | none => exact hs1
      | some handler =>
        simp only
        rw [dispatchMessage_pool]
        exact hs1

/-- Every event keeps the sizing facts. -/
theorem step_Sized {τ : Type} (cfg : Config) (w w1 : World τ) (e : Event)
    (hstep : World.step cfg w e = some w1) (hs : Sized w.pool) : Sized w1.pool := by
  cases e with
  | register fd handler =>
    simp only [World.step, ThreadPool._register] at hstep
    split_ifs at hstep
    simp only [Option.some.injEq] at hstep
    subst hstep
    exact Sized_of_sizing w.pool _ rfl hs
  | unregister fd =>
    simp only [World.step, ThreadPool.unregister] at hstep
    split_ifs at hstep
    simp only [Option.some.injEq] at hstep
    subst hstep
    exact Sized_of_sizing w.pool _ rfl hs
  | destroy =>
    simp only [World.step, ThreadPool.destroy] at hstep
    split_ifs at hstep
    simp only [Option.some.injEq] at hstep
    subst hstep
    exact Sized_of_sizing w.pool _ rfl hs
  | wake k =>
    have hi := run_Sized cfg w k hs
    simp only [World.step] at hstep
    rcases hit : ThreadPool.run cfg w k with ⟨w2, f⟩
    rw [hit] at hstep hi
    cases f <;> simp only [Option.some.injEq] at hstep <;> first
      | (subst hstep; exact hi)
      | exact Option.noConfusion hstep
  | promoteFollower ok =>
    simp only [World.step] at hstep
    cases hp : ThreadPool.promoteFollower w.pool ok with
    | none => rw [hp] at hstep; exact Option.noConfusion hstep
    | some r =>
      obtain ⟨q, logs⟩ := r
      rw [hp] at hstep
      simp only [Option.some.injEq] at hstep
      subst hstep
      exact promoteFollower_Sized _ _ _ _ hp hs
  | sizePolicy =>
    simp only [World.step] at hstep
    have hd : (ThreadPool.sizePolicy w.pool).2 ≠ Flow.assertFailed →
        Sized (ThreadPool.sizePolicy w.pool).1 := fun h => sizePolicy_Sized w.pool h hs
    rcases hsp : ThreadPool.sizePolicy w.pool with ⟨q, f⟩
    rw [hsp] at hstep hd
    cases f <;> simp only [Option.some.injEq] at hstep <;> first
      | (subst hstep; exact hd Flow.noConfusion)
      | exact Option.noConfusion hstep
  | acquireLeader =>
    simp only [World.step] at hstep
    unfold ThreadPool.acquireLeader at hstep
    split_ifs at hstep <;> simp only [Option.some.injEq] at hstep <;>
      (subst hstep; exact Sized_of_sizing w.pool _ rfl hs)

theorem exec_Sized {τ : Type} (cfg : Config) (events : List Event) :
    ∀ (w w1 : World τ), World.exec cfg w events = some w1 → Sized w.pool → Sized w1.pool := by
  induction events with
  | nil =>
    intro w w1 hrun hs
    simp only [World.exec, Option.some.injEq] at hrun
    subst hrun
    exact hs
  | cons e es ih =>
    intro w w1 hrun hs
    simp only [World.exec] at hrun
    cases hst : World.step cfg w e with
    | none => rw [hst] at hrun; exact Option.noConfusion hrun
    | some w2 =>
      rw [hst] at hrun
      exact ih w2 w1 hrun (step_Sized cfg w w2 e hst hs)

/-- In a pool reached from construction the load test of the code,
`static_cast<int>(load + 1) < running`, is the test `ceil(load) < running`. -/
theorem load_test_iff (p : ThreadPool) (hs : Sized p) (hin : 1 ≤ p.inUse) :
    truncToInt (newLoad p + 1) < p.running ↔ ⌈newLoad p⌉ < p.running := by
  obtain ⟨hinv, hl, hd, hk⟩ := hs
  unfold SizingInv at hinv
  have hu : (1 : ℚ) ≤ (p.inUse : ℚ) := by exact_mod_cast hin
  have hnn : 0 ≤ newLoad p := by
    unfold newLoad
    have h1 : 0 ≤ p.load * (1 - 5 / 100) := mul_nonneg hl (by norm_num)
    have h2 : 0 ≤ (p.inUse : ℚ) * (5 / 100) := mul_nonneg (by linarith) (by norm_num)
    linarith
  have htr : truncToInt (newLoad p + 1) = ⌊newLoad p⌋ + 1 := by
    unfold truncToInt
    rw [if_pos (by linarith), Int.floor_add_one]
  rw [htr]
  have h1 : ⌊newLoad p⌋ ≤ ⌈newLoad p⌉ := Int.floor_le_ceil _
  have h2 : ⌈newLoad p⌉ ≤ ⌊newLoad p⌋ + 1 := Int.ceil_le_floor_add_one _
  by_cases heq : ⌈newLoad p⌉ = ⌊newLoad p⌋
  · have hz : newLoad p = ((⌊newLoad p⌋ : ℤ) : ℚ) := by
      apply le_antisymm
      · calc newLoad p ≤ ((⌈newLoad p⌉ : ℤ) : ℚ) := Int.le_ceil _
          _ = ((⌊newLoad p⌋ : ℤ) : ℚ) := by rw [heq]
      · exact Int.floor_le _
    have := (load_update_integer p.load p.inUse hl hd hk hin _ hz).2
    omega
  · omega

/-- C7 (elastic shrink rule): in the size-policy step of a non-destroyed
pool with `size_max > 1` reached from construction (the step's assertion
`in_use > 0` holding), the load is first updated to
`load * (1 - 0.05) + in_use * 0.05`, in exact arithmetic, and the worker then
retires, decrementing `in_use` and `running` and returning `false`, if
`running > size` and `ceil(load) < running`; otherwise only `in_use` is
decremented and `running` is unchanged. -/
theorem sizePolicy_shrink_rule {τ : Type} (cfg : Config) (props : Properties)
    (intr timeout : Int) (objs : Nat → EventHandler τ) (events : List Event) (w : World τ)
    (hrun : World.exec cfg (World.init props intr timeout objs) events = some w)
    (hmax : w.pool.sizeMax > 1) (hd : w.pool.destroyed = false) (hin : 1 ≤ w.pool.inUse) :
    (w.pool.running > w.pool.size ∧ ⌈newLoad w.pool⌉ < w.pool.running →
      ThreadPool.sizePolicy w.pool =
        ({ w.pool with load := newLoad w.pool, inUse := w.pool.inUse - 1,
                       running := w.pool.running - 1 }, Flow.returned false)) ∧
    (¬ (w.pool.running > w.pool.size ∧ ⌈newLoad w.pool⌉ < w.pool.running) →
      ThreadPool.sizePolicy w.pool =
        ({ w.pool with load := newLoad w.pool, inUse := w.pool.inUse - 1 }, Flow.waiting)) := by
  have hs : Sized w.pool := exec_Sized cfg events _ w hrun (create_Sized props intr timeout)
  have htest := load_test_iff w.pool hs hin
  have hinv := hs.1
  unfold SizingInv at hinv
  have hpos : w.pool.inUse > 0 := by omega
  have hrun0 : w.pool.size < w.pool.running → w.pool.running > 0 := fun _ => by omega
  unfold newLoad at htest
  constructor
  · rintro ⟨h1, h2⟩
    have h3 := htest.mpr h2
    unfold ThreadPool.sizePolicy newLoad
    simp only [hmax, hd, if_true, Bool.false_eq_true, not_false_eq_true, h1, h3, and_self, hpos,
      not_true_eq_false, if_false, hrun0 h1]
  · intro hno
    have hno2 : ¬ (w.pool.running > w.pool.size ∧
        truncToInt (w.pool.load * (1 - 5 / 100) + (w.pool.inUse : ℚ) * (5 / 100) + 1) <
          w.pool.running) := fun h => hno ⟨h.1, htest.mp h.2⟩
    unfold ThreadPool.sizePolicy newLoad
    simp only [hmax, hd, if_true, Bool.false_eq_true, not_false_eq_true, hno2, hpos,
      not_true_eq_false, if_false]

/-- Witness of C7: after the first promotion (one thread in use, two
running, `size = 1`) the load becomes 0.05, whose ceiling 1 is below
`running = 2`: the worker retires. -/
theorem sizePolicy_shrink_rule_witness :
    World.exec iceConfig elasticWorld firstPromotion =
      some ⟨grownPool, 0, fun _ => streamHandler [], []⟩ ∧
    (ThreadPool.sizePolicy grownPool).2 = Flow.returned false ∧
    (ThreadPool.sizePolicy grownPool).1.inUse = 0 ∧
    (ThreadPool.sizePolicy grownPool).1.running = 1 :=
  have hc : ⌈newLoad grownPool⌉ < grownPool.running :=
    lt_of_le_of_lt (Int.ceil_le.mpr (by
      simp only [newLoad, grownPool, ThreadPool.create]
      norm_num)) (by decide : (1 : Int) < grownPool.running)
  have w := (sizePolicy_shrink_rule iceConfig ⟨some 1, some 4, none, none⟩ 3 0
    (fun _ => streamHandler []) firstPromotion ⟨grownPool, 0, fun _ => streamHandler [], []⟩
    rfl (by decide) rfl (by decide)).1 ⟨by decide, hc⟩
  ⟨rfl, by rw [w], by rw [w]; rfl, by rw [w]; rfl⟩

/-! ## Registrations and `finished` -/

theorem finishedCalls_append (a b : List Callback) :
    finishedCalls (a ++ b) = finishedCalls a ++ finishedCalls b := by
  induction a with
  | nil => rfl
  | cons c rest ih => cases c <;> simp [finishedCalls, ih]

theorem finishedCalls_replicate_read (n handler : Nat) :
    finishedCalls (List.replicate n (Callback.read handler)) = [] := by
  induction n with
  | zero => rfl
  | succ k ih => simp [List.replicate_succ, finishedCalls, ih]

theorem finishedCalls_replicate_warning (n : Nat) :
    finishedCalls (List.replicate n Callback.warning) = [] := by
  induction n with
  | zero => rfl
  | succ k ih => simp [List.replicate_succ, finishedCalls, ih]

theorem drainAll_append_add (cs : List (Int × EventHandlerPtr)) (fd : Int) (h : Nat) :
    ∀ m, drainAll m (cs ++ [(fd, some h)]) = (mapInsert (drainAll m cs).1 fd h, (drainAll m cs).2) := by
  induction cs with
  | nil => intro m; rfl
  | cons c rest ih =>
    intro m
    obtain ⟨fd', handler⟩ := c
    rw [List.cons_append]
    cases handler with
    | some h' => simp only [drainAll, ih]
    | none =>
      simp only [drainAll]
      cases mapFind m fd' <;> simp only [ih]

theorem drainAll_append_remove (cs : List (Int × EventHandlerPtr)) (fd : Int) :
    ∀ m, drainAll m (cs ++ [(fd, none)]) =
      match mapFind (drainAll m cs).1 fd with
      | none => drainAll m cs
      | some h => (mapErase (drainAll m cs).1 fd, (drainAll m cs).2 ++ [h]) := by
  induction cs with
  | nil =>
    intro m
    simp only [List.nil_append, drainAll]
  | cons c rest ih =>
    intro m
    obtain ⟨fd', handler⟩ := c
    rw [List.cons_append]
    cases handler with
    | some h' => simp only [drainAll, ih]
    | none =>
      simp only [drainAll]
      cases mapFind m fd' with
      | none => simp only [ih]
      | some h' =>
        simp only [ih]
        cases mapFind (drainAll (mapErase m fd') rest).1 fd <;> rfl

/-- The registrations depend on the handler table, the queue and the
`finished` calls only. -/
theorem registry_congr {τ : Type} (w w1 : World τ)
    (hd : w1.pool.descriptors = w.pool.descriptors)
    (ht : finishedCalls w1.trace = finishedCalls w.trace) : w1.registry = w.registry := by
  simp only [ThreadPool.descriptors, Prod.mk.injEq] at hd
  obtain ⟨_, _, h3, h4⟩ := hd
  unfold World.registry
  rw [h3, h4, ht]

theorem promoteFollower_logs (p q : ThreadPool) (ok : Bool) (logs : List Callback)
    (h : ThreadPool.promoteFollower p ok = some (q, logs)) : finishedCalls logs = [] := by
  unfold ThreadPool.promoteFollower at h
  simp only at h
  split_ifs at h <;> simp only [Option.some.injEq, Prod.mk.injEq] at h <;>
    (obtain ⟨_, h2⟩ := h; subst h2; rfl)

theorem dispatchMessage_finished {τ : Type} (cfg : Config) (w : World τ) (handler : Nat) :
    finishedCalls (ThreadPool.dispatchMessage cfg w handler).1.trace = finishedCalls w.trace := by
  unfold ThreadPool.dispatchMessage
  by_cases hr : (w.objs handler).readable = true
  · simp only [hr, if_true]
    generalize ThreadPool.read cfg.protocol cfg.messageSizeMax cfg.warnUdp (w.objs handler) = r
    rcases r with ⟨h, o, n, m⟩
    cases o with
    | ok =>
      simp only
      split_ifs <;>
        simp [finishedCalls_append, finishedCalls_replicate_read,
          finishedCalls_replicate_warning, finishedCalls]
    | raised e =>
      cases e <;>
        simp [finishedCalls_append, finishedCalls_replicate_read,
          finishedCalls_replicate_warning, finishedCalls]
    | assertFailed =>
      simp [finishedCalls_append, finishedCalls_replicate_read,
        finishedCalls_replicate_warning]
  · simp [hr, finishedCalls_append, finishedCalls]

/-- Draining one change does not alter the registrations as the callers see
them: a removed handler moves from "to be finished" to "finished". -/
theorem applyChange_registry (p : ThreadPool) (trace : List Callback) :
    match ThreadPool.applyChange p with
    | (_, Drained.assertFailed) => True
    | (q, Drained.added) =>
      (drainAll q.handlerMap q.changes).1 = (drainAll p.handlerMap p.changes).1 ∧
      finishedCalls trace ++ (drainAll q.handlerMap q.changes).2 =
        finishedCalls trace ++ (drainAll p.handlerMap p.changes).2
    | (q, Drained.removed h) =>
      (drainAll q.handlerMap q.changes).1 = (drainAll p.handlerMap p.changes).1 ∧
      finishedCalls (trace ++ [Callback.finished h]) ++ (drainAll q.handlerMap q.changes).2 =
        finishedCalls trace ++ (drainAll p.handlerMap p.changes).2 := by
  unfold ThreadPool.applyChange
  rcases hch : p.changes with _ | ⟨⟨fd, handler⟩, rest⟩
  · trivial
  · cases handler with
    | some h => simp only [drainAll, and_self]
    | none =>
      simp only
      cases hf : mapFind p.handlerMap fd with
      | none => trivial
      | some h =>
        simp only [drainAll, hf, finishedCalls_append, finishedCalls, List.append_assoc,
          List.singleton_append, and_self]

/-- A pass of the loop that fails no assertion leaves the registrations as
the callers see them unchanged. -/
theorem run_registry {τ : Type} (cfg : Config) (w : World τ) (k : Wake)
    (hna : (ThreadPool.run cfg w k).2 ≠ Flow.assertFailed) :
    (ThreadPool.run cfg w k).1.registry = w.registry := by
  unfold ThreadPool.run at hna ⊢
  by_cases h1 : k.ret = SOCKET_ERROR
  · simp only [h1, if_true]
    split_ifs
    · rfl
    · exact registry_congr w _ rfl (by simp [finishedCalls_append, finishedCalls])
  simp only [h1, if_false] at hna ⊢
  by_cases h2 : k.ret = 0
  · simp only [h2, if_true]
    split_ifs
    all_goals first
      | rfl
      | exact registry_congr w _ rfl rfl
      | (split
         · exact registry_congr w _ rfl rfl
         · next q logs hp =>
           refine registry_congr w _ ((promoteFollower_descriptors _ q _ logs hp).trans rfl) ?_
           simp [finishedCalls_append, finishedCalls, promoteFollower_logs _ q _ logs hp])
  simp only [h2, if_false] at hna ⊢
  by_cases h3 : w.pool.fdIntrRead ∈ k.fdSet
  · simp only [h3, if_true] at hna ⊢
    split_ifs at hna ⊢
    · rfl
    · rfl
    · have ha := applyChange_registry w.pool w.trace
      rcases hac : ThreadPool.applyChange w.pool with ⟨q, d⟩
      rw [hac] at ha
      simp only [hac] at hna
      cases d with
      | assertFailed => exact absurd rfl hna
      | added =>
        simp only at ha ⊢
        unfold World.registry
        simp only [ha.1, ha.2]
      | removed h =>
        simp only at ha ⊢
        unfold World.registry
        simp only [ha.1, ha.2]
  simp only [h3, if_false]
  cases hrr : ThreadPool.roundRobin w.pool k.fdSet with
  | none => rfl
  | some r =>
    obtain ⟨lastFd, loops⟩ := r
    simp only
    split_ifs
    · exact registry_congr w _ rfl (by simp [finishedCalls_append, finishedCalls])
    · rfl
    · cases hf : mapFind w.pool.handlerMap lastFd with
      | none => exact registry_congr w _ rfl (by simp [finishedCalls_append, finishedCalls])
      | some handler =>
        simp only
        refine registry_congr w _ ?_ ?_
        · rw [dispatchMessage_pool]; rfl
        · rw [dispatchMessage_finished]

/-- Every event changes the registrations as the callers see them the way
the call itself says, whenever the pool drains the changes. -/
theorem step_registry {τ : Type} (cfg : Config) (w w1 : World τ) (e : Event)
    (hstep : World.step cfg w e = some w1) : w1.registry = registryStep w.registry e := by
  cases e with
  | register fd handler =>
    simp only [World.step, ThreadPool._register] at hstep
    split_ifs at hstep
    simp only [Option.some.injEq] at hstep
    subst hstep
    cases handler with
    | some h =>
      simp only [World.registry, registryStep, drainAll_append_add]
    | none =>
      simp only [World.registry, registryStep, drainAll_append_remove]
      cases mapFind (drainAll w.pool.handlerMap w.pool.changes).1 fd <;>
        simp only [List.append_assoc]
  | unregister fd =>
    simp only [World.step, ThreadPool.unregister] at hstep
    split_ifs at hstep
    simp only [Option.some.injEq] at hstep
    subst hstep
    simp only [World.registry, registryStep, drainAll_append_remove]
    cases mapFind (drainAll w.pool.handlerMap w.pool.changes).1 fd <;>
      simp only [List.append_assoc]
  | destroy =>
    simp only [World.step, ThreadPool.destroy] at hstep
    split_ifs at hstep
    simp only [Option.some.injEq] at hstep
    subst hstep
    rfl
  | wake k =>
    have hi := run_registry cfg w k
    simp only [World.step] at hstep
    rcases hit : ThreadPool.run cfg w k with ⟨w2, f⟩
    rw [hit] at hstep hi
    cases f <;> simp only [Option.some.injEq] at hstep <;> first
      | (subst hstep; exact hi Flow.noConfusion)
      | exact Option.noConfusion hstep
  | promoteFollower ok =>
    simp only [World.step] at hstep
    cases hp : ThreadPool.promoteFollower w.pool ok with
    | none => rw [hp] at hstep; exact Option.noConfusion hstep
    | some r =>
      obtain ⟨q, logs⟩ := r
      rw [hp] at hstep
      simp only [Option.some.injEq] at hstep
      subst hstep
      refine registry_congr w _ (promoteFollower_descriptors _ _ _ _ hp) ?_
      simp [finishedCalls_append, promoteFollower_logs _ _ _ _ hp]
  | sizePolicy =>
    simp only [World.step] at hstep
    have hd := sizePolicy_descriptors w.pool
    rcases hsp : ThreadPool.sizePolicy w.pool with ⟨q, f⟩
    rw [hsp] at hstep hd
    cases f <;> simp only [Option.some.injEq] at hstep <;> first
      | (subst hstep; exact registry_congr w _ hd rfl)
      | exact Option.noConfusion hstep
  | acquireLeader =>
    simp only [World.step] at hstep
    cases hp : ThreadPool.acquireLeader w.pool with
    | none => rw [hp] at hstep; exact Option.noConfusion hstep
    | some q =>
      rw [hp] at hstep
      simp only [Option.some.injEq] at hstep
      subst hstep
      exact registry_congr w _ (acquireLeader_descriptors _ _ hp) rfl

theorem exec_registry {τ : Type} (cfg : Config) (events : List Event) :
    ∀ (w w1 : World τ), World.exec cfg w events = some w1 →
      w1.registry = registryRun w.registry events := by
  induction events with
  | nil =>
    intro w w1 hrun
    simp only [World.exec, Option.some.injEq] at hrun
    subst hrun
    rfl
  | cons e es ih =>
    intro w w1 hrun
    simp only [World.exec] at hrun
    cases hst : World.step cfg w e with
    | none => rw [hst] at hrun; exact Option.noConfusion hrun
    | some w2 =>
      rw [hst] at hrun
      rw [ih w2 w1 hrun, step_registry cfg w w2 e hst]
      rfl

theorem mapFind_none_iff (m : List (Int × Nat)) (k : Int) :
    mapFind m k = none ↔ k ∉ mapKeys m := by
  rw [← mapFind_isSome]
  cases mapFind m k <;> simp

theorem mapInsert_perm (m : List (Int × Nat)) (k : Int) (v : Nat) (h : mapFind m k = none) :
    (mapInsert m k v).Perm ((k, v) :: m) := by
  induction m with
  | nil => exact List.Perm.refl _
  | cons e rest ih =>
    unfold mapFind at h
    split_ifs at h with h1
    unfold mapInsert
    split_ifs with h2 h3
    · exact List.Perm.refl _
    · exact absurd h3.symm h1
    · exact ((ih h).cons e).trans (List.Perm.swap _ _ _)

theorem mapErase_perm (m : List (Int × Nat)) (k : Int) (v : Nat) (h : mapFind m k = some v) :
    m.Perm ((k, v) :: mapErase m k) := by
  induction m with
  | nil => simp [mapFind] at h
  | cons e rest ih =>
    unfold mapFind at h
    unfold mapErase
    split_ifs at h ⊢ with h1
    · simp only [Option.some.injEq] at h
      obtain ⟨e1, e2⟩ := e
      simp only at h1 h
      subst h1 h
      exact List.Perm.refl _
    · exact ((ih h).cons e).trans (List.Perm.swap _ _ _)

theorem mapFind_mapInsert_self (m : List (Int × Nat)) (k : Int) (v : Nat)
    (h : mapFind m k = none) : mapFind (mapInsert m k v) k = some v := by
  induction m with
  | nil => simp [mapInsert, mapFind]
  | cons e rest ih =>
    unfold mapFind at h
    split_ifs at h with h1
    unfold mapInsert
    split_ifs with h2 h3
    · simp [mapFind]
    · exact absurd h3.symm h1
    · simp only [mapFind, h1, if_false]
      exact ih h

theorem mapFind_mapInsert_other (m : List (Int × Nat)) (k : Int) (v : Nat) (x : Int)
    (hx : x ≠ k) : mapFind (mapInsert m k v) x = mapFind m x := by
  induction m with
  | nil =>
    simp only [mapInsert, mapFind]
    rw [if_neg (fun h : k = x => hx h.symm)]
  | cons e rest ih =>
    unfold mapInsert
    split_ifs with h2 h3
    · simp only [mapFind]
      rw [if_neg (fun h : k = x => hx h.symm)]
    · rfl
    · simp only [mapFind, ih]

theorem mapFind_mapErase_self (m : List (Int × Nat)) (k : Int)
    (hs : (mapKeys m).Pairwise (· < ·)) : mapFind (mapErase m k) k = none := by
  rw [mapFind_none_iff, mem_mapKeys_mapErase m k k hs]
  exact fun h => h.2 rfl

theorem mapFind_mapErase_other (m : List (Int × Nat)) (k x : Int) (hx : x ≠ k) :
    mapFind (mapErase m k) x = mapFind m x := by
  induction m with
  | nil => rfl
  | cons e rest ih =>
    unfold mapErase
    split_ifs with h1
    · simp only [mapFind]
      rw [if_neg (fun h : e.1 = x => hx (h.symm.trans h1))]
    · simp only [mapFind, ih]

theorem mapFind_mem_values (m : List (Int × Nat)) (k : Int) (v : Nat) (h : mapFind m k = some v) :
    v ∈ m.map Prod.snd := by
  have hp := (mapErase_perm m k v h).map Prod.snd
  exact hp.mem_iff.mpr (List.mem_cons_self _ _)

theorem RegistryInv_register (live : List (Int × Nat)) (fin used : List Nat) (fd : Int) (h : Nat)
    (hinv : RegistryInv live fin used) (hnone : mapFind live fd = none) (hnew : h ∉ used) :
    RegistryInv (mapInsert live fd h) fin (h :: used) := by
  obtain ⟨h1, h2, h3, h4, h5, h6⟩ := hinv
  have hp := (mapInsert_perm live fd h hnone).map Prod.snd
  simp only [List.map_cons] at hp
  refine ⟨mapInsert_sorted _ _ _ h1, ?_, h3, ?_, ?_, ?_⟩
  · rw [hp.nodup_iff, List.nodup_cons]
    exact ⟨fun hm => hnew (h5 h hm), h2⟩
  · intro x hx
    rcases List.mem_cons.mp (hp.mem_iff.mp hx) with hx1 | hx1
    · rw [hx1]; exact fun hm => hnew (h6 h hm)
    · exact h4 x hx1
  · intro x hx
    rcases List.mem_cons.mp (hp.mem_iff.mp hx) with hx1 | hx1
    · rw [hx1]; exact List.mem_cons_self _ _
    · exact List.mem_cons_of_mem _ (h5 x hx1)
  · intro x hx
    exact List.mem_cons_of_mem _ (h6 x hx)

theorem RegistryInv_unregister (live : List (Int × Nat)) (fin used : List Nat) (fd : Int) (h : Nat)
    (hinv : RegistryInv live fin used) (hfind : mapFind live fd = some h) :
    RegistryInv (mapErase live fd) (fin ++ [h]) used := by
  obtain ⟨h1, h2, h3, h4, h5, h6⟩ := hinv
  have hp := (mapErase_perm live fd h hfind).map Prod.snd
  simp only [List.map_cons] at hp
  have hnd := hp.nodup_iff.mp h2
  rw [List.nodup_cons] at hnd
  have hmem : h ∈ live.map Prod.snd := hp.mem_iff.mpr (List.mem_cons_self _ _)
  have hsub : ∀ x ∈ (mapErase live fd).map Prod.snd, x ∈ live.map Prod.snd :=
    fun x hx => hp.mem_iff.mpr (List.mem_cons_of_mem _ hx)
  refine ⟨mapErase_sorted _ _ h1, hnd.2, ?_, ?_, fun x hx => h5 x (hsub x hx), ?_⟩
  · rw [List.nodup_append]
    refine ⟨h3, List.nodup_singleton _, ?_⟩
    intro a ha hb
    rw [List.mem_singleton] at hb
    exact h4 h hmem (hb ▸ ha)
  · intro x hx hfin
    rcases List.mem_append.mp hfin with hf | hf
    · exact h4 x (hsub x hx) hf
    · rw [List.mem_singleton] at hf
      exact hnd.1 (hf ▸ hx)
  · intro x hx
    rcases List.mem_append.mp hx with hf | hf
    · exact h6 x hf
    · rw [List.mem_singleton] at hf
      rw [hf]; exact h5 h hmem

/-- With well paired calls no handler is finished twice, and every handler
that was bound when its descriptor is unregistered, or that is registered
and later has its descriptor unregistered, is finished. -/
theorem registryRun_finished (events : List Event) :
    ∀ (live : List (Int × Nat)) (fin used : List Nat), RegistryInv live fin used →
      WellPaired live used events →
      (registryRun (live, fin) events).2.Nodup ∧
      ∀ h, (h ∈ fin ∨ (∃ fd, mapFind live fd = some h ∧ Event.unregister fd ∈ events) ∨
          RegisteredThenUnregistered h events) → h ∈ (registryRun (live, fin) events).2 := by
  induction events with
  | nil =>
    intro live fin used hinv _
    refine ⟨hinv.2.2.1, ?_⟩
    rintro h (h1 | ⟨fd, _, h2⟩ | h3)
    · exact h1
    · exact absurd h2 (List.not_mem_nil _)
    · exact absurd h3 (by simp [RegisteredThenUnregistered])
  | cons e es ih =>
    intro live fin used hinv hwp
    cases e with
    | register fd' handler =>
      cases handler with
      | none => exact absurd hwp (by simp [WellPaired])
      | some h' =>
        simp only [WellPaired] at hwp
        obtain ⟨hnone, hnew, hwp'⟩ := hwp
        have hinv' := RegistryInv_register live fin used fd' h' hinv hnone hnew
        obtain ⟨ih1, ih2⟩ := ih _ _ _ hinv' hwp'
        simp only [registryRun, registryStep]
        refine ⟨ih1, ?_⟩
        rintro h (h1 | ⟨fd, hf, hu⟩ | h3)
        · exact ih2 h (Or.inl h1)
        · have hu' : Event.unregister fd ∈ es := by
            rcases List.mem_cons.mp hu with hu1 | hu1
            · exact Event.noConfusion hu1
            · exact hu1
          have hne : fd ≠ fd' := fun heq => by
            rw [heq, hnone] at hf; exact Option.noConfusion hf
          exact ih2 h (Or.inr (Or.inl ⟨fd, by rw [mapFind_mapInsert_other _ _ _ _ hne]; exact hf,
            hu'⟩))
        · simp only [RegisteredThenUnregistered] at h3
          rcases h3 with ⟨fd, heq, hu⟩ | h3
          · simp only [Event.register.injEq, Option.some.injEq] at heq
            obtain ⟨hfd, hh⟩ := heq
            subst hfd hh
            exact ih2 _ (Or.inr (Or.inl ⟨_, mapFind_mapInsert_self _ _ _ hnone, hu⟩))
          · exact ih2 h (Or.inr (Or.inr h3))
    | unregister fd' =>
      simp only [WellPaired] at hwp
      obtain ⟨hsome, hwp'⟩ := hwp
      obtain ⟨h', hfind⟩ := Option.isSome_iff_exists.mp hsome
      have hinv' := RegistryInv_unregister live fin used fd' h' hinv hfind
      obtain ⟨ih1, ih2⟩ := ih _ _ _ hinv' hwp'
      simp only [registryRun, registryStep, hfind]
      refine ⟨ih1, ?_⟩
      rintro h (h1 | ⟨fd, hf, hu⟩ | h3)
      · exact ih2 h (Or.inl (List.mem_append_left _ h1))
      · by_cases hfd : fd = fd'
        · rw [hfd, hfind] at hf
          simp only [Option.some.injEq] at hf
          exact ih2 h (Or.inl (List.mem_append_right _ (by rw [hf]; exact List.mem_singleton_self _)))
        · have hu' : Event.unregister fd ∈ es := by
            rcases List.mem_cons.mp hu with hu1 | hu1
            · simp only [Event.unregister.injEq] at hu1
              exact absurd hu1 hfd
            · exact hu1
          exact ih2 h (Or.inr (Or.inl ⟨fd, by rw [mapFind_mapErase_other _ _ _ hfd]; exact hf,
            hu'⟩))
      · simp only [RegisteredThenUnregistered] at h3
        rcases h3 with ⟨fd, heq, _⟩ | h3
        · exact Event.noConfusion heq
        · exact ih2 h (Or.inr (Or.inr h3))
    | destroy =>
      simp only [WellPaired] at hwp
      obtain ⟨ih1, ih2⟩ := ih _ _ _ hinv hwp
      simp only [registryRun, registryStep]
      refine ⟨ih1, ?_⟩
      rintro h (h1 | ⟨fd, hf, hu⟩ | h3)
      · exact ih2 h (Or.inl h1)
      · rcases List.mem_cons.mp hu with hu1 | hu1
        · exact Event.noConfusion hu1
        · exact ih2 h (Or.inr (Or.inl ⟨fd, hf, hu1⟩))
      · simp only [RegisteredThenUnregistered] at h3
        rcases h3 with ⟨fd, heq, _⟩ | h3
        · exact Event.noConfusion heq
        · exact ih2 h (Or.inr (Or.inr h3))
    | wake k =>
      simp only [WellPaired] at hwp
      obtain ⟨ih1, ih2⟩ := ih _ _ _ hinv hwp
      simp only [registryRun, registryStep]
      refine ⟨ih1, ?_⟩
      rintro h (h1 | ⟨fd, hf, hu⟩ | h3)
      · exact ih2 h (Or.inl h1)
      · rcases List.mem_cons.mp hu with hu1 | hu1
        · exact Event.noConfusion hu1
        · exact ih2 h (Or.inr (Or.inl ⟨fd, hf, hu1⟩))
      · simp only [RegisteredThenUnregistered] at h3
        rcases h3 with ⟨fd, heq, _⟩ | h3
        · exact Event.noConfusion heq
        · exact ih2 h (Or.inr (Or.inr h3))
    | promoteFollower ok =>
      simp only [WellPaired] at hwp
      obtain ⟨ih1, ih2⟩ := ih _ _ _ hinv hwp
      simp only [registryRun, registryStep]
      refine ⟨ih1, ?_⟩
      rintro h (h1 | ⟨fd, hf, hu⟩ | h3)
      · exact ih2 h (Or.inl h1)
      · rcases List.mem_cons.mp hu with hu1 | hu1
        · exact Event.noConfusion hu1
        · exact ih2 h (Or.inr (Or.inl ⟨fd, hf, hu1⟩))
      · simp only [RegisteredThenUnregistered] at h3
        rcases h3 with ⟨fd, heq, _⟩ | h3
        · exact Event.noConfusion heq
        · exact ih2 h (Or.inr (Or.inr h3))
    | sizePolicy =>
      simp only [WellPaired] at hwp
      obtain ⟨ih1, ih2⟩ := ih _ _ _ hinv hwp
      simp only [registryRun, registryStep]
      refine ⟨ih1, ?_⟩
      rintro h (h1 | ⟨fd, hf, hu⟩ | h3)
      · exact ih2 h (Or.inl h1)
      · rcases List.mem_cons.mp hu with hu1 | hu1
        · exact Event.noConfusion hu1
        · exact ih2 h (Or.inr (Or.inl ⟨fd, hf, hu1⟩))
      · simp only [RegisteredThenUnregistered] at h3
        rcases h3 with ⟨fd, heq, _⟩ | h3
        · exact Event.noConfusion heq
        · exact ih2 h (Or.inr (Or.inr h3))
    | acquireLeader =>
      simp only [WellPaired] at hwp
      obtain ⟨ih1, ih2⟩ := ih _ _ _ hinv hwp
      simp only [registryRun, registryStep]
      refine ⟨ih1, ?_⟩
      rintro h (h1 | ⟨fd, hf, hu⟩ | h3)
      · exact ih2 h (Or.inl h1)
      · rcases List.mem_cons.mp hu with hu1 | hu1
        · exact Event.noConfusion hu1
        · exact ih2 h (Or.inr (Or.inl ⟨fd, hf, hu1⟩))
      · simp only [RegisteredThenUnregistered] at h3
        rcases h3 with ⟨fd, heq, _⟩ | h3
        · exact Event.noConfusion heq
        · exact ih2 h (Or.inr (Or.inr h3))

/-- C6 as stated fails.  (1) A handler registered on two descriptors has
`finished` called twice once both are unregistered. (2) When a second
handler is registered on a descriptor that is already registered,
`std::map::insert` keeps the first one: after the unregister the first
handler is finished and the second never is.  In both runs every
`unregister(fd)` is preceded by a `register` of that `fd` and all queued
changes are drained. -/
theorem finished_once_fails :
    (UnregisterPreceded sharedHandler [] ∧
      ∃ w, World.exec iceConfig world3 sharedHandler = some w ∧ w.pool.changes = [] ∧
        (finishedCalls w.trace).count 1 = 2) ∧
    (UnregisterPreceded doubleRegistration [] ∧
      RegisteredThenUnregistered 2 doubleRegistration ∧
      ∃ w, World.exec iceConfig world3 doubleRegistration = some w ∧ w.pool.changes = [] ∧
        (finishedCalls w.trace).count 2 = 0) := by
  refine ⟨⟨?_, _, rfl, rfl, by decide⟩, ?_, ?_, _, rfl, rfl, by decide⟩
  · simp [UnregisterPreceded, sharedHandler]
  · simp [UnregisterPreceded, doubleRegistration]
  · simp [RegisteredThenUnregistered, doubleRegistration]

/-- C6 (amended): for every sequence of calls in which every `register`
names a descriptor that is not registered at that time and a handler not
passed to `register` before, and every `unregister` names a descriptor
registered at that time, once all queued changes have been drained by the
loop, every handler that was passed to `register` and whose descriptor was
subsequently unregistered has had `finished` called on it exactly once, and
no handler has had `finished` called more than once. -/
theorem finished_exactly_once {τ : Type} (cfg : Config) (props : Properties)
    (intr timeout : Int) (objs : Nat → EventHandler τ) (events : List Event) (w : World τ)
    (hwp : WellPaired [] [] events)
    (hrun : World.exec cfg (World.init props intr timeout objs) events = some w)
    (hdrained : w.pool.changes = []) :
    (∀ h, RegisteredThenUnregistered h events → (finishedCalls w.trace).count h = 1) ∧
    (∀ h, (finishedCalls w.trace).count h ≤ 1) := by
  have hreg := exec_registry cfg events _ w hrun
  have hinit : (World.init props intr timeout objs).registry = ([], []) := rfl
  have hw : w.registry.2 = finishedCalls w.trace := by
    simp [World.registry, hdrained, drainAll]
  have hinv : RegistryInv [] [] [] := by
    simp [RegistryInv, mapKeys]
  obtain ⟨hnd, hmem⟩ := registryRun_finished events [] [] [] hinv hwp
  rw [hinit] at hreg
  rw [← hreg, hw] at hnd hmem
  refine ⟨fun h hr => ?_, fun h => List.nodup_iff_count_le_one.mp hnd h⟩
  exact List.count_eq_one_of_mem hnd (hmem h (Or.inr (Or.inr hr)))

/-- Witness of C6 (amended): handler 1 is registered on descriptor 10 and
unregistered; after the two drains `finished` was called on it once. -/
theorem finished_exactly_once_witness :
    ∃ w, World.exec iceConfig world3 registerUnregister = some w ∧ w.pool.changes = [] ∧
      RegisteredThenUnregistered 1 registerUnregister ∧ (finishedCalls w.trace).count 1 = 1 :=
  have hr : RegisteredThenUnregistered 1 registerUnregister := by
    simp [RegisteredThenUnregistered, registerUnregister]
  ⟨_, rfl, rfl, hr,
    (finished_exactly_once iceConfig ⟨none, none, none, none⟩ 3 0 (fun _ => streamHandler [])
      registerUnregister _ (by simp [WellPaired, registerUnregister, mapFind, mapInsert])
      rfl rfl).1 1 hr⟩

/-! ## Dispatch -/

theorem readBody_ok_cursor {τ : Type} (w : Bool) (h : EventHandler τ) (size : Int) (pos n : Nat)
    (hok : (ThreadPool.readBody w h size pos n).outcome = Outcome.ok) :
    (ThreadPool.readBody w h size pos n).handler.stream.i =
      (ThreadPool.readBody w h size pos n).handler.stream.b.length := by
  unfold ThreadPool.readBody at hok ⊢
  simp only at hok ⊢
  generalize (if size > (h.stream.b.length : Int) then resize h.stream.b size.toNat
    else h.stream.b) = b1 at hok ⊢
  by_cases hne : pos = b1.length
  · simp only [hne, ne_eq, not_true_eq_false, if_false]
  · simp only [ne_eq, hne, not_false_eq_true, if_true] at hok ⊢
    cases hd : h.datagram with
    | true =>
      simp only [hd, if_true] at hok
      split_ifs at hok
    | false =>
      simp only [hd, Bool.false_eq_true, if_false] at hok ⊢
      cases hrs : (h.read h.transport ⟨b1, pos⟩).raised with
      | some e =>
        simp only [hrs] at hok
        exact Outcome.noConfusion hok
      | none =>
        simp only [hrs] at hok ⊢
        split_ifs at hok ⊢ with h1
        exact h1

/-- When the framer returns without error the cursor is at the end of the stream. -/
theorem read_ok_cursor {τ : Type} (P : Protocol) (m : Int) (w : Bool) (h : EventHandler τ)
    (hok : (ThreadPool.read P m w h).outcome = Outcome.ok) :
    (ThreadPool.read P m w h).handler.stream.i =
      (ThreadPool.read P m w h).handler.stream.b.length := by
  have hfill : (ThreadPool.fillHeader P h).outcome = Outcome.ok := by
    cases hfo : (ThreadPool.fillHeader P h).outcome with
    | ok => rfl
    | raised e =>
      unfold ThreadPool.read at hok
      simp only [hfo] at hok
      exact hok
    | assertFailed =>
      unfold ThreadPool.read at hok
      simp only [hfo] at hok
      exact hok
  rw [read_of_fill_ok P m w h hfill] at hok ⊢
  cases hv : headerVerdict P m (ThreadPool.fillHeader P h).handler.stream.b with
  | error e =>
    simp only [hv] at hok
    exact Outcome.noConfusion hok
  | ok size =>
    simp only [hv] at hok ⊢
    exact readBody_ok_cursor _ _ _ _ _ hok

/-- C9 (dispatch policy for a selected handler): `handler.message` is called
when the handler is not readable (with an empty stream, the framer not being
run) and when the framer succeeds (with the framed stream, cursor at its
end), and in no other case; when the framer fails with Timeout or
DatagramLimit neither `message` nor `exception` is called; when it fails with
any other error, `handler.exception` is called once with that error and
`message` is not called; in every failure case the pass ends with `continue`,
so the size-policy step is not run.  (When an assertion of the framer fails,
nothing is called either.) -/
theorem dispatch_policy {τ : Type} (cfg : Config) (w : World τ) (handler : Nat) :
    ((w.objs handler).readable = false →
      (ThreadPool.dispatchMessage cfg w handler).1.trace =
        w.trace ++ [Callback.message handler ⟨[], 0⟩] ∧
      (ThreadPool.dispatchMessage cfg w handler).2 = Flow.dispatched) ∧
    ((w.objs handler).readable = true →
      (ThreadPool.read cfg.protocol cfg.messageSizeMax cfg.warnUdp (w.objs handler)).outcome =
        Outcome.ok →
      (ThreadPool.dispatchMessage cfg w handler).1.trace =
        w.trace ++ framerCalls
          (ThreadPool.read cfg.protocol cfg.messageSizeMax cfg.warnUdp (w.objs handler)) handler ++
        [Callback.message handler
          (ThreadPool.read cfg.protocol cfg.messageSizeMax cfg.warnUdp (w.objs handler)).handler.stream] ∧
      (ThreadPool.dispatchMessage cfg w handler).2 = Flow.dispatched ∧
      (ThreadPool.read cfg.protocol cfg.messageSizeMax cfg.warnUdp (w.objs handler)).handler.stream.i =
        (ThreadPool.read cfg.protocol cfg.messageSizeMax cfg.warnUdp
          (w.objs handler)).handler.stream.b.length) ∧
    ((w.objs handler).readable = true →
      ((ThreadPool.read cfg.protocol cfg.messageSizeMax cfg.warnUdp (w.objs handler)).outcome =
          Outcome.raised LocalException.TimeoutException ∨
        (ThreadPool.read cfg.protocol cfg.messageSizeMax cfg.warnUdp (w.objs handler)).outcome =
          Outcome.raised LocalException.DatagramLimitException) →
      (ThreadPool.dispatchMessage cfg w handler).1.trace =
        w.trace ++ framerCalls
          (ThreadPool.read cfg.protocol cfg.messageSizeMax cfg.warnUdp (w.objs handler)) handler ∧
      (ThreadPool.dispatchMessage cfg w handler).2 = Flow.continued) ∧
    ((w.objs handler).readable = true → ∀ e,
      (ThreadPool.read cfg.protocol cfg.messageSizeMax cfg.warnUdp (w.objs handler)).outcome =
        Outcome.raised e →
      e ≠ LocalException.TimeoutException → e ≠ LocalException.DatagramLimitException →
      (ThreadPool.dispatchMessage cfg w handler).1.trace =
        w.trace ++ framerCalls
          (ThreadPool.read cfg.protocol cfg.messageSizeMax cfg.warnUdp (w.objs handler)) handler ++
        [Callback.exception handler e] ∧
      (ThreadPool.dispatchMessage cfg w handler).2 = Flow.continued) ∧
    ((w.objs handler).readable = true →
      (ThreadPool.read cfg.protocol cfg.messageSizeMax cfg.warnUdp (w.objs handler)).outcome =
        Outcome.assertFailed →
      (ThreadPool.dispatchMessage cfg w handler).1.trace =
        w.trace ++ framerCalls
          (ThreadPool.read cfg.protocol cfg.messageSizeMax cfg.warnUdp (w.objs handler)) handler ∧
      (ThreadPool.dispatchMessage cfg w handler).2 = Flow.assertFailed) := by
  refine ⟨?_, ?_, ?_, ?_, ?_⟩
  · intro hr
    unfold ThreadPool.dispatchMessage
    simp [hr]
  · intro hr hok
    have hcur := read_ok_cursor _ _ _ _ hok
    unfold ThreadPool.dispatchMessage
    simp only [hr, if_true, hok, hcur, ne_eq, not_true_eq_false, if_false, framerCalls,
      List.append_assoc, and_self]
  · intro hr hto
    unfold ThreadPool.dispatchMessage
    rcases hto with hto | hto <;>
      simp only [hr, if_true, hto, framerCalls, List.append_assoc, and_self]
  · intro hr e he h1 h2
    unfold ThreadPool.dispatchMessage
    cases e <;> first
      | exact absurd rfl h1
      | exact absurd rfl h2
      | simp only [hr, if_true, he, framerCalls, List.append_assoc, and_self]
  · intro hr ha
    unfold ThreadPool.dispatchMessage
    simp only [hr, if_true, ha, framerCalls, List.append_assoc, and_self]

/-- Witness of C9: for the frame with size field `headerSize - 1` the
handler gets one `read` call and one `exception(IllegalMessageSize)`, no
`message`, and the pass ends with `continue`. -/
theorem dispatch_policy_witness :
    (ThreadPool.dispatchMessage iceConfig shortFrameWorld 1).1.trace =
      [Callback.read 1, Callback.exception 1 LocalException.IllegalMessageSizeException] ∧
    (ThreadPool.dispatchMessage iceConfig shortFrameWorld 1).2 = Flow.continued :=
  have w := (dispatch_policy iceConfig shortFrameWorld 1).2.2.2.1 rfl
    LocalException.IllegalMessageSizeException (by decide) (by decide) (by decide)
  ⟨w.1.trans (by decide), w.2⟩

/-! ## Register followed by unregister -/

/-- With an unread byte in the pipe, `select` reports the interrupt read end. -/
theorem select_interrupt {τ : Type} (w : World τ) (ready : Finset Int) (hp : 0 < w.pipe)
    (hi : w.pool.fdIntrRead ∈ w.pool.fdSet) :
    w.pool.fdIntrRead ∈ (select w ready).2 ∧ 0 < (select w ready).1 := by
  have hm : w.pool.fdIntrRead ∈ (select w ready).2 := by
    simp only [select, Finset.mem_filter, if_true]
    exact ⟨hi, hp⟩
  refine ⟨hm, ?_⟩
  have hc : 0 < (select w ready).2.card := Finset.card_pos.mpr ⟨_, hm⟩
  simp only [select] at hc ⊢
  exact_mod_cast hc

/-- A pass of the loop on which the interrupt read end is reported, in a
pool that is not destroyed, drains one change. -/
theorem run_interrupt {τ : Type} (cfg : Config) (w : World τ) (k : Wake)
    (hret : 0 < k.ret) (hi : w.pool.fdIntrRead ∈ k.fdSet) (hd : w.pool.destroyed = false)
    (hp : 0 < w.pipe) :
    ThreadPool.run cfg w k =
      match ThreadPool.applyChange w.pool with
      | (p, Drained.assertFailed) => ({ w with pool := p, pipe := w.pipe - 1 }, Flow.assertFailed)
      | (p, Drained.added) => ({ w with pool := p, pipe := w.pipe - 1 }, Flow.continued)
      | (p, Drained.removed handler) =>
        ({ w with pool := p, pipe := w.pipe - 1,
                  trace := w.trace ++ [Callback.finished handler] }, Flow.dispatched) := by
  have h1 : ¬ (k.ret = SOCKET_ERROR) := by unfold SOCKET_ERROR; omega
  have h2 : ¬ (k.ret = 0) := by omega
  have h3 : ¬ (w.pipe = 0) := by omega
  unfold ThreadPool.run
  simp only [h1, h2, hi, hd, h3, if_false, if_true, Bool.false_eq_true]

/-- C10: in a pool that is not destroyed and monitors its interrupt read end,
with an empty change queue and `fd` not registered, after `register(fd, h)`
immediately followed by `unregister(fd)` the next two wakes both take the
interrupt branch, whatever descriptors `ready1`, `ready2` are readable: the
first drains the addition and continues, the second drains the removal, and
together they call `h.finished` once and nothing else (no `read`, no
`message`). -/
theorem register_then_unregister {τ : Type} (cfg : Config) (w : World τ) (fd : Int) (h : Nat)
    (ready1 ready2 : Finset Int) (hd : w.pool.destroyed = false) (hq : w.pool.changes = [])
    (hintr : w.pool.fdIntrRead ∈ w.pool.fdSet) (hfd : mapFind w.pool.handlerMap fd = none) :
    ∃ w1 w2 w3 w4 : World τ,
      ThreadPool._register w fd (some h) = some w1 ∧ ThreadPool.unregister w1 fd = some w2 ∧
      0 < (wakeOn w2 ready1).ret ∧ w2.pool.fdIntrRead ∈ (wakeOn w2 ready1).fdSet ∧
      ThreadPool.run cfg w2 (wakeOn w2 ready1) = (w3, Flow.continued) ∧
      0 < (wakeOn w3 ready2).ret ∧ w3.pool.fdIntrRead ∈ (wakeOn w3 ready2).fdSet ∧
      ThreadPool.run cfg w3 (wakeOn w3 ready2) = (w4, Flow.dispatched) ∧
      w3.trace = w.trace ∧ w4.trace = w.trace ++ [Callback.finished h] ∧
      w4.pool.changes = [] := by
  have hreg : ThreadPool._register w fd (some h) =
      some { w with pool := { w.pool with changes := [(fd, some h)] }, pipe := w.pipe + 1 } := by
    simp [ThreadPool._register, hd, hq]
  have hunreg : ThreadPool.unregister
      { w with pool := { w.pool with changes := [(fd, some h)] }, pipe := w.pipe + 1 } fd =
      some { w with pool := { w.pool with changes := [(fd, some h), (fd, none)] },
                    pipe := w.pipe + 1 + 1 } := by
    simp [ThreadPool.unregister, hd]
  have hs1 := select_interrupt
    { w with pool := { w.pool with changes := [(fd, some h), (fd, none)] },
             pipe := w.pipe + 1 + 1 } ready1 (Nat.succ_pos _) hintr
  have hit1 := run_interrupt cfg
    { w with pool := { w.pool with changes := [(fd, some h), (fd, none)] },
             pipe := w.pipe + 1 + 1 } (wakeOn _ ready1) hs1.2 hs1.1 hd (Nat.succ_pos _)
  simp only [ThreadPool.applyChange, Nat.add_sub_cancel] at hit1
  have hintr2 : w.pool.fdIntrRead ∈ insert fd w.pool.fdSet := Finset.mem_insert_of_mem hintr
  have hs2 := select_interrupt
    { w with pool := { w.pool with changes := [(fd, none)],
                                     handlerMap := mapInsert w.pool.handlerMap fd h,
                                     fdSet := insert fd w.pool.fdSet,
                                     maxFd := max w.pool.maxFd fd,
                                     minFd := min w.pool.minFd fd },
             pipe := w.pipe + 1 } ready2 (Nat.succ_pos _) hintr2
  have hit2 := run_interrupt cfg
    { w with pool := { w.pool with changes := [(fd, none)],
                                     handlerMap := mapInsert w.pool.handlerMap fd h,
                                     fdSet := insert fd w.pool.fdSet,
                                     maxFd := max w.pool.maxFd fd,
                                     minFd := min w.pool.minFd fd },
             pipe := w.pipe + 1 } (wakeOn _ ready2) hs2.2 hs2.1 hd (Nat.succ_pos _)
  simp only [ThreadPool.applyChange, mapFind_mapInsert_self _ _ _ hfd,
    Nat.add_sub_cancel] at hit2
  exact ⟨_,
    { w with pool := { w.pool with changes := [(fd, some h), (fd, none)] },
             pipe := w.pipe + 1 + 1 },
    { w with pool := { w.pool with changes := [(fd, none)],
                                     handlerMap := mapInsert w.pool.handlerMap fd h,
                                     fdSet := insert fd w.pool.fdSet,
                                     maxFd := max w.pool.maxFd fd,
                                     minFd := min w.pool.minFd fd },
             pipe := w.pipe + 1 },
    _, hreg, hunreg, hs1.2, hs1.1, hit1, hs2.2, hs2.1, hit2, rfl, rfl, rfl⟩

/-- Witness of C10: handler 7 is registered on descriptor 10 of the fresh
pool and unregistered at once; on both wakes descriptor 10 itself is
readable, yet the only call made is `finished` on handler 7. -/
theorem register_then_unregister_witness :
    ∃ w1 w2 w3 w4 : World (List Byte),
      ThreadPool._register world3 10 (some 7) = some w1 ∧ ThreadPool.unregister w1 10 = some w2 ∧
      0 < (wakeOn w2 {10}).ret ∧ w2.pool.fdIntrRead ∈ (wakeOn w2 {10}).fdSet ∧
      ThreadPool.run iceConfig w2 (wakeOn w2 {10}) = (w3, Flow.continued) ∧
      0 < (wakeOn w3 {10}).ret ∧ w3.pool.fdIntrRead ∈ (wakeOn w3 {10}).fdSet ∧
      ThreadPool.run iceConfig w3 (wakeOn w3 {10}) = (w4, Flow.dispatched) ∧
      w3.trace = world3.trace ∧ w4.trace = world3.trace ++ [Callback.finished 7] ∧
      w4.pool.changes = [] :=
  register_then_unregister iceConfig world3 10 7 {10} {10} rfl rfl (by decide) rfl

/-! ## Destroyed pools -/

theorem run_destroyed {τ : Type} (cfg : Config) (w : World τ) (k : Wake) :
    (ThreadPool.run cfg w k).1.pool.destroyed = w.pool.destroyed := by
  unfold ThreadPool.run
  by_cases h1 : k.ret = SOCKET_ERROR
  · simp only [h1, if_true]
    split_ifs <;> rfl
  simp only [h1, if_false]
  by_cases h2 : k.ret = 0
  · simp only [h2, if_true]
    split_ifs
    all_goals first
      | rfl
      | (split
         · rfl
         · next q logs hp => exact (promoteFollower_sizing _ q _ logs hp).2.2.2.1)
  simp only [h2, if_false]
  by_cases h3 : w.pool.fdIntrRead ∈ k.fdSet
  · simp only [h3, if_true]
    split_ifs
    · rfl
    · rfl
    · unfold ThreadPool.applyChange
      rcases w.pool.changes with _ | ⟨⟨fd, handler⟩, rest⟩
      · rfl
      · cases handler with
        | some h => rfl
        | none =>
          simp only
          cases mapFind w.pool.handlerMap fd <;> rfl
  simp only [h3, if_false]
  cases hrr : ThreadPool.roundRobin w.pool k.fdSet with
  | none => rfl
  | some r =>
    obtain ⟨lastFd, loops⟩ := r
    simp only
    split_ifs
    · rfl
    · rfl
    · cases hf : mapFind w.pool.handlerMap lastFd with
      | none => rfl
      | some handler =>
        simp only
        rw [dispatchMessage_pool]

/-- A destroyed pool stays destroyed. -/
theorem step_destroyed {τ : Type} (cfg : Config) (w w1 : World τ) (e : Event)
    (hstep : World.step cfg w e = some w1) (hd : w.pool.destroyed = true) :
    w1.pool.destroyed = true := by
  cases e with
  | register fd handler =>
    simp [World.step, ThreadPool._register, hd] at hstep
  | unregister fd =>
    simp [World.step, ThreadPool.unregister, hd] at hstep
  | destroy =>
    simp [World.step, ThreadPool.destroy, hd] at hstep
  | wake k =>
    have hi := run_destroyed cfg w k
    simp only [World.step] at hstep
    rcases hit : ThreadPool.run cfg w k with ⟨w2, f⟩
    rw [hit] at hstep hi
    cases f <;> simp only [Option.some.injEq] at hstep <;> first
      | (subst hstep; exact hi.trans hd)
      | exact Option.noConfusion hstep
  | promoteFollower ok =>
    simp only [World.step] at hstep
    cases hp : ThreadPool.promoteFollower w.pool ok with
    | none => rw [hp] at hstep; exact Option.noConfusion hstep
    | some r =>
      obtain ⟨q, logs⟩ := r
      rw [hp] at hstep
      simp only [Option.some.injEq] at hstep
      subst hstep
      exact ((promoteFollower_sizing _ _ _ _ hp).2.2.2.1).trans hd
  | sizePolicy =>
    simp only [World.step] at hstep
    have hs : (ThreadPool.sizePolicy w.pool).2 ≠ Flow.assertFailed →
        (ThreadPool.sizePolicy w.pool).1.destroyed = w.pool.destroyed :=
      fun h => (sizePolicy_sizing w.pool h).2.2.1
    rcases hsp : ThreadPool.sizePolicy w.pool with ⟨q, f⟩
    rw [hsp] at hstep hs
    cases f <;> simp only [Option.some.injEq] at hstep <;> first
      | (subst hstep; exact (hs Flow.noConfusion).trans hd)
      | exact Option.noConfusion hstep
  | acquireLeader =>
    simp only [World.step] at hstep
    unfold ThreadPool.acquireLeader at hstep
    split_ifs at hstep <;> simp only [Option.some.injEq] at hstep <;>
      (subst hstep; exact hd)

theorem exec_destroyed {τ : Type} (cfg : Config) (events : List Event) :
    ∀ (w w1 : World τ), World.exec cfg w events = some w1 → w.pool.destroyed = true →
      w1.pool.destroyed = true := by
  induction events with
  | nil =>
    intro w w1 hrun hd
    simp only [World.exec, Option.some.injEq] at hrun
    subst hrun
    exact hd
  | cons e es ih =>
    intro w w1 hrun hd
    simp only [World.exec] at hrun
    cases hst : World.step cfg w e with
    | none => rw [hst] at hrun; exact Option.noConfusion hrun
    | some w2 =>
      rw [hst] at hrun
      exact ih w2 w1 hrun (step_destroyed cfg w w2 e hst hd)

/-- C12 (shutdown wake): `destroy`, called with handlers and changes empty,
sets `destroyed` and writes one interrupt byte, changing nothing else;
thereafter the pool stays destroyed, and on every wake where the interrupt
read end is readable `run()` returns `true` and leaves everything as it is:
the interrupt byte is not consumed, `changes`, `handlers`, `fd_set`, `min_fd`,
`max_fd`, `last_fd`, `in_use` and `running` are unchanged and no callback is
invoked, whatever other descriptors are ready on that wake. -/
theorem shutdown_wake {τ : Type} (cfg : Config) (w w1 : World τ)
    (hd : ThreadPool.destroy w = some w1) :
    (w.pool.handlerMap = [] ∧ w.pool.changes = [] ∧
      w1 = { w with pool := { w.pool with destroyed := true }, pipe := w.pipe + 1 }) ∧
    ∀ (events : List Event) (w2 : World τ), World.exec cfg w1 events = some w2 →
      w2.pool.destroyed = true ∧
      ∀ k : Wake, 0 < k.ret → w2.pool.fdIntrRead ∈ k.fdSet →
        ThreadPool.run cfg w2 k = (w2, Flow.returned true) := by
  unfold ThreadPool.destroy at hd
  split_ifs at hd with h1 h2 h3
  simp only [Option.some.injEq] at hd
  refine ⟨⟨not_not.mp h2, not_not.mp h3, hd.symm⟩, ?_⟩
  intro events w2 hexec
  have hd1 : w1.pool.destroyed = true := by rw [← hd]
  have hd2 := exec_destroyed cfg events w1 w2 hexec hd1
  refine ⟨hd2, fun k hret hi => ?_⟩
  have e1 : ¬ (k.ret = SOCKET_ERROR) := by unfold SOCKET_ERROR; omega
  have e2 : ¬ (k.ret = 0) := by omega
  unfold ThreadPool.run
  simp only [e1, e2, hi, hd2, if_false, if_true]

/-- Witness of C12: the fresh pool is destroyed; a wake on which the
interrupt read end and descriptor 10 are readable returns `true` and changes
nothing. -/
theorem shutdown_wake_witness :
    ∃ w1, ThreadPool.destroy world3 = some w1 ∧ w1.pool.destroyed = true ∧ w1.pipe = 1 ∧
      ThreadPool.run iceConfig w1 busyWake = (w1, Flow.returned true) :=
  ⟨_, rfl, rfl, rfl,
    ((shutdown_wake iceConfig world3 _ rfl).2 [] _ rfl).2 busyWake (by decide) (by decide)⟩

/-! ## Retiring a worker -/

/-- The retirement branch of the size policy (lines 668-681). -/
theorem sizePolicy_retire (p : ThreadPool) (hmax : p.sizeMax > 1) (hd : p.destroyed = false)
    (hrun : p.running > p.size) (hload : truncToInt (newLoad p + 1) < p.running)
    (hin : p.inUse > 0) (hpos : p.running > 0) :
    ThreadPool.sizePolicy p = (retired p, Flow.returned false) := by
  unfold newLoad at hload
  unfold ThreadPool.sizePolicy retired newLoad
  simp only [hmax, hd, if_true, Bool.false_eq_true, not_false_eq_true, hrun, hload, and_self,
    hin, hpos, not_true_eq_false, if_false]

theorem grownPool_load_test : truncToInt (newLoad grownPool + 1) < grownPool.running := by
  have h0 : (0 : ℚ) ≤ newLoad grownPool + 1 := by
    simp only [newLoad, grownPool, ThreadPool.create]; norm_num
  unfold truncToInt
  rw [if_pos h0, Int.floor_lt]
  simp only [newLoad, grownPool, ThreadPool.create]
  norm_num

/-- C14 as stated fails: in the pool with one thread in use, two running and
`size = 1` the size policy retires the worker (`in_use` and `running` go
down by one), and `run()` returns `false`, not `true`. -/
theorem retire_returns_true_fails :
    grownPool.running > grownPool.size ∧
    truncToInt (newLoad grownPool + 1) < grownPool.running ∧
    (ThreadPool.sizePolicy grownPool).1.running = grownPool.running - 1 ∧
    (ThreadPool.sizePolicy grownPool).2 = Flow.returned false ∧
    (ThreadPool.sizePolicy grownPool).2 ≠ Flow.returned true := by
  have h := sizePolicy_retire grownPool (by decide) rfl (by decide) grownPool_load_test
    (by decide) (by decide)
  refine ⟨by decide, grownPool_load_test, ?_, ?_, ?_⟩
  · rw [h]; rfl
  · rw [h]
  · rw [h]; exact fun hc => Bool.noConfusion (Flow.returned.inj hc)

/-- C14 (amended): when the size-policy step retires a worker (`size_max > 1`,
pool not destroyed, `running > size`, the load test
`static_cast<int>(load + 1) < running` passes and the assertions on the
counters hold), `run()` returns `promote = false` to the worker thread, which
then ends without setting the promote flag or touching any other member. -/
theorem retire_returns_false (p : ThreadPool) (hmax : p.sizeMax > 1) (hd : p.destroyed = false)
    (hrun : p.running > p.size) (hload : truncToInt (newLoad p + 1) < p.running)
    (hin : p.inUse > 0) (hpos : p.running > 0) :
    ThreadPool.sizePolicy p = (retired p, Flow.returned false) ∧
    EventHandlerThread.run (retired p) (some false) = some (retired p, []) := by
  refine ⟨sizePolicy_retire p hmax hd hrun hload hin hpos, ?_⟩
  simp [EventHandlerThread.run]

/-- Witness of C14 (amended): the pool with one thread in use and two running. -/
theorem retire_returns_false_witness :
    ThreadPool.sizePolicy grownPool = (retired grownPool, Flow.returned false) ∧
    EventHandlerThread.run (retired grownPool) (some false) = some (retired grownPool, []) :=
  retire_returns_false grownPool (by decide) rfl (by decide) grownPool_load_test (by decide)
    (by decide)

/-! ## The datagram warning -/

/-- C20 fails on the code: half the payload arrives on a datagram handler.
With `Warn.Datagrams` on and off the framer raises `DatagramLimitException`,
but with the warning on the stream is left empty with the cursor at 0, and
with the warning off it is left with the 18 bytes of the resized buffer and
the cursor at 16, because lines 782-783 reset the stream inside the
`if(_warnUdp)` block. -/
theorem warnUdp_changes_stream :
    (ThreadPool.read iceProtocol 1048576 true (datagramHandler [halfPacket])).outcome =
      Outcome.raised LocalException.DatagramLimitException ∧
    (ThreadPool.read iceProtocol 1048576 false (datagramHandler [halfPacket])).outcome =
      Outcome.raised LocalException.DatagramLimitException ∧
    (ThreadPool.read iceProtocol 1048576 true (datagramHandler [halfPacket])).handler.stream =
      ⟨[], 0⟩ ∧
    (ThreadPool.read iceProtocol 1048576 false (datagramHandler [halfPacket])).handler.stream =
      ⟨halfPacket ++ [0, 0], 16⟩ := by
  refine ⟨by decide, by decide, by decide, by decide⟩

/-! ## The stream after a successful read -/

theorem headerVerdict_ok (P : Protocol) (m : Int) (b : List Byte) (sz : Int)
    (h : headerVerdict P m b = Except.ok sz) : headerValid P m b ∧ sz = hdrSize P b := by
  unfold headerVerdict at h
  unfold headerValid
  split_ifs at h
  simp only [Except.ok.injEq] at h
  simp_all

/-- When the framer returns without error, the header fill had succeeded. -/
theorem read_ok_fill {τ : Type} (P : Protocol) (m : Int) (w : Bool) (h : EventHandler τ)
    (hok : (ThreadPool.read P m w h).outcome = Outcome.ok) :
    (ThreadPool.fillHeader P h).outcome = Outcome.ok := by
  cases hfo : (ThreadPool.fillHeader P h).outcome with
  | ok => rfl
  | raised e =>
    unfold ThreadPool.read at hok
    simp only [hfo] at hok
    exact hok
  | assertFailed =>
    unfold ThreadPool.read at hok
    simp only [hfo] at hok
    exact hok

/-- The stream the body of the framer leaves when it returns without error. -/
theorem readBody_ok_stream {τ : Type} (w : Bool) (h : EventHandler τ) (size : Int) (pos n : Nat)
    (hpos : pos = h.stream.b.length)
    (hok : (ThreadPool.readBody w h size pos n).outcome = Outcome.ok) :
    (size ≤ (h.stream.b.length : Int) →
      (ThreadPool.readBody w h size pos n).handler.stream.b = h.stream.b) ∧
    ((h.stream.b.length : Int) < size →
      (∀ t s, (h.read t s).stream.b.length = s.b.length) →
      (ThreadPool.readBody w h size pos n).handler.stream.b.length = size.toNat) := by
  unfold ThreadPool.readBody at hok ⊢
  simp only at hok ⊢
  by_cases hgt : size > (h.stream.b.length : Int)
  · have hne : ¬ (pos = (resize h.stream.b size.toNat).length) := by
      rw [resize_length, hpos]; omega
    simp only [hgt, if_true, ne_eq, hne, not_false_eq_true] at hok ⊢
    refine ⟨fun hle => absurd hgt (by omega), fun _ hlen => ?_⟩
    cases hd : h.datagram with
    | true =>
      simp only [hd, if_true] at hok
      split_ifs at hok
    | false =>
      simp only [hd, Bool.false_eq_true, if_false] at hok ⊢
      cases hrs : (h.read h.transport ⟨resize h.stream.b size.toNat, pos⟩).raised with
      | some e =>
        simp only [hrs] at hok
        exact Outcome.noConfusion hok
      | none =>
        simp only [hrs] at hok ⊢
        split_ifs at hok ⊢
        rw [hlen, resize_length]
  · have hle : size ≤ (h.stream.b.length : Int) := by omega
    have hnlt : ¬ ((h.stream.b.length : Int) < size) := by omega
    simp [hgt, hpos, hnlt]

/-- C13 as stated fails: a datagram packet of 20 bytes whose size field says
18 is accepted, the cursor is at the end, and the stream holds the 20 bytes
received, not 18. -/
theorem read_ok_length_fails :
    (ThreadPool.read iceProtocol 1048576 false (datagramHandler [longPacket])).outcome =
      Outcome.ok ∧
    hdrSize iceProtocol
      (ThreadPool.read iceProtocol 1048576 false (datagramHandler [longPacket])).handler.stream.b =
      18 ∧
    (ThreadPool.read iceProtocol 1048576 false
      (datagramHandler [longPacket])).handler.stream.b.length = 20 ∧
    (ThreadPool.read iceProtocol 1048576 false (datagramHandler [longPacket])).handler.stream.i =
      20 := by
  refine ⟨by decide, by decide, by decide, by decide⟩

/-- C13 (amended): for every handler and every initial stream, whenever
`ThreadPool::read` returns without error the header it parsed passed all
checks and the cursor is at the end of the stream; if fewer bytes than the
size field had been received when the header was parsed and `handler.read`
keeps the length of the stream it fills, the length of the stream equals the
size field; if at least `size` bytes had been received, the stream holds
exactly the bytes received, whose number may exceed the size field. -/
theorem read_ok_message {τ : Type} (P : Protocol) (messageSizeMax : Int) (warnUdp : Bool)
    (h : EventHandler τ)
    (hok : (ThreadPool.read P messageSizeMax warnUdp h).outcome = Outcome.ok) :
    headerValid P messageSizeMax (ThreadPool.fillHeader P h).handler.stream.b ∧
    (ThreadPool.read P messageSizeMax warnUdp h).handler.stream.i =
      (ThreadPool.read P messageSizeMax warnUdp h).handler.stream.b.length ∧
    (((ThreadPool.fillHeader P h).handler.stream.b.length : Int) <
        hdrSize P (ThreadPool.fillHeader P h).handler.stream.b →
      (∀ t s, (h.read t s).stream.b.length = s.b.length) →
      ((ThreadPool.read P messageSizeMax warnUdp h).handler.stream.b.length : Int) =
        hdrSize P (ThreadPool.fillHeader P h).handler.stream.b) ∧
    (hdrSize P (ThreadPool.fillHeader P h).handler.stream.b ≤
        ((ThreadPool.fillHeader P h).handler.stream.b.length : Int) →
      (ThreadPool.read P messageSizeMax warnUdp h).handler.stream.b =
        (ThreadPool.fillHeader P h).handler.stream.b) := by
  have hfill := read_ok_fill P messageSizeMax warnUdp h hok
  have hcur := read_ok_cursor P messageSizeMax warnUdp h hok
  have hbuf := checkHeader_buffer P messageSizeMax ⟨(ThreadPool.fillHeader P h).handler.stream.b, 0⟩
  have hpos := (fillHeader_ok P h hfill).1
  have hrd := fillHeader_handler P h
  rw [read_of_fill_ok P messageSizeMax warnUdp h hfill] at hok ⊢
  cases hv : headerVerdict P messageSizeMax (ThreadPool.fillHeader P h).handler.stream.b with
  | error e =>
    simp only [hv] at hok
    exact Outcome.noConfusion hok
  | ok size =>
    obtain ⟨hvalid, hsz⟩ := headerVerdict_ok P messageSizeMax _ size hv
    have hnn : 0 ≤ hdrSize P (ThreadPool.fillHeader P h).handler.stream.b := by
      have := hvalid.2.2.2.1
      omega
    simp only [hv] at hok ⊢
    have hs := readBody_ok_stream warnUdp _ size _ _ (by simp only [hbuf, hpos]) hok
    simp only [hbuf] at hs
    rw [read_of_fill_ok P messageSizeMax warnUdp h hfill] at hcur
    simp only [hv] at hcur
    subst hsz
    refine ⟨hvalid, hcur, fun hlt hlen => ?_, fun hle => hs.1 hle⟩
    have hlen2 : ∀ t s, ((ThreadPool.fillHeader P h).handler.read t s).stream.b.length =
        s.b.length := by
      intro t s
      rw [hrd]
      exact hlen t s
    rw [hs.2 hlt hlen2]
    exact Int.toNat_of_nonneg hnn

/-- Witness of C13 (amended): the frame of 18 bytes read through a stream
handler leaves a stream of 18 bytes, the size field. -/
theorem read_ok_message_witness :
    ((ThreadPool.read iceProtocol 1048576 false
      (streamHandler (header18 ++ [1, 2, 3, 4]))).handler.stream.b.length : Int) = 18 ∧
    (ThreadPool.read iceProtocol 1048576 false
      (streamHandler (header18 ++ [1, 2, 3, 4]))).handler.stream.i =
    (ThreadPool.read iceProtocol 1048576 false
      (streamHandler (header18 ++ [1, 2, 3, 4]))).handler.stream.b.length :=
  have w := read_ok_message iceProtocol 1048576 false (streamHandler (header18 ++ [1, 2, 3, 4]))
    (by decide)
  ⟨(w.2.2.1 (by decide) (fun t s => by
      simp only [streamHandler, streamRead]
      split_ifs with hc
      · simp only [List.length_append, List.length_take, List.length_drop]
        omega
      · simp only [List.length_append, List.length_take]
        omega)).trans (by decide), w.2.1⟩

/-! ## Construction -/

theorem wrapInt_of_fits (x : Int) (hlo : -2147483648 ≤ x) (hhi : x < 2147483648) :
    wrapInt x = x := by
  unfold wrapInt
  omega

theorem sizeWarn_default (M : Int) (h1 : 1 ≤ M) (hfit : M * 80 < 2147483648) :
    Int.tdiv (wrapInt (M * 80)) 100 = M * 80 / 100 := by
  rw [wrapInt_of_fits _ (by omega) hfit]
  exact Int.tdiv_eq_ediv (by omega) (by omega)

/-- C17 as stated fails: with `SizeMax` = 2147483647 and no `SizeWarn`, the
product `sizeMax * 80` does not fit a C++ `int`; the warning threshold becomes
0, whereas `size_max * 80 / 100` is 1717986917. -/
theorem create_sizeWarn_overflow :
    (ThreadPool.create hugeProps 3 0).sizeMax = 2147483647 ∧
    (ThreadPool.create hugeProps 3 0).sizeWarn = 0 ∧
    (ThreadPool.create hugeProps 3 0).sizeMax * 80 / 100 = 1717986917 ∧
    (ThreadPool.create hugeProps 3 0).sizeWarn ≠
      (ThreadPool.create hugeProps 3 0).sizeMax * 80 / 100 := by
  refine ⟨by decide, by decide, by decide, by decide⟩

/-- C17 (amended): for every integer value (or absence) of the `Size`,
`SizeMax`, `SizeWarn` and `StackSize` properties the pool is built with
`size = max(1, Size)` (default 1), `size_max = max(size, SizeMax)` (default
`size`), `stack_size = max(0, StackSize)` (default 0) and `size_warn` equal
to the configured `SizeWarn`; when `SizeWarn` is absent and `size_max * 80`
fits a 32 bit `int`, `size_warn = size_max * 80 / 100` with integer division;
hence `1 <= size <= size_max` always. -/
theorem create_clamps (props : Properties) (fdIntrRead timeout : Int) :
    (ThreadPool.create props fdIntrRead timeout).size = max 1 (props.size.getD 1) ∧
    (ThreadPool.create props fdIntrRead timeout).sizeMax =
      max (ThreadPool.create props fdIntrRead timeout).size
        (props.sizeMax.getD (ThreadPool.create props fdIntrRead timeout).size) ∧
    (ThreadPool.create props fdIntrRead timeout).stackSize = max 0 (props.stackSize.getD 0) ∧
    (∀ w, props.sizeWarn = some w → (ThreadPool.create props fdIntrRead timeout).sizeWarn = w) ∧
    (props.sizeWarn = none →
      (ThreadPool.create props fdIntrRead timeout).sizeMax * 80 < 2147483648 →
      (ThreadPool.create props fdIntrRead timeout).sizeWarn =
        (ThreadPool.create props fdIntrRead timeout).sizeMax * 80 / 100) ∧
    1 ≤ (ThreadPool.create props fdIntrRead timeout).size ∧
    (ThreadPool.create props fdIntrRead timeout).size ≤
      (ThreadPool.create props fdIntrRead timeout).sizeMax := by
  simp only [ThreadPool.create]
  refine ⟨?_, ?_, ?_, ?_, ?_, ?_, ?_⟩
  · split_ifs <;> omega
  · split_ifs <;> omega
  · split_ifs <;> omega
  · intro w hw
    rw [hw]
    rfl
  · intro hw hfit
    rw [hw]
    simp only [Option.getD_none]
    refine sizeWarn_default _ ?_ hfit
    split_ifs <;> omega
  · split_ifs <;> omega
  · split_ifs <;> omega

/-- Witness of C17 (amended): `Size` 0, `SizeMax` 10 and `StackSize` -5 give
size 1, size_max 10, size_warn 8 and stack_size 0. -/
theorem create_clamps_witness :
    (ThreadPool.create clampedProps 3 0).size = 1 ∧
    (ThreadPool.create clampedProps 3 0).sizeMax = 10 ∧
    (ThreadPool.create clampedProps 3 0).stackSize = 0 ∧
    (ThreadPool.create clampedProps 3 0).sizeWarn = 8 :=
  have w := create_clamps clampedProps 3 0
  ⟨w.1.trans (by decide), w.2.1.trans (by decide), w.2.2.1.trans (by decide),
    (w.2.2.2.2.1 rfl (by decide)).trans (by decide)⟩

/-! ## Growth on demand -/

theorem exec_append {τ : Type} (cfg : Config) (w : World τ) (es fs : List Event) :
    World.exec cfg w (es ++ fs) = (World.exec cfg w es).bind (fun w1 => World.exec cfg w1 fs) := by
  induction es generalizing w with
  | nil => rfl
  | cons e es ih =>
    simp only [List.cons_append, World.exec]
    cases World.step cfg w e with
    | none => rfl
    | some w1 => exact ih w1

/-- One promotion on a pool with a free thread: the leader clears the flag,
`promoteFollower` sets it, counts the thread as in use, warns at `sizeWarn`
and starts a thread when all running threads are in use. -/
theorem promotion_step {τ : Type} (cfg : Config) (w : World τ) (hmax : w.pool.sizeMax > 1)
    (hpr : w.pool.promote = true) (hd : w.pool.destroyed = false) (hin : 0 ≤ w.pool.inUse)
    (hle : w.pool.inUse + 1 ≤ w.pool.running) :
    World.exec cfg w [Event.acquireLeader, Event.promoteFollower true] =
      some { w with
        pool := { w.pool with
          inUse := w.pool.inUse + 1,
          running := if w.pool.inUse + 1 < w.pool.sizeMax ∧ w.pool.inUse + 1 = w.pool.running
            then w.pool.running + 1 else w.pool.running },
        trace := w.trace ++
          (if w.pool.inUse + 1 = w.pool.sizeWarn then [Callback.warning] else []) } := by
  obtain ⟨p, pipe, objs, trace⟩ := w
  simp only at hmax hpr hd hin hle
  simp only [World.exec, World.step, ThreadPool.acquireLeader, ThreadPool.promoteFollower, hmax,
    hpr, hd, if_true, Bool.false_eq_true, if_false, not_false_eq_true, ge_iff_le, hin,
    not_true_eq_false, hle]
  split_ifs <;> rfl

/-- The pool after `k` successive promotions, for `k` up to `sizeMax`. -/
theorem promotions_exec {τ : Type} (cfg : Config) (w0 : World τ) (hmax : w0.pool.sizeMax > 1)
    (hpr : w0.pool.promote = true) (hd : w0.pool.destroyed = false) (hin : w0.pool.inUse = 0)
    (hrun : w0.pool.running = w0.pool.size) (h1 : 1 ≤ w0.pool.size)
    (hsz : w0.pool.size ≤ w0.pool.sizeMax) (htr : warningCalls w0.trace = 0)
    (k : Nat) (hk : (k : Int) ≤ w0.pool.sizeMax) :
    ∃ w, World.exec cfg w0 (promotions k) = some w ∧
      w.pool.promote = true ∧ w.pool.destroyed = false ∧
      w.pool.size = w0.pool.size ∧ w.pool.sizeMax = w0.pool.sizeMax ∧
      w.pool.sizeWarn = w0.pool.sizeWarn ∧
      w.pool.inUse = k ∧
      w.pool.running = max w0.pool.size (min ((k : Int) + 1) w0.pool.sizeMax) ∧
      warningCalls w.trace = if 1 ≤ w0.pool.sizeWarn ∧ w0.pool.sizeWarn ≤ k then 1 else 0 := by
  induction k with
  | zero =>
    refine ⟨w0, rfl, hpr, hd, rfl, rfl, rfl, by simpa using hin, ?_, ?_⟩
    · rw [hrun]
      simp only [Nat.cast_zero, zero_add]
      omega
    · rw [htr]
      split_ifs with hc
      · exfalso
        have := hc.1
        have := hc.2
        simp only [Nat.cast_zero] at *
        omega
      · rfl
  | succ k ih =>
    have hk0 : (k : Int) ≤ w0.pool.sizeMax := by
      push_cast at hk
      omega
    obtain ⟨w, hex, hp, hdd, hs, hm, hw, hi, hr, ht⟩ := ih hk0
    push_cast at hk
    have hstep := promotion_step cfg w (by rw [hm]; exact hmax) hp hdd (by rw [hi]; omega)
      (by rw [hi, hr]; omega)
    have hex2 := exec_append cfg w0 (promotions k) [Event.acquireLeader, Event.promoteFollower true]
    rw [hex] at hex2
    replace hex2 := hex2.trans hstep
    refine ⟨_, hex2, ?_⟩
    · refine ⟨hp, hdd, hs, hm, hw, ?_, ?_, ?_⟩
      · simp only [hi]
        push_cast
        rfl
      · simp only [hi, hm, hr]
        push_cast
        split_ifs <;> omega
      · simp only [warningCalls, List.count_append] at ht ⊢
        rw [ht, hi, hw]
        push_cast
        split_ifs <;> simp_all <;> omega

/-- C15: for every configuration whose pool has `size_max > 1` and every `k`
with `1 <= k <= size_max`, `k` successive `promoteFollower` calls on the
freshly constructed pool (the promote flag cleared by the leader before each
call, thread creation succeeding) run without a failed assertion and leave
`in_use = k` and `running = max(size, min(k + 1, size_max))`; the
low-on-threads warning has been logged exactly once if
`1 <= size_warn <= k` and not at all otherwise. -/
theorem promoteFollower_growth {τ : Type} (cfg : Config) (props : Properties)
    (fdIntrRead timeout : Int) (objs : Nat → EventHandler τ) (k : Nat)
    (hmax : (ThreadPool.create props fdIntrRead timeout).sizeMax > 1) (_hk1 : 1 ≤ k)
    (hk : (k : Int) ≤ (ThreadPool.create props fdIntrRead timeout).sizeMax) :
    ∃ w, World.exec cfg (World.init props fdIntrRead timeout objs) (promotions k) = some w ∧
      w.pool.inUse = k ∧
      w.pool.running = max (ThreadPool.create props fdIntrRead timeout).size
        (min ((k : Int) + 1) (ThreadPool.create props fdIntrRead timeout).sizeMax) ∧
      warningCalls w.trace =
        if 1 ≤ (ThreadPool.create props fdIntrRead timeout).sizeWarn ∧
          (ThreadPool.create props fdIntrRead timeout).sizeWarn ≤ k then 1 else 0 := by
  obtain ⟨w, hex, -, -, -, -, -, hi, hr, ht⟩ :=
    promotions_exec cfg (World.init props fdIntrRead timeout objs) hmax rfl rfl rfl rfl
      (by simp only [World.init, ThreadPool.create]; split_ifs <;> omega)
      (by simp only [World.init, ThreadPool.create]; split_ifs <;> omega) rfl k hk
  exact ⟨w, hex, hi, hr, ht⟩

/-- Witness of C15: with `SizeMax` = 4, four promotions leave four threads in
use and exactly four running, and one warning (`size_warn` = 3). -/
theorem promoteFollower_growth_witness :
    ∃ w, World.exec iceConfig elasticWorld (promotions 4) = some w ∧
      w.pool.inUse = 4 ∧ w.pool.running = 4 ∧ warningCalls w.trace = 1 := by
  obtain ⟨w, hex, hi, hr, ht⟩ := promoteFollower_growth iceConfig ⟨some 1, some 4, none, none⟩ 3 0
    (fun _ => streamHandler []) 4 (by decide) (by decide) (by decide)
  exact ⟨w, hex, hi, hr.trans (by decide), ht.trans (by decide)⟩

/-! ## The idle timeout -/

theorem promoteFollower_timeout (p q : ThreadPool) (ok : Bool) (logs : List Callback)
    (h : ThreadPool.promoteFollower p ok = some (q, logs)) :
    q.timeout = p.timeout ∧ shutdownCalls logs = 0 := by
  unfold ThreadPool.promoteFollower at h
  simp only at h
  split_ifs at h <;> simp only [Option.some.injEq, Prod.mk.injEq] at h <;>
    (obtain ⟨h1, h2⟩ := h; subst h1; subst h2; exact ⟨rfl, by simp [shutdownCalls]⟩)

theorem applyChange_timeout (p : ThreadPool) :
    (ThreadPool.applyChange p).1.timeout = p.timeout := by
  unfold ThreadPool.applyChange
  rcases p.changes with _ | ⟨⟨fd, handler⟩, rest⟩
  · rfl
  · cases handler with
    | some h => rfl
    | none =>
      simp only
      cases mapFind p.handlerMap fd <;> rfl

theorem sizePolicy_timeout (p : ThreadPool) :
    (ThreadPool.sizePolicy p).1.timeout = p.timeout := by
  unfold ThreadPool.sizePolicy
  simp only
  split_ifs <;> rfl

theorem dispatchMessage_shutdown {τ : Type} (cfg : Config) (w : World τ) (handler : Nat) :
    shutdownCalls (ThreadPool.dispatchMessage cfg w handler).1.trace = shutdownCalls w.trace := by
  unfold ThreadPool.dispatchMessage
  by_cases hr : (w.objs handler).readable = true
  · simp only [hr, if_true]
    generalize ThreadPool.read cfg.protocol cfg.messageSizeMax cfg.warnUdp (w.objs handler) = r
    rcases r with ⟨h, o, n, m⟩
    cases o with
    | ok =>
      simp only
      split_ifs <;> simp [shutdownCalls, List.count_replicate]
    | raised e =>
      cases e <;> simp [shutdownCalls, List.count_replicate]
    | assertFailed =>
      simp [shutdownCalls, List.count_replicate]
  · simp [hr, shutdownCalls]

/-- A pass of the loop on a wake with `ret == 0` that fails no assertion. -/
theorem run_timeout {τ : Type} (cfg : Config) (w : World τ) (k : Wake) (h0 : k.ret = 0)
    (hna : (ThreadPool.run cfg w k).2 ≠ Flow.assertFailed) :
    0 < w.pool.timeout ∧ (ThreadPool.run cfg w k).1.pool.timeout = 0 ∧
    shutdownCalls (ThreadPool.run cfg w k).1.trace =
      shutdownCalls w.trace + (if k.communicatorDestroyed then 0 else 1) := by
  have h1 : ¬ ((0 : Int) = SOCKET_ERROR) := by decide
  unfold ThreadPool.run at hna ⊢
  simp only [h0, h1, if_false, if_true] at hna ⊢
  by_cases ht : w.pool.timeout > 0
  · simp only [ht, not_true_eq_false, if_false] at hna ⊢
    cases hc : k.communicatorDestroyed with
    | true => simp [ht]
    | false =>
      simp only [hc, Bool.false_eq_true, if_false] at hna ⊢
      split at hna
      · exact absurd rfl hna
      · next q logs hp =>
        obtain ⟨hq, hl⟩ := promoteFollower_timeout _ q _ logs hp
        refine ⟨trivial, hq, ?_⟩
        simp only [shutdownCalls, List.count_append] at hl ⊢
        rw [hl]
        simp
  · simp only [ht, not_false_eq_true, if_true] at hna
    exact absurd rfl hna

/-- A pass of the loop on a wake with `ret != 0` leaves the timeout alone
and does not call `shutdown`. -/
theorem run_no_timeout {τ : Type} (cfg : Config) (w : World τ) (k : Wake) (h0 : k.ret ≠ 0) :
    (ThreadPool.run cfg w k).1.pool.timeout = w.pool.timeout ∧
    shutdownCalls (ThreadPool.run cfg w k).1.trace = shutdownCalls w.trace := by
  unfold ThreadPool.run
  by_cases h1 : k.ret = SOCKET_ERROR
  · simp only [h1, if_true]
    split_ifs <;> simp [shutdownCalls]
  simp only [h1, if_false, h0]
  by_cases h3 : w.pool.fdIntrRead ∈ k.fdSet
  · simp only [h3, if_true]
    split_ifs
    · exact ⟨rfl, rfl⟩
    · exact ⟨rfl, rfl⟩
    · have ha := applyChange_timeout w.pool
      rcases hac : ThreadPool.applyChange w.pool with ⟨q, d⟩
      rw [hac] at ha
      cases d <;> simp [shutdownCalls] <;> exact ha
  simp only [h3, if_false]
  cases hrr : ThreadPool.roundRobin w.pool k.fdSet with
  | none => exact ⟨rfl, rfl⟩
  | some r =>
    obtain ⟨lastFd, loops⟩ := r
    simp only
    split_ifs
    · simp [shutdownCalls]
    · exact ⟨rfl, rfl⟩
    · cases hf : mapFind w.pool.handlerMap lastFd with
      | none => simp [shutdownCalls]
      | some handler =>
        simp only
        rw [dispatchMessage_pool, dispatchMessage_shutdown]
        exact ⟨rfl, rfl⟩

/-- What one event does to the timeout and to the number of `shutdown` calls. -/
theorem step_timeout {τ : Type} (cfg : Config) (w w1 : World τ) (e : Event)
    (hs : World.step cfg w e = some w1) :
    (timeoutWakes [e] = [] →
      w1.pool.timeout = w.pool.timeout ∧ shutdownCalls w1.trace = shutdownCalls w.trace) ∧
    (∀ k, timeoutWakes [e] = [k] →
      0 < w.pool.timeout ∧ w1.pool.timeout = 0 ∧
      shutdownCalls w1.trace =
        shutdownCalls w.trace + (if k.communicatorDestroyed then 0 else 1)) := by
  cases e with
  | register fd handler =>
    simp only [World.step, ThreadPool._register] at hs
    split_ifs at hs
    simp only [Option.some.injEq] at hs
    subst hs
    exact ⟨fun _ => ⟨rfl, rfl⟩, fun k hk => by simp [timeoutWakes] at hk⟩
  | unregister fd =>
    simp only [World.step, ThreadPool.unregister] at hs
    split_ifs at hs
    simp only [Option.some.injEq] at hs
    subst hs
    exact ⟨fun _ => ⟨rfl, rfl⟩, fun k hk => by simp [timeoutWakes] at hk⟩
  | destroy =>
    simp only [World.step, ThreadPool.destroy] at hs
    split_ifs at hs
    simp only [Option.some.injEq] at hs
    subst hs
    exact ⟨fun _ => ⟨rfl, rfl⟩, fun k hk => by simp [timeoutWakes] at hk⟩
  | promoteFollower ok =>
    simp only [World.step] at hs
    split at hs
    · exact Option.noConfusion hs
    · next q logs hp =>
      simp only [Option.some.injEq] at hs
      subst hs
      obtain ⟨hq, hl⟩ := promoteFollower_timeout _ q _ logs hp
      refine ⟨fun _ => ⟨hq, ?_⟩, fun k hk => by simp [timeoutWakes] at hk⟩
      simp only [shutdownCalls, List.count_append] at hl ⊢
      omega
  | sizePolicy =>
    simp only [World.step] at hs
    have ht := sizePolicy_timeout w.pool
    split at hs
    · exact Option.noConfusion hs
    · next q f _ hp =>
      simp only [Option.some.injEq] at hs
      subst hs
      rw [hp] at ht
      exact ⟨fun _ => ⟨ht, rfl⟩, fun k hk => by simp [timeoutWakes] at hk⟩
  | acquireLeader =>
    simp only [World.step, ThreadPool.acquireLeader] at hs
    split at hs
    · exact Option.noConfusion hs
    · next q hp =>
      simp only [Option.some.injEq] at hs
      subst hs
      refine ⟨fun _ => ⟨?_, rfl⟩, fun k hk => by simp [timeoutWakes] at hk⟩
      split_ifs at hp <;> simp only [Option.some.injEq] at hp <;> (subst hp; rfl)
  | wake k =>
    simp only [World.step] at hs
    have hna : (ThreadPool.run cfg w k).2 ≠ Flow.assertFailed := by
      intro hc
      rcases hr : ThreadPool.run cfg w k with ⟨w2, f⟩
      rw [hr] at hc hs
      simp only at hc
      subst hc
      simp only at hs
      exact Option.noConfusion hs
    have hw : w1 = (ThreadPool.run cfg w k).1 := by
      rcases hr : ThreadPool.run cfg w k with ⟨w2, f⟩
      rw [hr] at hs
      cases f <;> simp only [Option.some.injEq] at hs <;>
        first | exact hs.symm | exact Option.noConfusion hs
    subst hw
    by_cases h0 : k.ret = 0
    · refine ⟨fun hc => by simp [timeoutWakes, h0] at hc, fun k2 hk => ?_⟩
      simp only [timeoutWakes, h0, if_true, List.cons.injEq, and_true] at hk
      subst hk
      exact run_timeout cfg w k h0 hna
    · exact ⟨fun _ => run_no_timeout cfg w k h0, fun k2 hk => by simp [timeoutWakes, h0] at hk⟩

theorem timeoutWakes_cons (e : Event) (es : List Event) :
    timeoutWakes (e :: es) = timeoutWakes [e] ++ timeoutWakes es := by
  cases e <;> simp only [timeoutWakes, List.nil_append]
  split_ifs <;> rfl

theorem timeoutWakes_single (e : Event) :
    timeoutWakes [e] = [] ∨ ∃ k, timeoutWakes [e] = [k] := by
  cases e <;> simp only [timeoutWakes, true_or]
  split_ifs
  · exact Or.inr ⟨_, rfl⟩
  · exact Or.inl rfl

/-- The timeout and the `shutdown` calls over a sequence of events: at most
one wake with `ret == 0` passes the assertion, it needs a positive timeout
and clears it, and `shutdown` is called at it unless the communicator is
destroyed. -/
theorem exec_timeout {τ : Type} (cfg : Config) (es : List Event) (w0 w : World τ)
    (hex : World.exec cfg w0 es = some w) :
    (timeoutWakes es = [] →
      w.pool.timeout = w0.pool.timeout ∧ shutdownCalls w.trace = shutdownCalls w0.trace) ∧
    (∀ k, k ∈ timeoutWakes es →
      timeoutWakes es = [k] ∧ 0 < w0.pool.timeout ∧ w.pool.timeout = 0 ∧
      shutdownCalls w.trace =
        shutdownCalls w0.trace + (if k.communicatorDestroyed then 0 else 1)) := by
  induction es generalizing w0 with
  | nil =>
    simp only [World.exec, Option.some.injEq] at hex
    subst hex
    exact ⟨fun _ => ⟨rfl, rfl⟩, fun k hk => by simp [timeoutWakes] at hk⟩
  | cons e es ih =>
    simp only [World.exec] at hex
    cases hs : World.step cfg w0 e with
    | none =>
      rw [hs] at hex
      exact Option.noConfusion hex
    | some w1 =>
      rw [hs] at hex
      obtain ⟨ih1, ih2⟩ := ih w1 hex
      obtain ⟨s1, s2⟩ := step_timeout cfg w0 w1 e hs
      rw [timeoutWakes_cons]
      rcases timeoutWakes_single e with he | ⟨k0, he⟩
      · rw [he, List.nil_append]
        obtain ⟨a1, a2⟩ := s1 he
        refine ⟨fun hn => ?_, fun k hk => ?_⟩
        · obtain ⟨b1, b2⟩ := ih1 hn
          exact ⟨b1.trans a1, b2.trans a2⟩
        · obtain ⟨b1, b2, b3, b4⟩ := ih2 k hk
          exact ⟨b1, a1 ▸ b2, b3, a2 ▸ b4⟩
      · rw [he]
        obtain ⟨a1, a2, a3⟩ := s2 k0 he
        have hnil : timeoutWakes es = [] := by
          cases hl : timeoutWakes es with
          | nil => rfl
          | cons k1 rest =>
            have := (ih2 k1 (by rw [hl]; exact List.mem_cons_self _ _)).2.1
            omega
        obtain ⟨b1, b2⟩ := ih1 hnil
        rw [hnil]
        refine ⟨fun hn => by simp at hn, fun k hk => ?_⟩
        simp only [List.singleton_append, List.mem_singleton] at hk
        subst hk
        exact ⟨rfl, a1, b1.trans a2, b2.trans a3⟩

/-- C11 as stated fails: the wait of a pool with a timeout of five seconds
times out when the communicator is already destroyed; the pass clears the
timeout and goes on to the next wait, and `shutdown` is never called. -/
theorem timeout_without_shutdown :
    timeoutWakes [Event.acquireLeader, Event.wake lateTimeout] = [lateTimeout] ∧
    (World.exec iceConfig idleWorld [Event.acquireLeader, Event.wake lateTimeout]).map
      (fun w => (shutdownCalls w.trace, w.pool.timeout, ThreadPool.selectTimeout w.pool)) =
      some (0, 0, none) := by
  refine ⟨rfl, by decide⟩

/-- C11 (amended): a wake with wait result 0 is processed only while
`timeout_seconds > 0` and sets `timeout_seconds` to 0; consequently, over
every run of the loop from construction at most one wait times out; when one
does, the object-adapter factory's `shutdown` has been invoked exactly once
if the factory could be obtained at that wake and not at all if the
communicator was already destroyed, and every wait issued after that timeout
is one without a timeout. When no wait times out `shutdown` is not invoked. -/
theorem timeout_shutdown {τ : Type} (cfg : Config) (props : Properties)
    (fdIntrRead timeout : Int) (objs : Nat → EventHandler τ) (es : List Event) (w : World τ)
    (hex : World.exec cfg (World.init props fdIntrRead timeout objs) es = some w) :
    (timeoutWakes es).length ≤ 1 ∧
    (timeoutWakes es = [] → shutdownCalls w.trace = 0) ∧
    (∀ k, k ∈ timeoutWakes es →
      0 < timeout ∧ shutdownCalls w.trace = (if k.communicatorDestroyed then 0 else 1)) ∧
    (∀ es1 es2, es = es1 ++ es2 → timeoutWakes es1 ≠ [] →
      ∃ w1, World.exec cfg (World.init props fdIntrRead timeout objs) es1 = some w1 ∧
        w1.pool.timeout = 0 ∧ ThreadPool.selectTimeout w1.pool = none) := by
  obtain ⟨h1, h2⟩ := exec_timeout cfg es _ w hex
  refine ⟨?_, fun hn => (h1 hn).2, fun k hk => ?_, fun es1 es2 hes hne => ?_⟩
  · cases hl : timeoutWakes es with
    | nil => simp
    | cons k rest =>
      have := (h2 k (by rw [hl]; exact List.mem_cons_self _ _)).1
      rw [hl] at this
      rw [this]
      simp
  · obtain ⟨-, b2, -, b4⟩ := h2 k hk
    refine ⟨b2, ?_⟩
    rw [b4]
    simp [World.init, shutdownCalls]
  · subst hes
    rw [exec_append] at hex
    cases h1e : World.exec cfg (World.init props fdIntrRead timeout objs) es1 with
    | none =>
      rw [h1e] at hex
      exact Option.noConfusion hex
    | some w1 =>
      obtain ⟨-, c2⟩ := exec_timeout cfg es1 _ w1 h1e
      cases hl : timeoutWakes es1 with
      | nil => exact absurd hl hne
      | cons k rest =>
        obtain ⟨-, -, c3, -⟩ := c2 k (by rw [hl]; exact List.mem_cons_self _ _)
        refine ⟨w1, rfl, c3, ?_⟩
        simp [ThreadPool.selectTimeout, c3]

/-- Witness of C11 (amended): the wait of the pool with a timeout of five
seconds times out while the factory is available; `shutdown` is called once
and the next wait has no timeout. -/
theorem timeout_shutdown_witness :
    (World.exec iceConfig idleWorld [Event.acquireLeader, Event.wake idleTimeout]).map
      (fun w => (shutdownCalls w.trace, ThreadPool.selectTimeout w.pool)) = some (1, none) ∧
    (timeoutWakes [Event.acquireLeader, Event.wake idleTimeout]).length ≤ 1 := by
  have hs : (World.exec iceConfig idleWorld
      [Event.acquireLeader, Event.wake idleTimeout]).isSome = true := by decide
  cases hex : World.exec iceConfig idleWorld [Event.acquireLeader, Event.wake idleTimeout] with
  | none =>
    rw [hex] at hs
    exact Bool.noConfusion hs
  | some w =>
    have h := timeout_shutdown iceConfig ⟨some 1, some 4, none, none⟩ 3 5
      (fun _ => streamHandler []) [Event.acquireLeader, Event.wake idleTimeout] w hex
    obtain ⟨w1, hw1, -, hsel⟩ := h.2.2.2 _ [] (List.append_nil _).symm
      (by simp [timeoutWakes, idleTimeout])
    have hww : some w = some w1 := hex.symm.trans hw1
    rw [Option.some.injEq] at hww
    subst hww
    refine ⟨?_, h.1⟩
    simp only [Option.map_some']
    rw [(h.2.2.1 idleTimeout (by simp [timeoutWakes, idleTimeout])).2, hsel]
    rfl

/-! ## The bounds of the descriptor set -/

theorem Extent_of_extent (p q : ThreadPool) (h : q.extent = p.extent) (hx : Extent p) :
    Extent q := by
  simp only [ThreadPool.extent, Prod.mk.injEq] at h
  obtain ⟨h1, h2, h3, h4⟩ := h
  unfold Extent at *
  rw [h1, h2, h3, h4]
  exact hx

theorem promoteFollower_extent (p q : ThreadPool) (ok : Bool) (logs : List Callback)
    (h : ThreadPool.promoteFollower p ok = some (q, logs)) : q.extent = p.extent := by
  unfold ThreadPool.promoteFollower at h
  simp only at h
  split_ifs at h <;> simp only [Option.some.injEq, Prod.mk.injEq] at h <;>
    (obtain ⟨h1, _⟩ := h; subst h1; rfl)

theorem sizePolicy_extent (p : ThreadPool) :
    (ThreadPool.sizePolicy p).1.extent = p.extent := by
  unfold ThreadPool.sizePolicy
  simp only
  split_ifs <;> rfl

theorem acquireLeader_extent (p q : ThreadPool)
    (h : ThreadPool.acquireLeader p = some q) : q.extent = p.extent := by
  unfold ThreadPool.acquireLeader at h
  split_ifs at h <;> simp only [Option.some.injEq] at h <;> (subst h; rfl)

/-- The last entry of a table in ascending key order has the largest key. -/
theorem getLast_greatest (m : List (Int × Nat)) (hs : (mapKeys m).Pairwise (· < ·))
    (e : Int × Nat) (h : m.getLast? = some e) :
    e.1 ∈ mapKeys m ∧ ∀ x ∈ mapKeys m, x ≤ e.1 := by
  induction m with
  | nil => simp at h
  | cons a rest ih =>
    simp only [mapKeys, List.map_cons, List.pairwise_cons] at hs
    cases rest with
    | nil =>
      simp only [List.getLast?_singleton, Option.some.injEq] at h
      subst h
      simp [mapKeys]
    | cons b r =>
      rw [List.getLast?_cons_cons] at h
      obtain ⟨i1, i2⟩ := ih hs.2 h
      refine ⟨List.mem_cons_of_mem _ i1, fun x hx => ?_⟩
      simp only [mapKeys, List.map_cons, List.mem_cons] at hx
      rcases hx with hx | hx
      · have := hs.1 e.1 i1
        omega
      · exact i2 x (by simpa [mapKeys] using hx)

/-- The first entry of a table in ascending key order has the smallest key. -/
theorem head_least (m : List (Int × Nat)) (hs : (mapKeys m).Pairwise (· < ·))
    (e : Int × Nat) (h : m.head? = some e) :
    e.1 ∈ mapKeys m ∧ ∀ x ∈ mapKeys m, e.1 ≤ x := by
  cases m with
  | nil => simp at h
  | cons a rest =>
    simp only [List.head?_cons, Option.some.injEq] at h
    subst h
    simp only [mapKeys, List.map_cons, List.pairwise_cons] at hs
    refine ⟨List.mem_cons_self _ _, fun x hx => ?_⟩
    simp only [mapKeys, List.map_cons, List.mem_cons] at hx
    rcases hx with hx | hx
    · omega
    · have := hs.1 x hx
      omega

/-- The bounds computed at a removal (lines 417-423) are the extent of the
descriptor set, when the table holds the descriptors other than the
interrupt read end. -/
theorem Extent_of_table (q : ThreadPool) (hk : KeysMatch q)
    (hs : (mapKeys q.handlerMap).Pairwise (· < ·)) (hi : q.fdIntrRead ∈ q.fdSet)
    (hmax : q.maxFd = match q.handlerMap.getLast? with
      | none => q.fdIntrRead
      | some e => max q.fdIntrRead e.1)
    (hmin : q.minFd = match q.handlerMap.head? with
      | none => q.fdIntrRead
      | some e => min q.fdIntrRead e.1) : Extent q := by
  have hmem : ∀ x, x ∈ q.fdSet ↔ x = q.fdIntrRead ∨ x ∈ mapKeys q.handlerMap := by
    intro x
    rw [hk x]
    constructor
    · intro hx
      by_cases hxi : x = q.fdIntrRead
      · exact Or.inl hxi
      · exact Or.inr ⟨hx, hxi⟩
    · rintro (hx | hx)
      · rw [hx]; exact hi
      · exact hx.1
  cases hm : q.handlerMap with
  | nil =>
    rw [hm] at hmax hmin hmem
    simp only [List.getLast?_nil, List.head?_nil] at hmax hmin
    refine ⟨hi, hmax ▸ hi, hmin ▸ hi, fun fd hfd => ?_⟩
    have := (hmem fd).mp hfd
    simp only [mapKeys, List.map_nil, List.not_mem_nil, or_false] at this
    omega
  | cons a rest =>
    obtain ⟨e, he⟩ : ∃ e, q.handlerMap.getLast? = some e := by
      rw [hm]
      exact ⟨_, List.getLast?_eq_getLast _ (List.cons_ne_nil _ _)⟩
    have hh : q.handlerMap.head? = some a := by rw [hm]; rfl
    obtain ⟨l1, l2⟩ := getLast_greatest _ hs e he
    obtain ⟨f1, f2⟩ := head_least _ hs a hh
    rw [he] at hmax
    rw [hh] at hmin
    simp only at hmax hmin
    refine ⟨hi, ?_, ?_, fun fd hfd => ?_⟩
    · rw [hmax]
      rcases max_choice q.fdIntrRead e.1 with hc | hc
      · rw [hc]; exact hi
      · rw [hc]; exact (hmem _).mpr (Or.inr l1)
    · rw [hmin]
      rcases min_choice q.fdIntrRead a.1 with hc | hc
      · rw [hc]; exact hi
      · rw [hc]; exact (hmem _).mpr (Or.inr f1)
    · rw [hmax, hmin]
      rcases (hmem fd).mp hfd with hx | hx
      · omega
      · have := l2 fd hx
        have := f2 fd hx
        omega

/-- Draining one change keeps the extent of the descriptor set. -/
theorem applyChange_Extent (intr : Int) (p : ThreadPool) (hb : Bookkeeping intr p)
    (hx : Extent p) : Extent (ThreadPool.applyChange p).1 := by
  obtain ⟨hi, hk, hs, hc⟩ := hb
  obtain ⟨x1, x2, x3, x4⟩ := hx
  unfold ThreadPool.applyChange
  rcases hch : p.changes with _ | ⟨⟨fd, handler⟩, rest⟩
  · exact ⟨x1, x2, x3, x4⟩
  · cases handler with
    | some h =>
      refine ⟨Finset.mem_insert_of_mem x1, ?_, ?_, fun y hy => ?_⟩
      · show max p.maxFd fd ∈ insert fd p.fdSet
        rcases max_choice p.maxFd fd with hm | hm
        · rw [hm]; exact Finset.mem_insert_of_mem x2
        · rw [hm]; exact Finset.mem_insert_self _ _
      · show min p.minFd fd ∈ insert fd p.fdSet
        rcases min_choice p.minFd fd with hm | hm
        · rw [hm]; exact Finset.mem_insert_of_mem x3
        · rw [hm]; exact Finset.mem_insert_self _ _
      · show min p.minFd fd ≤ y ∧ y ≤ max p.maxFd fd
        have hy2 : y ∈ insert fd p.fdSet := hy
        rcases Finset.mem_insert.mp hy2 with he | he
        · omega
        · have := x4 y he
          omega
    | none =>
      simp only
      cases hf : mapFind p.handlerMap fd with
      | none => exact ⟨x1, x2, x3, x4⟩
      | some h =>
        have hfk : fd ∈ mapKeys p.handlerMap := by
          rw [← mapFind_isSome, hf]
          rfl
        have hne : fd ≠ p.fdIntrRead := ((hk fd).mp hfk).2
        refine Extent_of_table _ ?_ (mapErase_sorted _ _ hs) ?_ rfl rfl
        · intro x
          simp only [mem_mapKeys_mapErase _ _ _ hs, Finset.mem_erase]
          rw [hk x]
          tauto
        · exact Finset.mem_erase.mpr ⟨fun hc2 => hne hc2.symm, x1⟩

/-- One pass of the loop keeps the extent of the descriptor set. -/
theorem run_Extent {τ : Type} (cfg : Config) (intr : Int) (w : World τ) (k : Wake)
    (hb : Bookkeeping intr w.pool) (hx : Extent w.pool) :
    Extent (ThreadPool.run cfg w k).1.pool := by
  unfold ThreadPool.run
  by_cases h1 : k.ret = SOCKET_ERROR
  · simp only [h1, if_true]
    split_ifs <;> exact hx
  simp only [h1, if_false]
  by_cases h2 : k.ret = 0
  · simp only [h2, if_true]
    split_ifs
    all_goals first
      | exact hx
      | exact Extent_of_extent w.pool _ rfl hx
      | (split
         · exact Extent_of_extent w.pool _ rfl hx
         · next q logs hp =>
           exact Extent_of_extent w.pool q ((promoteFollower_extent _ q _ logs hp).trans rfl) hx)
  simp only [h2, if_false]
  by_cases h3 : w.pool.fdIntrRead ∈ k.fdSet
  · simp only [h3, if_true]
    split_ifs
    · exact hx
    · exact hx
    · have ha := applyChange_Extent intr w.pool hb hx
      rcases hac : ThreadPool.applyChange w.pool with ⟨q, d⟩
      rw [hac] at ha
      cases d <;> exact ha
  simp only [h3, if_false]
  cases hrr : ThreadPool.roundRobin w.pool k.fdSet with
  | none => exact hx
  | some r =>
    obtain ⟨lastFd, loops⟩ := r
    have hx1 : Extent { w.pool with lastFd := lastFd } := Extent_of_extent w.pool _ rfl hx
    simp only
    split_ifs
    · exact hx1
    · exact hx1
    · cases hf : mapFind w.pool.handlerMap lastFd with
      | none => exact hx1
      | some handler =>
        simp only
        rw [dispatchMessage_pool]
        exact hx1

/-- Every event keeps the extent of the descriptor set, where the
bookkeeping invariant holds. -/
theorem step_Extent {τ : Type} (cfg : Config) (intr : Int) (w w1 : World τ) (e : Event)
    (hstep : World.step cfg w e = some w1) (hb : Bookkeeping intr w.pool) (hx : Extent w.pool) :
    Extent w1.pool := by
  cases e with
  | register fd handler =>
    simp only [World.step, ThreadPool._register] at hstep
    split_ifs at hstep
    simp only [Option.some.injEq] at hstep
    subst hstep
    exact Extent_of_extent w.pool _ rfl hx
  | unregister fd =>
    simp only [World.step, ThreadPool.unregister] at hstep
    split_ifs at hstep
    simp only [Option.some.injEq] at hstep
    subst hstep
    exact Extent_of_extent w.pool _ rfl hx
  | destroy =>
    simp only [World.step, ThreadPool.destroy] at hstep
    split_ifs at hstep
    simp only [Option.some.injEq] at hstep
    subst hstep
    exact Extent_of_extent w.pool _ rfl hx
  | wake k =>
    have hi := run_Extent cfg intr w k hb hx
    simp only [World.step] at hstep
    rcases hit : ThreadPool.run cfg w k with ⟨w2, f⟩
    rw [hit] at hstep hi
    cases f <;> simp only [Option.some.injEq] at hstep <;> first
      | (subst hstep; exact hi)
      | exact Option.noConfusion hstep
  | promoteFollower ok =>
    simp only [World.step] at hstep
    cases hp : ThreadPool.promoteFollower w.pool ok with
    | none => rw [hp] at hstep; exact Option.noConfusion hstep
    | some r =>
      obtain ⟨q, logs⟩ := r
      rw [hp] at hstep
      simp only [Option.some.injEq] at hstep
      subst hstep
      exact Extent_of_extent w.pool _ (promoteFollower_extent _ _ _ _ hp) hx
  | sizePolicy =>
    simp only [World.step] at hstep
    have hd := sizePolicy_extent w.pool
    rcases hsp : ThreadPool.sizePolicy w.pool with ⟨q, f⟩
    rw [hsp] at hstep hd
    cases f <;> simp only [Option.some.injEq] at hstep <;> first
      | (subst hstep; exact Extent_of_extent w.pool _ hd hx)
      | exact Option.noConfusion hstep
  | acquireLeader =>
    simp only [World.step] at hstep
    cases hp : ThreadPool.acquireLeader w.pool with
    | none => rw [hp] at hstep; exact Option.noConfusion hstep
    | some q =>
      rw [hp] at hstep
      simp only [Option.some.injEq] at hstep
      subst hstep
      exact Extent_of_extent w.pool _ (acquireLeader_extent _ _ hp) hx

theorem exec_Extent {τ : Type} (cfg : Config) (intr : Int) (events : List Event) :
    ∀ (w w1 : World τ), (∀ fd h, Event.register fd (some h) ∈ events → fd ≠ intr) →
      World.exec cfg w events = some w1 → Bookkeeping intr w.pool → Extent w.pool →
      Extent w1.pool := by
  induction events with
  | nil =>
    intro w w1 _ hrun _ hx
    simp only [World.exec, Option.some.injEq] at hrun
    subst hrun
    exact hx
  | cons e es ih =>
    intro w w1 he hrun hb hx
    simp only [World.exec] at hrun
    cases hs : World.step cfg w e with
    | none => rw [hs] at hrun; exact Option.noConfusion hrun
    | some w2 =>
      rw [hs] at hrun
      exact ih w2 w1 (fun fd h hm => he fd h (List.mem_cons_of_mem _ hm)) hrun
        (step_bookkeeping cfg intr w w2 e
          (fun fd h heq => he fd h (heq ▸ List.mem_cons_self _ _)) hs hb)
        (step_Extent cfg intr w w2 e hs hb hx)

theorem create_Extent (props : Properties) (intr timeout : Int) :
    Extent (ThreadPool.create props intr timeout) := by
  simp [Extent, ThreadPool.create]

/-- C16 as stated fails: a handler is registered on the interrupt read end
itself (descriptor 3) and unregistered again; draining the removal clears
descriptor 3 from `fd_set`, which is then empty, while `max_fd` and `min_fd`
are 3. -/
theorem extent_fails_on_interrupt_fd :
    ∃ w, World.exec iceConfig world3
        [Event.register 3 (some 1), Event.wake intrWake, Event.unregister 3,
          Event.wake intrWake] = some w ∧
      w.pool.fdIntrRead = 3 ∧ w.pool.fdSet = ∅ ∧ w.pool.maxFd = 3 ∧ w.pool.minFd = 3 ∧
      w.pool.handlerMap = [] ∧ ¬ Extent w.pool := by
  refine ⟨_, rfl, rfl, by decide, by decide, by decide, by decide, ?_⟩
  intro h
  have h3 := h.1
  revert h3
  decide

/-- C16 (amended): after construction and after every drained change, in any
sequence of events in which no handler is registered on the interrupt read
end itself (each drained unregister naming a registered descriptor), the
interrupt read end is in `fd_set`, `max_fd` is the largest and `min_fd` the
smallest descriptor in `fd_set`; in particular when no handlers are left both
equal the interrupt read end. -/
theorem extent_invariant {τ : Type} (cfg : Config) (props : Properties) (intr timeout : Int)
    (objs : Nat → EventHandler τ) (events : List Event)
    (hreg : ∀ fd h, Event.register fd (some h) ∈ events → fd ≠ intr) (n : Nat) (w : World τ)
    (hrun : World.exec cfg (World.init props intr timeout objs) (events.take n) = some w) :
    Extent w.pool ∧ w.pool.fdIntrRead = intr ∧
    (w.pool.handlerMap = [] → w.pool.maxFd = intr ∧ w.pool.minFd = intr) := by
  have hb := exec_bookkeeping cfg intr (events.take n) _ w
    (fun fd h hm => hreg fd h (List.mem_of_mem_take hm)) hrun
    (create_bookkeeping props intr timeout)
  have hx := exec_Extent cfg intr (events.take n) _ w
    (fun fd h hm => hreg fd h (List.mem_of_mem_take hm)) hrun
    (create_bookkeeping props intr timeout) (create_Extent props intr timeout)
  refine ⟨hx, hb.1, fun hm => ?_⟩
  obtain ⟨hi, hk, -, -⟩ := hb
  have honly : ∀ x ∈ w.pool.fdSet, x = intr := by
    intro x hxm
    by_contra hne
    have := (hk x).mpr ⟨hxm, by rw [hi]; exact hne⟩
    rw [hm] at this
    simp [mapKeys] at this
  exact ⟨honly _ hx.2.1, honly _ hx.2.2.1⟩

/-- Witness of C16 (amended): register and unregister on descriptor 10, both
drained; the bounds are 3 and 10 in between and collapse to 3. -/
theorem extent_invariant_witness :
    (∃ w, World.exec iceConfig world3 (registerUnregister.take 2) = some w ∧ Extent w.pool ∧
      w.pool.minFd = 3 ∧ w.pool.maxFd = 10) ∧
    (∃ w, World.exec iceConfig world3 (registerUnregister.take 4) = some w ∧ Extent w.pool ∧
      w.pool.minFd = 3 ∧ w.pool.maxFd = 3) := by
  have hreg : ∀ fd h, Event.register fd (some h) ∈ registerUnregister → fd ≠ 3 := by
    intro fd h hm
    simp only [registerUnregister, List.mem_cons, Event.register.injEq, List.mem_singleton,
      reduceCtorEq, or_false, false_or, List.not_mem_nil] at hm
    omega
  refine ⟨⟨_, rfl, (extent_invariant iceConfig ⟨none, none, none, none⟩ 3 0
      (fun _ => streamHandler []) registerUnregister hreg 2 _ rfl).1, by decide, by decide⟩,
    ⟨_, rfl, (extent_invariant iceConfig ⟨none, none, none, none⟩ 3 0
      (fun _ => streamHandler []) registerUnregister hreg 4 _ rfl).1, ?_, ?_⟩⟩
  · exact ((extent_invariant iceConfig ⟨none, none, none, none⟩ 3 0
      (fun _ => streamHandler []) registerUnregister hreg 4 _ rfl).2.2 rfl).2
  · exact ((extent_invariant iceConfig ⟨none, none, none, none⟩ 3 0
      (fun _ => streamHandler []) registerUnregister hreg 4 _ rfl).2.2 rfl).1

/-! ## Round robin under a constant ready set -/

/-- The descriptor of section 4.2 is determined by `lastFd` and the ready set. -/
theorem choice_unique (L : Int) (R : Finset Int) (a b : Int)
    (ha : IsRoundRobinChoice L R a) (hb : IsRoundRobinChoice L R b) : a = b := by
  obtain ⟨a1, a2, a3⟩ := ha
  obtain ⟨b1, b2, b3⟩ := hb
  by_cases hc : L ≠ INVALID_SOCKET ∧ ∃ fd ∈ R, L < fd
  · have x := a2 hc
    have y := b2 hc
    have := x.2 b b1 y.1
    have := y.2 a a1 x.1
    omega
  · have := a3 hc b b1
    have := b3 hc a a1
    omega

/-- In the ascending list of the ready descriptors, the choice after the
descriptor at position `i` is the one at the next position, the first one
after the last. -/
theorem choice_succ (l : List Int) (hs : l.Sorted (· < ·)) (R : Finset Int)
    (hmem : ∀ x, x ∈ l ↔ x ∈ R) (i : Nat) (hi : i < l.length)
    (hv : l[i] ≠ INVALID_SOCKET) :
    IsRoundRobinChoice l[i] R (l.getD ((i + 1) % l.length) 0) := by
  have hpw := List.pairwise_iff_getElem.mp hs
  have hpos : 0 < l.length := by omega
  have hlt : (i + 1) % l.length < l.length := Nat.mod_lt _ hpos
  rw [List.getD_eq_getElem l 0 hlt]
  have hmono : ∀ a b (ha : a < l.length) (hb : b < l.length), a ≤ b → l[a] ≤ l[b] := by
    intro a b ha hb hab
    rcases Nat.lt_or_eq_of_le hab with h | h
    · exact le_of_lt (hpw a b ha hb h)
    · subst h; exact le_refl _
  refine ⟨(hmem _).mp (List.getElem_mem _), ?_, ?_⟩
  · rintro ⟨-, fd, hfd, hgt⟩
    obtain ⟨j, hj, rfl⟩ := List.mem_iff_getElem.mp ((hmem fd).mpr hfd)
    have hij : i < j := by
      by_contra hc
      have := hmono j i hj hi (by omega)
      omega
    have hi1 : i + 1 < l.length := by omega
    have hmod : (i + 1) % l.length = i + 1 := Nat.mod_eq_of_lt hi1
    simp only [hmod]
    refine ⟨hpw i (i + 1) hi hi1 (by omega), ?_⟩
    intro fd2 hfd2 hgt2
    obtain ⟨j2, hj2, rfl⟩ := List.mem_iff_getElem.mp ((hmem fd2).mpr hfd2)
    have hij2 : i < j2 := by
      by_contra hc
      have := hmono j2 i hj2 hi (by omega)
      omega
    exact hmono (i + 1) j2 hi1 hj2 (by omega)
  · intro hno fd hfd
    obtain ⟨j, hj, rfl⟩ := List.mem_iff_getElem.mp ((hmem fd).mpr hfd)
    by_cases hi1 : i + 1 < l.length
    · exfalso
      exact hno ⟨hv, l[i + 1], (hmem _).mp (List.getElem_mem _), hpw i (i + 1) hi hi1 (by omega)⟩
    · have hmod : (i + 1) % l.length = 0 := by
        have : i + 1 = l.length := by omega
        rw [this, Nat.mod_self]
      simp only [hmod]
      exact hmono 0 j hpos hj (by omega)

/-- A pass on a wake that reports ready handler descriptors, all registered
and within the bounds, moves `_lastFd` to the round-robin choice and changes
nothing else in the pool. -/
theorem run_selects {τ : Type} (cfg : Config) (w : World τ) (k : Wake)
    (hret : 0 < k.ret) (hintr : w.pool.fdIntrRead ∉ k.fdSet) (hne : k.fdSet.Nonempty)
    (hreg : ∀ fd ∈ k.fdSet, (mapFind w.pool.handlerMap fd).isSome = true ∧
      w.pool.minFd ≤ fd ∧ fd ≤ w.pool.maxFd) :
    ∃ sel, IsRoundRobinChoice w.pool.lastFd k.fdSet sel ∧
      (ThreadPool.run cfg w k).1.pool = { w.pool with lastFd := sel } := by
  obtain ⟨sel, loops, hrr, hloops, hchoice⟩ :=
    roundRobin_choice w.pool k.fdSet hne (fun fd hfd => (hreg fd hfd).2)
  have hsel : sel ∈ k.fdSet := hchoice.1
  have hselne : sel ≠ w.pool.fdIntrRead := fun h => hintr (h ▸ hsel)
  obtain ⟨handler, hfind⟩ := Option.isSome_iff_exists.mp (hreg sel hsel).1
  have h1 : ¬ (k.ret = SOCKET_ERROR) := by unfold SOCKET_ERROR; omega
  have h2 : ¬ (k.ret = 0) := by omega
  have h3 : ¬ (loops > 1) := by omega
  have hit : ThreadPool.run cfg w k =
      ThreadPool.dispatchMessage cfg { w with pool := { w.pool with lastFd := sel } } handler := by
    unfold ThreadPool.run
    simp only [h1, h2, hintr, if_false, hrr, h3, hselne, hfind]
  refine ⟨sel, hchoice, ?_⟩
  rw [hit, dispatchMessage_pool]

/-- The selections of successive passes from a pool whose `_lastFd` is the
ready descriptor at position `i`: they go on from position `i + 1`, cyclically. -/
theorem selections_from {τ : Type} (cfg : Config) (k : Wake) (l : List Int)
    (hs : l.Sorted (· < ·)) (hmem : ∀ x, x ∈ l ↔ x ∈ k.fdSet)
    (hvalid : INVALID_SOCKET ∉ k.fdSet) (hret : 0 < k.ret) (hne : k.fdSet.Nonempty) (m : Nat) :
    ∀ (w : World τ) (i : Nat) (hi : i < l.length), w.pool.lastFd = l[i] →
      w.pool.fdIntrRead ∉ k.fdSet →
      (∀ fd ∈ k.fdSet, (mapFind w.pool.handlerMap fd).isSome = true ∧
        w.pool.minFd ≤ fd ∧ fd ≤ w.pool.maxFd) →
      selections cfg w k m =
        (List.range m).map (fun t => l.getD ((i + 1 + t) % l.length) 0) := by
  induction m with
  | zero => intro w i hi _ _ _; rfl
  | succ m ih =>
    intro w i hi hlast hintr hreg
    obtain ⟨sel, hch, hpool⟩ := run_selects cfg w k hret hintr hne hreg
    have hpos : 0 < l.length := by omega
    have hlt : (i + 1) % l.length < l.length := Nat.mod_lt _ hpos
    have hv : l[i] ≠ INVALID_SOCKET := fun hc =>
      hvalid (hc ▸ (hmem _).mp (List.getElem_mem _))
    rw [hlast] at hch
    have hsel : sel = l.getD ((i + 1) % l.length) 0 :=
      choice_unique _ _ _ _ hch (choice_succ l hs k.fdSet hmem i hi hv)
    have hsel2 : sel = l[(i + 1) % l.length] := by
      rw [hsel, List.getD_eq_getElem l 0 hlt]
    have hnext := ih (ThreadPool.run cfg w k).1 ((i + 1) % l.length) hlt
      (by rw [hpool]; exact hsel2) (by rw [hpool]; exact hintr) (by rw [hpool]; exact hreg)
    simp only [selections]
    rw [hnext, hpool, List.range_succ_eq_map, List.map_cons, List.map_map]
    simp only [add_zero]
    rw [← hsel]
    congr 1
    apply List.map_congr_left
    intro t _
    simp only [Function.comp, Nat.succ_eq_add_one]
    congr 1
    rw [Nat.add_assoc ((i + 1) % l.length), Nat.mod_add_mod]
    congr 1
    omega

/-- The cyclic enumeration of a list from position `i0` is its rotation. -/
theorem cycle_eq_rotate (l : List Int) (i0 : Nat) :
    (List.range l.length).map (fun t => l.getD ((i0 + t) % l.length) 0) = l.rotate i0 := by
  apply List.ext_getElem
  · simp
  · intro n h1 h2
    have hn : n < l.length := by simpa using h1
    have hlt : (i0 + n) % l.length < l.length := Nat.mod_lt _ (by omega)
    rw [List.getElem_map, List.getElem_range, List.getElem_rotate,
      List.getD_eq_getElem l 0 hlt]
    simp only [Nat.add_comm]

/-- C19: if the same non-empty set `R` of registered descriptors (valid
ones, within the bounds, the interrupt read end not among them) is reported
ready on successive wakes with no change drained in between, the first
selection is the round-robin choice for the initial `last_fd`, at some
position `i0` of the ascending list of `R`, and the selections go on
cyclically from there: the first `n = |R|` selections are that list rotated
by `i0`, so they visit every descriptor of `R` exactly once, in ascending
order with one wrap to the smallest, and selection `n + 1` is the first one
again. -/
theorem round_robin_cycle {τ : Type} (cfg : Config) (w : World τ) (k : Wake)
    (hret : 0 < k.ret) (hintr : w.pool.fdIntrRead ∉ k.fdSet) (hne : k.fdSet.Nonempty)
    (hreg : ∀ fd ∈ k.fdSet, (mapFind w.pool.handlerMap fd).isSome = true ∧
      w.pool.minFd ≤ fd ∧ fd ≤ w.pool.maxFd)
    (hvalid : INVALID_SOCKET ∉ k.fdSet) :
    ∃ i0, i0 < k.fdSet.card ∧
      IsRoundRobinChoice w.pool.lastFd k.fdSet ((k.fdSet.sort (· ≤ ·)).getD i0 0) ∧
      (∀ m, selections cfg w k m =
        (List.range m).map
          (fun t => (k.fdSet.sort (· ≤ ·)).getD ((i0 + t) % k.fdSet.card) 0)) ∧
      selections cfg w k k.fdSet.card = (k.fdSet.sort (· ≤ ·)).rotate i0 ∧
      (selections cfg w k k.fdSet.card).Nodup ∧
      (∀ fd, fd ∈ selections cfg w k k.fdSet.card ↔ fd ∈ k.fdSet) ∧
      selections cfg w k (k.fdSet.card + 1) =
        (k.fdSet.sort (· ≤ ·)).rotate i0 ++ [(k.fdSet.sort (· ≤ ·)).getD i0 0] := by
  have hs := Finset.sort_sorted_lt k.fdSet
  have hmem : ∀ x, x ∈ k.fdSet.sort (· ≤ ·) ↔ x ∈ k.fdSet := fun x => Finset.mem_sort _
  have hlen : (k.fdSet.sort (· ≤ ·)).length = k.fdSet.card := Finset.length_sort _
  generalize k.fdSet.sort (· ≤ ·) = l at hs hmem hlen
  obtain ⟨sel, hch, hpool⟩ := run_selects cfg w k hret hintr hne hreg
  obtain ⟨i0, hi0, hget⟩ := List.mem_iff_getElem.mp ((hmem sel).mpr hch.1)
  have hd : l.getD i0 0 = sel := by rw [List.getD_eq_getElem l 0 hi0]; exact hget
  have hall : ∀ m, selections cfg w k m =
      (List.range m).map (fun t => l.getD ((i0 + t) % l.length) 0) := by
    intro m
    cases m with
    | zero => rfl
    | succ m =>
      have hnext := selections_from cfg k l hs hmem hvalid hret hne m
        (ThreadPool.run cfg w k).1 i0 hi0 (by rw [hpool]; exact hget.symm)
        (by rw [hpool]; exact hintr) (by rw [hpool]; exact hreg)
      simp only [selections]
      rw [hnext, hpool, List.range_succ_eq_map, List.map_cons, List.map_map]
      simp only [add_zero, Nat.mod_eq_of_lt hi0, hd]
      congr 1
      apply List.map_congr_left
      intro t _
      simp only [Function.comp, Nat.succ_eq_add_one]
      congr 2
      omega
  have hrot : selections cfg w k l.length = l.rotate i0 := by
    rw [hall, cycle_eq_rotate]
  rw [← hlen]
  refine ⟨i0, hi0, hd ▸ hch, hall, hrot, ?_, ?_, ?_⟩
  · rw [hrot, List.nodup_rotate]
    exact hs.nodup
  · intro fd
    rw [hrot, List.mem_rotate, hmem]
  · rw [hall, List.range_succ, List.map_append, ← hall, hrot]
    simp only [List.map_cons, List.map_nil]
    congr 2
    rw [Nat.add_mod_right, Nat.mod_eq_of_lt hi0]

/-- Witness of C19: the descriptors 10, 20 and 30 are ready on every wake and
`last_fd` is invalid at first; the selections are 10, 20, 30 and then 10
again. -/
theorem round_robin_cycle_witness :
    selections iceConfig rrFreshWorld rrWake 4 = [10, 20, 30, 10] ∧
    ∃ i0, i0 < 3 ∧
      selections iceConfig rrFreshWorld rrWake 3 =
        (Finset.sort (· ≤ ·) ({10, 20, 30} : Finset Int)).rotate i0 := by
  obtain ⟨i0, h1, -, -, h3, -⟩ := round_robin_cycle iceConfig rrFreshWorld rrWake (by decide)
    (by decide) (by decide) (by decide) (by decide)
  exact ⟨by decide, i0, h1, h3⟩

/-! ## The two round-robin variants -/

/-- What the WIN32 loop computes: `largerFd` is the minimum of its start
value and the ready descriptors above `lastFd` (all of them when `lastFd` is
invalid), `smallestFd` the minimum of its start value and all ready
descriptors. -/
theorem win32Scan_spec (L : Int) (arr : List Int) (hvalid : INVALID_SOCKET ∉ arr) :
    ∀ a b : Int, ∃ a1 b1, win32Scan L arr (a, b) = some (a1, b1) ∧
      a1 ≤ a ∧ (∀ fd ∈ arr, (fd > L ∨ L = INVALID_SOCKET) → a1 ≤ fd) ∧
      (a1 = a ∨ (a1 ∈ arr ∧ (a1 > L ∨ L = INVALID_SOCKET))) ∧
      b1 ≤ b ∧ (∀ fd ∈ arr, b1 ≤ fd) ∧ (b1 = b ∨ b1 ∈ arr) := by
  induction arr with
  | nil =>
    intro a b
    exact ⟨a, b, rfl, le_refl _, fun _ h => by simp at h, Or.inl rfl, le_refl _,
      fun _ h => by simp at h, Or.inl rfl⟩
  | cons fd rest ih =>
    intro a b
    have hfd : fd ≠ INVALID_SOCKET := fun hc => hvalid (hc ▸ List.mem_cons_self _ _)
    have hrest : INVALID_SOCKET ∉ rest := fun hc => hvalid (List.mem_cons_of_mem _ hc)
    obtain ⟨a1, b1, hscan, ha, hall, hmem, hb, hball, hbmem⟩ := ih hrest
      (if fd > L ∨ L = INVALID_SOCKET then min a fd else a) (min b fd)
    refine ⟨a1, b1, ?_, ?_, ?_, ?_, ?_, ?_, ?_⟩
    · simp only [win32Scan, hfd, if_false]
      exact hscan
    · split_ifs at ha <;> omega
    · intro x hx hc
      rcases List.mem_cons.mp hx with hx | hx
      · subst hx
        rw [if_pos hc] at ha
        omega
      · exact hall x hx hc
    · rcases hmem with h | ⟨h1, h2⟩
      · by_cases hc : fd > L ∨ L = INVALID_SOCKET
        · rw [if_pos hc] at h
          rcases min_choice a fd with hm | hm
          · exact Or.inl (h.trans hm)
          · exact Or.inr ⟨by rw [h, hm]; exact List.mem_cons_self _ _, by rw [h, hm]; exact hc⟩
        · rw [if_neg hc] at h
          exact Or.inl h
      · exact Or.inr ⟨List.mem_cons_of_mem _ h1, h2⟩
    · omega
    · intro x hx
      rcases List.mem_cons.mp hx with hx | hx
      · subst hx
        omega
      · exact hball x hx
    · rcases hbmem with h | h
      · rcases min_choice b fd with hm | hm
        · exact Or.inl (h.trans hm)
        · exact Or.inr (by rw [h, hm]; exact List.mem_cons_self _ _)
      · exact Or.inr (List.mem_cons_of_mem _ h)

/-- The WIN32 round robin passes its assertions and picks the descriptor of
section 4.2, when valid descriptors within the bounds are ready. -/
theorem roundRobinWin32_choice (p : ThreadPool) (arr : List Int) (hne : arr ≠ [])
    (hrange : ∀ fd ∈ arr, p.minFd ≤ fd ∧ fd ≤ p.maxFd) (hvalid : INVALID_SOCKET ∉ arr) :
    ∃ sel, p.roundRobinWin32 arr = Selection.selected sel ∧
      IsRoundRobinChoice p.lastFd arr.toFinset sel := by
  obtain ⟨a1, b1, hscan, ha, hall, hmem, hb, hball, hbmem⟩ :=
    win32Scan_spec p.lastFd arr hvalid (p.maxFd + 1) (p.maxFd + 1)
  obtain ⟨x0, hx0⟩ := List.exists_mem_of_ne_nil arr hne
  have hlen : ¬ (arr.length = 0) := fun hc => hne (List.length_eq_zero.mp hc)
  have hb1 : b1 ∈ arr := by
    rcases hbmem with h | h
    · have := hball x0 hx0
      have := (hrange x0 hx0).2
      omega
    · exact h
  unfold ThreadPool.roundRobinWin32
  simp only [hlen, if_false, hscan]
  by_cases hle : a1 ≤ p.maxFd
  · have ha1 : a1 ∈ arr ∧ (a1 > p.lastFd ∨ p.lastFd = INVALID_SOCKET) := by
      rcases hmem with h | h
      · omega
      · exact h
    have hge : a1 ≥ p.minFd := (hrange a1 ha1.1).1
    simp only [hle, if_true, hge, not_true_eq_false, if_false]
    refine ⟨a1, rfl, List.mem_toFinset.mpr ha1.1, ?_, ?_⟩
    · rintro ⟨hL, -⟩
      refine ⟨?_, fun fd hfd hlt => hall fd (List.mem_toFinset.mp hfd) (Or.inl hlt)⟩
      rcases ha1.2 with h | h
      · exact h
      · exact absurd h hL
    · intro hno fd hfd
      rcases ha1.2 with h | h
      · by_cases hL : p.lastFd = INVALID_SOCKET
        · exact hall fd (List.mem_toFinset.mp hfd) (Or.inr hL)
        · exact absurd ⟨hL, a1, List.mem_toFinset.mpr ha1.1, h⟩ hno
      · exact hall fd (List.mem_toFinset.mp hfd) (Or.inr h)
  · have hnone : ∀ fd ∈ arr, ¬ (fd > p.lastFd ∨ p.lastFd = INVALID_SOCKET) := by
      intro fd hfd hc
      have := hall fd hfd hc
      have := (hrange fd hfd).2
      omega
    have hr := hrange b1 hb1
    have hin : b1 ≥ p.minFd ∧ b1 ≤ p.maxFd := ⟨hr.1, hr.2⟩
    simp only [hle, if_false, hin, and_self, not_true_eq_false]
    refine ⟨b1, rfl, List.mem_toFinset.mpr hb1, ?_, ?_⟩
    · rintro ⟨-, fd, hfd, hlt⟩
      exact absurd (Or.inl hlt) (hnone fd (List.mem_toFinset.mp hfd))
    · intro _ fd hfd
      exact hball fd (List.mem_toFinset.mp hfd)

/-- C22: for every pool (bounds `min_fd`, `max_fd`, any `last_fd`, the
invalid sentinel included) and every non-empty array of ready descriptors
contained in `[min_fd, max_fd]`, none of them the invalid sentinel, the WIN32
variant passes its assertions, the Unix scan ends with at most one
wrap-around, and both select the same descriptor, the round-robin choice of
section 4.2, which becomes `last_fd` in both. -/
theorem round_robin_variants_agree (p : ThreadPool) (fdArray : List Int) (hne : fdArray ≠ [])
    (hrange : ∀ fd ∈ fdArray, p.minFd ≤ fd ∧ fd ≤ p.maxFd)
    (hvalid : INVALID_SOCKET ∉ fdArray) :
    ∃ sel loops, p.roundRobinWin32 fdArray = Selection.selected sel ∧
      p.roundRobin fdArray.toFinset = some (sel, loops) ∧ loops ≤ 1 ∧
      IsRoundRobinChoice p.lastFd fdArray.toFinset sel := by
  obtain ⟨sel, hw, hcw⟩ := roundRobinWin32_choice p fdArray hne hrange hvalid
  obtain ⟨x0, hx0⟩ := List.exists_mem_of_ne_nil fdArray hne
  obtain ⟨sel2, loops, hu, hl, hcu⟩ := roundRobin_choice p fdArray.toFinset
    ⟨x0, List.mem_toFinset.mpr hx0⟩ (fun fd hfd => hrange fd (List.mem_toFinset.mp hfd))
  have heq : sel2 = sel := choice_unique _ _ _ _ hcu hcw
  subst heq
  exact ⟨sel2, loops, hw, hu, hl, hcu⟩

/-- Witness of C22: descriptors 30, 10 and 20 are ready (in this order in
the array) and `last_fd` is 10; both variants select 20. -/
theorem round_robin_variants_agree_witness :
    rrPool.roundRobinWin32 [30, 10, 20] = Selection.selected 20 ∧
    ∃ loops, rrPool.roundRobin {10, 20, 30} = some (20, loops) ∧ loops ≤ 1 := by
  obtain ⟨sel, loops, hw, hu, hl, -⟩ := round_robin_variants_agree rrPool [30, 10, 20]
    (by decide) (by decide) (by decide)
  have hsel : sel = 20 := by
    have h20 : rrPool.roundRobinWin32 [30, 10, 20] = Selection.selected 20 := by decide
    rw [h20] at hw
    exact (Selection.selected.inj hw).symm
  subst hsel
  exact ⟨hw, loops, hu, hl⟩

/-! ## Interrupt accounting -/

theorem promoteFollower_queue (p q : ThreadPool) (ok : Bool) (logs : List Callback)
    (h : ThreadPool.promoteFollower p ok = some (q, logs)) :
    q.changes = p.changes ∧ q.destroyed = p.destroyed := by
  unfold ThreadPool.promoteFollower at h
  simp only at h
  split_ifs at h <;> simp only [Option.some.injEq, Prod.mk.injEq] at h <;>
    (obtain ⟨h1, _⟩ := h; subst h1; exact ⟨rfl, rfl⟩)

theorem sizePolicy_queue (p : ThreadPool) :
    (ThreadPool.sizePolicy p).1.changes = p.changes ∧
    (ThreadPool.sizePolicy p).1.destroyed = p.destroyed := by
  unfold ThreadPool.sizePolicy
  simp only
  split_ifs <;> exact ⟨rfl, rfl⟩

theorem acquireLeader_queue (p q : ThreadPool) (h : ThreadPool.acquireLeader p = some q) :
    q.changes = p.changes ∧ q.destroyed = p.destroyed := by
  unfold ThreadPool.acquireLeader at h
  split_ifs at h <;> simp only [Option.some.injEq] at h <;> (subst h; exact ⟨rfl, rfl⟩)

/-- Draining takes the oldest change from the queue, unless the queue is empty. -/
theorem applyChange_queue (p : ThreadPool) :
    (ThreadPool.applyChange p).1.destroyed = p.destroyed ∧
    (p.changes = [] → (ThreadPool.applyChange p).2 = Drained.assertFailed) ∧
    (∀ c rest, p.changes = c :: rest → (ThreadPool.applyChange p).1.changes = rest) := by
  unfold ThreadPool.applyChange
  rcases hch : p.changes with _ | ⟨⟨fd, handler⟩, rest⟩
  · exact ⟨rfl, fun _ => rfl, fun c r h => by simp at h⟩
  · cases handler with
    | some h =>
      refine ⟨rfl, fun h => by simp at h, fun c r h => ?_⟩
      simp only [List.cons.injEq] at h
      exact h.2
    | none =>
      simp only
      cases mapFind p.handlerMap fd <;>
        (refine ⟨rfl, fun h => by simp at h, fun c r h => ?_⟩
         simp only [List.cons.injEq] at h
         exact h.2)

theorem dispatchMessage_pipe {τ : Type} (cfg : Config) (w : World τ) (handler : Nat) :
    (ThreadPool.dispatchMessage cfg w handler).1.pipe = w.pipe := by
  unfold ThreadPool.dispatchMessage
  by_cases hr : (w.objs handler).readable = true
  · simp only [hr, if_true]
    generalize ThreadPool.read cfg.protocol cfg.messageSizeMax cfg.warnUdp (w.objs handler) = r
    rcases r with ⟨h, o, n, m⟩
    cases o with
    | ok => simp only; split_ifs <;> rfl
    | raised e => cases e <;> rfl
    | assertFailed => rfl
  · simp [hr]

/-- A pass of the loop that fails no assertion and raises no exception takes
from the queue exactly the change `drainedChange` names, and one byte from
the pipe with it. -/
theorem run_queue {τ : Type} (cfg : Config) (w : World τ) (k : Wake)
    (hna : (ThreadPool.run cfg w k).2 ≠ Flow.assertFailed)
    (hnt : (ThreadPool.run cfg w k).2 ≠ Flow.threw) :
    (ThreadPool.run cfg w k).1.pool.destroyed = w.pool.destroyed ∧
    w.pool.changes = (ThreadPool.drainedChange w k).toList ++ (ThreadPool.run cfg w k).1.pool.changes ∧
    w.pipe = (ThreadPool.drainedChange w k).toList.length + (ThreadPool.run cfg w k).1.pipe := by
  unfold ThreadPool.run ThreadPool.drainedChange at *
  by_cases h1 : k.ret = SOCKET_ERROR
  · simp only [h1, if_true]
    split_ifs <;> simp
  simp only [h1, if_false] at hna hnt ⊢
  by_cases h2 : k.ret = 0
  · simp only [h2, if_true] at hna hnt ⊢
    by_cases ht : w.pool.timeout > 0
    · simp only [ht, not_true_eq_false, if_false] at hna hnt ⊢
      cases hc : k.communicatorDestroyed with
      | true => simp
      | false =>
        simp only [hc, Bool.false_eq_true, if_false] at hna hnt ⊢
        split at hna
        · exact absurd rfl hna
        · next q logs hp =>
          obtain ⟨hq1, hq2⟩ := promoteFollower_queue _ q _ logs hp
          simp only [Option.toList, List.nil_append, List.length_nil, zero_add]
          exact ⟨hq2, hq1.symm, trivial⟩
    · simp only [ht, not_false_eq_true, if_true] at hna
      exact absurd rfl hna
  simp only [h2, if_false] at hna hnt ⊢
  by_cases h3 : w.pool.fdIntrRead ∈ k.fdSet
  · simp only [h3, if_true] at hna hnt ⊢
    by_cases hd : w.pool.destroyed = true
    · simp [hd]
    · simp only [hd, Bool.false_eq_true, if_false] at hna hnt ⊢
      by_cases hp : w.pipe = 0
      · simp only [hp, if_true] at hnt
        exact absurd rfl hnt
      · simp only [hp, if_false] at hna ⊢
        obtain ⟨a1, a2, a3⟩ := applyChange_queue w.pool
        rcases hac : ThreadPool.applyChange w.pool with ⟨q, d⟩
        rw [hac] at a1 a2 a3 hna
        simp only at a1 a2 a3
        cases hch : w.pool.changes with
        | nil =>
          have := a2 hch
          subst this
          exact absurd rfl hna
        | cons c rest =>
          have hq := a3 c rest hch
          have hd2 : q.destroyed = w.pool.destroyed := a1
          cases d with
          | assertFailed => exact absurd rfl hna
          | added =>
            simp only [List.head?_cons, Option.toList, List.singleton_append, List.length_singleton,
              hq, hd2, true_and]
            exact ⟨by simpa using hd, by omega⟩
          | removed h =>
            simp only [List.head?_cons, Option.toList, List.singleton_append, List.length_singleton,
              hq, hd2, true_and]
            exact ⟨by simpa using hd, by omega⟩
  simp only [h3, if_false] at hna hnt ⊢
  cases hrr : ThreadPool.roundRobin w.pool k.fdSet with
  | none => simp
  | some r =>
    obtain ⟨lastFd, loops⟩ := r
    simp only
    split_ifs
    · simp
    · simp
    · cases hf : mapFind w.pool.handlerMap lastFd with
      | none => simp
      | some handler =>
        have hpool := dispatchMessage_pool cfg
          ({ w with pool := { w.pool with lastFd := lastFd } } : World τ) handler
        simp only [Option.toList, List.nil_append, List.length_nil, zero_add]
        rw [hpool]
        rw [dispatchMessage_pipe]
        exact ⟨rfl, rfl, rfl⟩

theorem enqueued_cons (e : Event) (es : List Event) :
    enqueued (e :: es) = enqueued [e] ++ enqueued es := by
  cases e <;> simp [enqueued]

/-- What one event does to the queue and to the interrupt accounting: the
changes queued before, followed by what the event enqueues, are what it
takes from the front followed by the queue afterwards. -/
theorem step_queue {τ : Type} (cfg : Config) (w w1 : World τ) (e : Event)
    (hs : World.step cfg w e = some w1) :
    (Accounted w → Accounted w1) ∧
    w.pool.changes ++ enqueued [e] = w.drainedBy e ++ w1.pool.changes := by
  unfold Accounted
  cases e with
  | register fd handler =>
    simp only [World.step, ThreadPool._register] at hs
    split_ifs at hs with hd
    simp only [Option.some.injEq] at hs
    subst hs
    refine ⟨fun ha => ?_, by simp [enqueued, World.drainedBy]⟩
    simp only [List.length_append, List.length_singleton]
    omega
  | unregister fd =>
    simp only [World.step, ThreadPool.unregister] at hs
    split_ifs at hs with hd
    simp only [Option.some.injEq] at hs
    subst hs
    refine ⟨fun ha => ?_, by simp [enqueued, World.drainedBy]⟩
    simp only [List.length_append, List.length_singleton]
    omega
  | destroy =>
    simp only [World.step, ThreadPool.destroy] at hs
    split_ifs at hs with hd
    simp only [Option.some.injEq] at hs
    subst hs
    refine ⟨fun ha => ?_, by simp [enqueued, World.drainedBy]⟩
    simp only [hd, Bool.false_eq_true, if_false, if_true] at ha ⊢
    omega
  | promoteFollower ok =>
    simp only [World.step] at hs
    split at hs
    · exact Option.noConfusion hs
    · next q logs hp =>
      simp only [Option.some.injEq] at hs
      subst hs
      obtain ⟨h1, h2⟩ := promoteFollower_queue _ q _ logs hp
      simp only [h1, h2, enqueued, World.drainedBy, List.append_nil, List.nil_append, and_true]
      exact fun ha => ha
  | sizePolicy =>
    simp only [World.step] at hs
    obtain ⟨h1, h2⟩ := sizePolicy_queue w.pool
    split at hs
    · exact Option.noConfusion hs
    · next q f _ hp =>
      simp only [Option.some.injEq] at hs
      subst hs
      rw [hp] at h1 h2
      simp only at h1 h2
      simp only [h1, h2, enqueued, World.drainedBy, List.append_nil, List.nil_append, and_true]
      exact fun ha => ha
  | acquireLeader =>
    simp only [World.step] at hs
    split at hs
    · exact Option.noConfusion hs
    · next q hp =>
      simp only [Option.some.injEq] at hs
      subst hs
      obtain ⟨h1, h2⟩ := acquireLeader_queue _ q hp
      simp only [h1, h2, enqueued, World.drainedBy, List.append_nil, List.nil_append, and_true]
      exact fun ha => ha
  | wake k =>
    simp only [World.step] at hs
    have hna : (ThreadPool.run cfg w k).2 ≠ Flow.assertFailed := by
      intro hc
      rcases hr : ThreadPool.run cfg w k with ⟨w2, f⟩
      rw [hr] at hc hs
      simp only at hc
      subst hc
      simp only at hs
      exact Option.noConfusion hs
    have hnt : (ThreadPool.run cfg w k).2 ≠ Flow.threw := by
      intro hc
      rcases hr : ThreadPool.run cfg w k with ⟨w2, f⟩
      rw [hr] at hc hs
      simp only at hc
      subst hc
      simp only at hs
      exact Option.noConfusion hs
    have hw : w1 = (ThreadPool.run cfg w k).1 := by
      rcases hr : ThreadPool.run cfg w k with ⟨w2, f⟩
      rw [hr] at hs
      cases f <;> simp only [Option.some.injEq] at hs <;>
        first | exact hs.symm | exact Option.noConfusion hs
    subst hw
    obtain ⟨q1, q2, q3⟩ := run_queue cfg w k hna hnt
    refine ⟨fun ha => ?_, ?_⟩
    · rw [q1]
      rw [q3] at ha
      have hl := congrArg List.length q2
      simp only [List.length_append] at hl
      omega
    · simp only [enqueued, List.append_nil, World.drainedBy]
      exact q2

/-- The interrupt accounting and the queue discipline over a sequence of
events. -/
theorem exec_queue {τ : Type} (cfg : Config) (es : List Event) (w0 w : World τ)
    (hex : World.exec cfg w0 es = some w) :
    (Accounted w0 → Accounted w) ∧
    w0.pool.changes ++ enqueued es = World.drained cfg w0 es ++ w.pool.changes := by
  induction es generalizing w0 with
  | nil =>
    simp only [World.exec, Option.some.injEq] at hex
    subst hex
    exact ⟨fun h => h, by simp [enqueued, World.drained]⟩
  | cons e es ih =>
    simp only [World.exec] at hex
    cases hs : World.step cfg w0 e with
    | none =>
      rw [hs] at hex
      exact Option.noConfusion hex
    | some w1 =>
      rw [hs] at hex
      obtain ⟨i1, i2⟩ := ih w1 hex
      obtain ⟨s1, s2⟩ := step_queue cfg w0 w1 e hs
      refine ⟨fun h => i1 (s1 h), ?_⟩
      rw [enqueued_cons, ← List.append_assoc, s2, List.append_assoc, i2]
      simp only [World.drained, hs, List.append_assoc]

theorem create_Accounted {τ : Type} (props : Properties) (intr timeout : Int)
    (objs : Nat → EventHandler τ) : Accounted (World.init props intr timeout objs) := by
  simp [Accounted, World.init, ThreadPool.create]

/-- C21 (interrupt accounting): in every state the pool reaches from
construction through register, unregister, destroy, wakes and the other
steps of its threads, the number of unread bytes in the interrupt channel is
the length of the changes queue, plus one if the pool is destroyed; the
changes enqueued so far, in the order of the calls, are the changes drained
so far, in the order of draining, followed by the queue. Hence on an
interrupt wake of a pool that is not destroyed (the read end is readable, so
a byte is unread) the queue is not empty, and the pass takes exactly one byte
and exactly the oldest entry. -/
theorem interrupt_accounting {τ : Type} (cfg : Config) (props : Properties)
    (intr timeout : Int) (objs : Nat → EventHandler τ) (es : List Event) (w : World τ)
    (hex : World.exec cfg (World.init props intr timeout objs) es = some w) :
    w.pipe = w.pool.changes.length + (if w.pool.destroyed then 1 else 0) ∧
    enqueued es = World.drained cfg (World.init props intr timeout objs) es ++ w.pool.changes ∧
    (∀ k : Wake, 0 < k.ret → w.pool.fdIntrRead ∈ k.fdSet → w.pool.destroyed = false →
      0 < w.pipe →
      ∃ c rest, w.pool.changes = c :: rest ∧ ThreadPool.drainedChange w k = some c ∧
        (ThreadPool.applyChange w.pool).1.changes = rest ∧
        (ThreadPool.run cfg w k).1.pipe = w.pipe - 1 ∧
        (ThreadPool.run cfg w k).1.pool.changes = rest) ∧
    (∀ ready : Finset Int, w.pool.destroyed = false →
      w.pool.fdIntrRead ∈ (select w ready).2 → w.pool.changes ≠ []) := by
  obtain ⟨h1, h2⟩ := exec_queue cfg es _ w hex
  have hacc : w.pipe = w.pool.changes.length + (if w.pool.destroyed then 1 else 0) :=
    h1 (create_Accounted props intr timeout objs)
  have hq : enqueued es =
      World.drained cfg (World.init props intr timeout objs) es ++ w.pool.changes := by
    rw [← h2]
    simp [World.init, ThreadPool.create]
  refine ⟨hacc, hq, ?_, ?_⟩
  · intro k hret hi hd hp
    rw [hd] at hacc
    simp only [Bool.false_eq_true, if_false, add_zero] at hacc
    cases hch : w.pool.changes with
    | nil =>
      rw [hch] at hacc
      simp only [List.length_nil] at hacc
      omega
    | cons c rest =>
      have hac := (applyChange_queue w.pool).2.2 c rest hch
      have e1 : ¬ (k.ret = SOCKET_ERROR) := by unfold SOCKET_ERROR; omega
      have e2 : ¬ (k.ret = 0) := by omega
      have e3 : ¬ (w.pipe = 0) := by omega
      refine ⟨c, rest, rfl, ?_, hac, ?_, ?_⟩
      · simp [ThreadPool.drainedChange, e1, e2, e3, hi, hd, hch]
      · rw [run_interrupt cfg w k hret hi hd hp]
        rcases hap : ThreadPool.applyChange w.pool with ⟨q, d⟩
        cases d <;> rfl
      · rw [run_interrupt cfg w k hret hi hd hp]
        rcases hap : ThreadPool.applyChange w.pool with ⟨q, d⟩
        rw [hap] at hac
        cases d <;> exact hac
  · intro ready hd hi hc
    rw [hd, hc] at hacc
    simp only [Bool.false_eq_true, if_false, add_zero, List.length_nil] at hacc
    simp only [select, Finset.mem_filter, if_true] at hi
    omega

/-- Witness of C21: descriptor 10 is registered, the addition is drained,
and the descriptor is unregistered: two bytes were written and one read, the
removal is the one change queued, and the addition was drained first. -/
theorem interrupt_accounting_witness :
    ∃ w, World.exec iceConfig world3 (registerUnregister.take 3) = some w ∧
      w.pipe = 1 ∧ w.pool.changes = [(10, none)] ∧
      enqueued (registerUnregister.take 3) = [(10, some 1), (10, none)] ∧
      World.drained iceConfig world3 (registerUnregister.take 3) = [(10, some 1)] ∧
      (ThreadPool.run iceConfig w intrWake).1.pipe = 0 := by
  refine ⟨_, rfl, ?_, by decide, by decide, by decide, ?_⟩
  · exact (interrupt_accounting iceConfig ⟨none, none, none, none⟩ 3 0
      (fun _ => streamHandler []) (registerUnregister.take 3) _ rfl).1.trans (by decide)
  · obtain ⟨c, rest, -, -, -, hp, -⟩ := (interrupt_accounting iceConfig ⟨none, none, none, none⟩ 3 0
      (fun _ => streamHandler []) (registerUnregister.take 3) _ rfl).2.2.1 intrWake (by decide)
      (by decide) rfl (by decide)
    exact hp.trans (by decide)

end IceInternal
